import Mathlib

/-!
# Symbolic differentiator: expression trees, parser, evaluator, printer

A shallow embedding of `differentiator.hpp` (class template `Expression<T>`).

* `std::string` is modelled as the list of its characters (`Str`).  The code
  compares characters only with ASCII signs, so it never cuts a character that
  takes several bytes.
* `std::shared_ptr<ExprNode<T>>` is modelled by the inductive type `ExprNode T`,
  whose constructor `null` is the null pointer.  A node keeps exactly the fields
  that the member functions read for its `ExprType` tag: `value` for `Constant`,
  `varName` for `Variable`, `left` for the four function nodes, `left` and
  `right` for the five operator nodes.
* The numeric template parameter `T` is abstract: every operation of `T` and of
  `<cmath>`/`<sstream>` that the header uses is a field of `Numeric T`.
* `throw std::runtime_error(msg)` is modelled by `Except RuntimeError`, one
  constructor per message.
-/

namespace Differentiator

/-- A `std::string`, as the list of its characters. -/
abbrev Str := List Char

/-- The messages of the `std::runtime_error`s thrown by the header. -/
inductive RuntimeError where
  /-- "Empty expression passed to parse()". -/
  | emptyExpression
  /-- "Invalid expression: just '-'.". -/
  | justMinus
  /-- "parse error with function " followed by the function name. -/
  | functionNotFound (funcName : Str)
  /-- "Unmatched parentheses in function call: " followed by the text. -/
  | unmatchedParens (expr : Str)
  /-- "Cannot parse to numeric value: " followed by the text. -/
  | cannotParse (s : Str)
  /-- "Cannot evaluate an empty node". -/
  | emptyNode
  /-- "Missing value for variable: " followed by the name. -/
  | missingValue (varName : Str)
  /-- "Division by zero". -/
  | divisionByZero
  /-- "ln domain error: argument <= 0". -/
  | lnDomain
  /-- "Unknown expression type in evaluateImpl()". -/
  | unknownType
  /-- Not an error of the program: the recursion budget of `parseFuel` ran out. -/
  | fuelExhausted
  deriving DecidableEq

/-- The operations on the numeric type `T` used by `Expression<T>`. -/
structure Numeric (T : Type) where
  /-- The casts `(T)0`, `(T)1`, `(T)2`, `(T)-1` of integer literals. -/
  ofInt : Int → T
  /-- `a + b`. -/
  add : T → T → T
  /-- `a - b`. -/
  sub : T → T → T
  /-- `a * b`. -/
  mul : T → T → T
  /-- `a / b`. -/
  div : T → T → T
  /-- `std::pow(base, exponent)`. -/
  pow : T → T → T
  /-- `std::sin`. -/
  sin : T → T
  /-- `std::cos`. -/
  cos : T → T
  /-- `std::log`. -/
  log : T → T
  /-- `std::exp`. -/
  exp : T → T
  /-- `std::fabs`. -/
  fabs : T → T
  /-- `a < b`. -/
  lt : T → T → Bool
  /-- `a <= b`. -/
  le : T → T → Bool
  /-- The literal `1e-15`. -/
  eps : T
  /-- `(T)M_PI`. -/
  pi : T
  /-- `(T)M_E`. -/
  e : T
  /-- Stream extraction `ss >> val` from a `std::stringstream` holding the text:
  `some val` when afterwards neither `ss.fail()` nor `!ss.eof()` holds. -/
  extract : Str → Option T
  /-- Stream insertion `oss << value` into an empty `std::ostringstream`. -/
  print : T → Str

/-- An expression tree: what a `std::shared_ptr<ExprNode<T>>` points to. -/
inductive ExprNode (T : Type) where
  | null : ExprNode T
  | Constant (value : T) : ExprNode T
  | Variable (varName : Str) : ExprNode T
  | Add (left right : ExprNode T) : ExprNode T
  | Sub (left right : ExprNode T) : ExprNode T
  | Mul (left right : ExprNode T) : ExprNode T
  | Div (left right : ExprNode T) : ExprNode T
  | Pow (left right : ExprNode T) : ExprNode T
  | Sin (left : ExprNode T) : ExprNode T
  | Cos (left : ExprNode T) : ExprNode T
  | Ln (left : ExprNode T) : ExprNode T
  | Exp (left : ExprNode T) : ExprNode T
  deriving DecidableEq

/-- The bindings `std::map<std::string, T>`, through its `find`. -/
abbrev VarValues (T : Type) := Str → Option T

/-- The bindings with `varName` bound to `val` (`m[varName] = val`). -/
def VarValues.bind {T : Type} (m : VarValues T) (varName : Str) (val : T) : VarValues T :=
  fun n => if n = varName then some val else m n

section Trees

variable {T : Type}

/-- `Expression::toStringImpl`. -/
def toStringImpl (N : Numeric T) : ExprNode T → Str
  | .null => []
  | .Constant value => N.print value
  | .Variable varName => varName
  | .Add l r => "(".toList ++ toStringImpl N l ++ " + ".toList ++ toStringImpl N r ++ ")".toList
  | .Sub l r => "(".toList ++ toStringImpl N l ++ " - ".toList ++ toStringImpl N r ++ ")".toList
  | .Mul l r => "(".toList ++ toStringImpl N l ++ " * ".toList ++ toStringImpl N r ++ ")".toList
  | .Div l r => "(".toList ++ toStringImpl N l ++ " / ".toList ++ toStringImpl N r ++ ")".toList
  | .Pow l r => "(".toList ++ toStringImpl N l ++ "^".toList ++ toStringImpl N r ++ ")".toList
  | .Sin u => "sin(".toList ++ toStringImpl N u ++ ")".toList
  | .Cos u => "cos(".toList ++ toStringImpl N u ++ ")".toList
  | .Ln u => "ln(".toList ++ toStringImpl N u ++ ")".toList
  | .Exp u => "exp(".toList ++ toStringImpl N u ++ ")".toList

/-- `Expression::substituteImpl`: a `Variable` named `varName` becomes
`Constant val`; every other node is copied with both children substituted. -/
def substituteImpl (node : ExprNode T) (varName : Str) (val : T) : ExprNode T :=
  match node with
  | .null => .null
  | .Constant value => .Constant value
  | .Variable n => if n = varName then .Constant val else .Variable n
  | .Add l r => .Add (substituteImpl l varName val) (substituteImpl r varName val)
  | .Sub l r => .Sub (substituteImpl l varName val) (substituteImpl r varName val)
  | .Mul l r => .Mul (substituteImpl l varName val) (substituteImpl r varName val)
  | .Div l r => .Div (substituteImpl l varName val) (substituteImpl r varName val)
  | .Pow l r => .Pow (substituteImpl l varName val) (substituteImpl r varName val)
  | .Sin u => .Sin (substituteImpl u varName val)
  | .Cos u => .Cos (substituteImpl u varName val)
  | .Ln u => .Ln (substituteImpl u varName val)
  | .Exp u => .Exp (substituteImpl u varName val)

/-- `Expression::evaluateImpl`.  The two operands of `+`, `-`, `*` are
evaluated left first (C++ leaves their order open); `Div` evaluates the
denominator, tests it, then evaluates the numerator; `Pow` evaluates the base,
then the exponent. -/
def evaluateImpl (N : Numeric T) (node : ExprNode T) (varValues : VarValues T) :
    Except RuntimeError T :=
  match node with
  | .null => .error .emptyNode
  | .Constant value => .ok value
  | .Variable varName =>
    match varValues varName with
    | none => .error (.missingValue varName)
    | some v => .ok v
  | .Add l r => do
    let a ← evaluateImpl N l varValues
    let b ← evaluateImpl N r varValues
    pure (N.add a b)
  | .Sub l r => do
    let a ← evaluateImpl N l varValues
    let b ← evaluateImpl N r varValues
    pure (N.sub a b)
  | .Mul l r => do
    let a ← evaluateImpl N l varValues
    let b ← evaluateImpl N r varValues
    pure (N.mul a b)
  | .Div l r => do
    let denominator ← evaluateImpl N r varValues
    if N.lt (N.fabs denominator) N.eps then
      .error .divisionByZero
    else do
      let numerator ← evaluateImpl N l varValues
      pure (N.div numerator denominator)
  | .Pow l r => do
    let base ← evaluateImpl N l varValues
    let exponent ← evaluateImpl N r varValues
    pure (N.pow base exponent)
  | .Sin u => do
    let a ← evaluateImpl N u varValues
    pure (N.sin a)
  | .Cos u => do
    let a ← evaluateImpl N u varValues
    pure (N.cos a)
  | .Ln u => do
    let arg ← evaluateImpl N u varValues
    if N.le arg (N.ofInt 0) then .error .lnDomain else pure (N.log arg)
  | .Exp u => do
    let a ← evaluateImpl N u varValues
    pure (N.exp a)

/-- `Expression::differentiateImpl`.  In the `Pow` case the test
`node->right && node->right->type == ExprType::Constant` is the match on the
right child. -/
def differentiateImpl (N : Numeric T) (node : ExprNode T) (varName : Str) : ExprNode T :=
  match node with
  | .null => .null
  | .Constant _ => .Constant (N.ofInt 0)
  | .Variable n => if n = varName then .Constant (N.ofInt 1) else .Constant (N.ofInt 0)
  | .Add l r => .Add (differentiateImpl N l varName) (differentiateImpl N r varName)
  | .Sub l r => .Sub (differentiateImpl N l varName) (differentiateImpl N r varName)
  | .Mul l r =>
    let leftDiff := differentiateImpl N l varName
    let rightDiff := differentiateImpl N r varName
    .Add (.Mul leftDiff r) (.Mul l rightDiff)
  | .Div l r =>
    let leftDiff := differentiateImpl N l varName
    let rightDiff := differentiateImpl N r varName
    let numerator := ExprNode.Sub (.Mul leftDiff r) (.Mul l rightDiff)
    let denom := ExprNode.Pow r (.Constant (N.ofInt 2))
    .Div numerator denom
  | .Pow l (.Constant c) =>
    let newPow := ExprNode.Pow l (.Constant (N.sub c (N.ofInt 1)))
    let front := ExprNode.Mul (.Constant c) newPow
    .Mul front (differentiateImpl N l varName)
  | .Pow l r =>
    let uDiff := differentiateImpl N l varName
    let vDiff := differentiateImpl N r varName
    let partA := ExprNode.Mul vDiff (.Ln l)
    let partB := ExprNode.Div (.Mul r uDiff) l
    .Mul (.Pow l r) (.Add partA partB)
  | .Sin u => .Mul (.Cos u) (differentiateImpl N u varName)
  | .Cos u => .Mul (.Mul (.Constant (N.ofInt (-1))) (.Sin u)) (differentiateImpl N u varName)
  | .Ln u => .Div (differentiateImpl N u varName) u
  | .Exp u => .Mul (.Exp u) (differentiateImpl N u varName)

end Trees

section Strings

/-- `s.substr(pos, len)` for `pos <= s.size()`. -/
def substr (s : Str) (pos len : Nat) : Str := (s.drop pos).take len

/-- The whitespace set `" \t\n\r"` of `trim`. -/
def ws : Str := [' ', '\t', '\n', '\r']

/-- `s.find_first_not_of(chars)`; `none` is `std::string::npos`. -/
def find_first_not_of (s chars : Str) : Option Nat :=
  match s with
  | [] => none
  | c :: rest =>
    if chars.contains c then (find_first_not_of rest chars).map (· + 1) else some 0

/-- `s.find_last_not_of(chars)`; `none` is `std::string::npos`. -/
def find_last_not_of (s chars : Str) : Option Nat :=
  match s with
  | [] => none
  | c :: rest =>
    match find_last_not_of rest chars with
    | some k => some (k + 1)
    | none => if chars.contains c then none else some 0

/-- `Expression::trim`. -/
def trim (s : Str) : Str :=
  match find_first_not_of s ws with
  | none => []
  | some start =>
    match find_last_not_of s ws with
    | none => []
    | some last => substr s start (last - start + 1)

/-- The counter update shared by every scanning loop: `(` adds one, `)` takes
one away, any other character leaves the count as it is.  The count is a C++
`int`; it is modelled unbounded. -/
def parenStep (parenCount : Int) (c : Char) : Int :=
  if c = '(' then parenCount + 1 else if c = ')' then parenCount - 1 else parenCount

/-- The loop of `Expression::isWrappedInParens` over the characters before the
last one: `false` as soon as the depth reads 0. -/
def wrappedLoop : Str → Int → Bool
  | [], _ => true
  | c :: rest, depth =>
    let d := parenStep depth c
    if d = 0 then false else wrappedLoop rest d

/-- `Expression::isWrappedInParens`. -/
def isWrappedInParens (s : Str) : Bool :=
  if s.length < 2 then false
  else if s.head? ≠ some '(' ∨ s.getLast? ≠ some ')' then false
  else wrappedLoop (s.take (s.length - 1)) 0

/-- One scanning loop of `Expression::parse` from index `i` on, with the
counter at `parenCount`: the first index (and its character) at which the
updated counter reads 0 and the test `isOp` of that loop holds. -/
def findSplit (isOp : Char → Nat → Bool) : Str → Nat → Int → Option (Nat × Char)
  | [], _, _ => none
  | c :: rest, i, parenCount =>
    let pc := parenStep parenCount c
    if pc = 0 ∧ isOp c i = true then some (i, c) else findSplit isOp rest (i + 1) pc

/-- The test of the first loop: `(c == '+' || c == '-') && i > 0`. -/
def isAdditive (c : Char) (i : Nat) : Bool := (c = '+' || c = '-') && decide (0 < i)

/-- The test of the second loop: `c == '*' || c == '/'`. -/
def isMultiplicative (c : Char) (_i : Nat) : Bool := c = '*' || c = '/'

/-- The test of the third loop: `c == '^'`. -/
def isPower (c : Char) (_i : Nat) : Bool := c = '^'

/-- The lambda `startsWith` of `Expression::parse`. -/
def startsWith (s pre : Str) : Bool :=
  decide (s.length ≥ pre.length) && (s.take pre.length == pre)

/-- `expr.find(pat)` from index `i` on; `none` is `std::string::npos`. -/
def findFrom (pat : Str) : Str → Nat → Option Nat
  | [], i => if pat = [] then some i else none
  | c :: rest, i => if pat.isPrefixOf (c :: rest) then some i else findFrom pat rest (i + 1)

/-- `expr.find(pat)`. -/
def find (expr pat : Str) : Option Nat := findFrom pat expr 0

/-- The loop of `Expression::getInsideFunction` from index `i` on: the index
and the counter when the loop is left. -/
def insideLoop : Str → Nat → Int → Nat × Int
  | [], i, parenCount => (i, parenCount)
  | c :: rest, i, parenCount =>
    let pc := parenStep parenCount c
    if pc = 0 then (i, pc) else insideLoop rest (i + 1) pc

/-- `Expression::getInsideFunction`. -/
def getInsideFunction (expr funcName : Str) : Except RuntimeError Str :=
  match find expr (funcName ++ ['(']) with
  | none => .error (.functionNotFound funcName)
  | some pos =>
    let startPos := pos + funcName.length + 1
    let (i, parenCount) := insideLoop (expr.drop startPos) startPos 1
    if parenCount ≠ 0 then .error (.unmatchedParens expr)
    else .ok (substr expr startPos (i - startPos))

end Strings

section Notions

/-- Parenthesis depth of a text: the number of `(` minus the number of `)`. -/
def depth (s : Str) : Int := (s.count '(' : Int) - (s.count ')' : Int)

/-- Balanced parentheses: no prefix has more `)` than `(`, and the totals are
equal. -/
def Balanced (s : Str) : Prop := (∀ k, k ≤ s.length → 0 ≤ depth (s.take k)) ∧ depth s = 0

instance (s : Str) : Decidable (Balanced s) := by
  unfold Balanced
  exact inferInstance

/-- The whitespace test of `trim`: membership in `" \t\n\r"`. -/
def isWs (c : Char) : Prop := c = ' ' ∨ c = '\t' ∨ c = '\n' ∨ c = '\r'

instance (c : Char) : Decidable (isWs c) := by
  unfold isWs
  exact inferInstance

/-- The condition under which a scanning loop started with counter `pc` and
index `i0` returns at position `k` of the remaining text. -/
def Hit (isOp : Char → Nat → Bool) (s : Str) (i0 : Nat) (pc : Int) (k : Nat) (c : Char) : Prop :=
  s[k]? = some c ∧ pc + depth (s.take (k + 1)) = 0 ∧ isOp c (i0 + k) = true

/-- A character that no step of `parse` treats specially: not whitespace, not a
parenthesis, not an operator sign. -/
def plainChar (c : Char) : Prop :=
  ¬ isWs c ∧ c ≠ '(' ∧ c ≠ ')' ∧ c ≠ '+' ∧ c ≠ '-' ∧ c ≠ '*' ∧ c ≠ '/' ∧ c ≠ '^'

instance (c : Char) : Decidable (plainChar c) := by
  unfold plainChar
  exact inferInstance

/-- A simple variable name: a non-empty string of letters other than `pi` and `e`. -/
def SimpleName (a : Str) : Prop :=
  a ≠ [] ∧ (∀ ch ∈ a, ch.isAlpha = true) ∧ a ≠ "pi".toList ∧ a ≠ "e".toList

instance (a : Str) : Decidable (SimpleName a) := by
  unfold SimpleName
  exact inferInstance

/-- Index `i` of `t` holds one of the characters `ops` at parenthesis depth 0:
the characters before it have as many `(` as `)`. -/
def TopLevelOp (ops : List Char) (t : Str) (i : Nat) : Prop :=
  (∃ c ∈ ops, t[i]? = some c) ∧ depth (t.take i) = 0

instance (ops : List Char) (t : Str) (i : Nat) : Decidable (TopLevelOp ops t i) := by
  unfold TopLevelOp
  exact inferInstance

end Notions

section Parser

variable {T : Type}

/-- `Expression::stringToValue`. -/
def stringToValue (N : Numeric T) (s : Str) : Except RuntimeError T :=
  match N.extract s with
  | some val => .ok val
  | none => .error (.cannotParse s)

/-- The last step of `Expression::parse`: `try { return Expression(stringToValue(s)); }
catch (...) { return Expression(s); }`. -/
def parseAtom (N : Numeric T) (s : Str) : ExprNode T :=
  match stringToValue N s with
  | .ok val => .Constant val
  | .error _ => .Variable s

/-- A friend operator `lhs OP rhs` (`operator+`, `operator-`, `operator*`,
`operator/`, `operator^`) applied to two parses: the node `mk` over the two
trees; an exception of either parse propagates.  Where C++ leaves the order of
the two operand parses open, the left one is made first. -/
def applyBinary (mk : ExprNode T → ExprNode T → ExprNode T)
    (lhs rhs : Except RuntimeError (ExprNode T)) : Except RuntimeError (ExprNode T) :=
  match lhs with
  | .error err => .error err
  | .ok l =>
    match rhs with
    | .error err => .error err
    | .ok r => .ok (mk l r)

/-- A friend function `sin`, `cos`, `ln`, `exp` applied to a parse. -/
def applyUnary (mk : ExprNode T → ExprNode T)
    (arg : Except RuntimeError (ExprNode T)) : Except RuntimeError (ExprNode T) :=
  match arg with
  | .error err => .error err
  | .ok u => .ok (mk u)

/-- The branch `std::string inside = getInsideFunction(s, name); return
f(parse(inside));` of `Expression::parse`. -/
def parseCall (self : Str → Except RuntimeError (ExprNode T)) (mk : ExprNode T → ExprNode T)
    (s funcName : Str) : Except RuntimeError (ExprNode T) :=
  match getInsideFunction s funcName with
  | .error err => .error err
  | .ok inside => applyUnary mk (self inside)

/-- The body of `Expression::parse` after `trim`, with the recursive calls
made through `self`. -/
def parseStep (N : Numeric T) (self : Str → Except RuntimeError (ExprNode T)) (s : Str) :
    Except RuntimeError (ExprNode T) :=
  if s.isEmpty then .error .emptyExpression
  else if isWrappedInParens s then self (substr s 1 (s.length - 2))
  else if s = "pi".toList then .ok (.Constant N.pi)
  else if s = "e".toList then .ok (.Constant N.e)
  else if s.head? = some '-' then
    if s.length = 1 then .error .justMinus
    else applyBinary .Sub (self "0".toList) (self (s.drop 1))
  else
    match findSplit isAdditive s 0 0 with
    | some (i, c) =>
      if c = '+' then applyBinary .Add (self (substr s 0 i)) (self (s.drop (i + 1)))
      else applyBinary .Sub (self (substr s 0 i)) (self (s.drop (i + 1)))
    | none =>
    match findSplit isMultiplicative s 0 0 with
    | some (i, c) =>
      if c = '*' then applyBinary .Mul (self (substr s 0 i)) (self (s.drop (i + 1)))
      else applyBinary .Div (self (substr s 0 i)) (self (s.drop (i + 1)))
    | none =>
    match findSplit isPower s 0 0 with
    | some (i, _) => applyBinary .Pow (self (substr s 0 i)) (self (s.drop (i + 1)))
    | none =>
    if startsWith s "sin(".toList then parseCall self .Sin s "sin".toList
    else if startsWith s "cos(".toList then parseCall self .Cos s "cos".toList
    else if startsWith s "ln(".toList then parseCall self .Ln s "ln".toList
    else if startsWith s "exp(".toList then parseCall self .Exp s "exp".toList
    else .ok (parseAtom N s)

/-- `Expression::parse` with a budget of nested calls.  With an empty budget
the result is `fuelExhausted`; `parseFuel_stable` shows that a budget above the
length of the text is never used up. -/
def parseFuel (N : Numeric T) : Nat → Str → Except RuntimeError (ExprNode T)
  | 0, _ => .error .fuelExhausted
  | fuel + 1, exprStr => parseStep N (parseFuel N fuel) (trim exprStr)

/-- `Expression::parse`. -/
def parse (N : Numeric T) (exprStr : Str) : Except RuntimeError (ExprNode T) :=
  parseFuel N (exprStr.length + 1) exprStr

end Parser

section RationalModel

/-- The value of a non-empty string of decimal digits read from the left,
`acc` being the value of the digits already read. -/
def readDigits : Str → Nat → Option Nat
  | [], acc => some acc
  | c :: rest, acc =>
    if c.isDigit then readDigits rest (10 * acc + (c.toNat - '0'.toNat)) else none

/-- Partial sum `x^0/0! + ... + x^(n-1)/(n-1)!` of the exponential series. -/
def expSum (x : ℚ) (n : Nat) : ℚ :=
  ((List.range n).map (fun k => x ^ k / (k.factorial : ℚ))).sum

/-- Partial sum of the sine series, `n` terms. -/
def sinSum (x : ℚ) (n : Nat) : ℚ :=
  ((List.range n).map (fun k => (-1) ^ k * x ^ (2 * k + 1) / ((2 * k + 1).factorial : ℚ))).sum

/-- Partial sum of the cosine series, `n` terms. -/
def cosSum (x : ℚ) (n : Nat) : ℚ :=
  ((List.range n).map (fun k => (-1) ^ k * x ^ (2 * k) / ((2 * k).factorial : ℚ))).sum

/-- Partial sum of `2 * artanh ((x - 1) / (x + 1))`, `n` terms. -/
def logSum (x : ℚ) (n : Nat) : ℚ :=
  2 * ((List.range n).map (fun k => ((x - 1) / (x + 1)) ^ (2 * k + 1) / ((2 * k + 1 : Nat) : ℚ))).sum

/-- A model of `T = double` on the rationals, on which the definitions can be
run.  Arithmetic and comparisons are exact; `pi`, `e` and `eps` are the exact
values of the doubles `M_PI`, `M_E` and `1e-15`; `extract` reads non-empty
strings of decimal digits and nothing else; `print` writes integers in decimal
digits (other values as numerator, `/`, denominator); `sin`, `cos`, `log`,
`exp` are partial sums of their series and `pow` is exact for integer
exponents.  The theorems below hold for every `Numeric`, not only this one. -/
def ratNumeric : Numeric ℚ where
  ofInt z := (z : ℚ)
  add a b := a + b
  sub a b := a - b
  mul a b := a * b
  div a b := a / b
  pow b x := if x.den = 1 then b ^ x.num else expSum (x * logSum b 12) 12
  sin x := sinSum x 8
  cos x := cosSum x 8
  log x := logSum x 12
  exp x := expSum x 12
  fabs a := |a|
  lt a b := decide (a < b)
  le a b := decide (a ≤ b)
  eps := 2535301200456459 / 2535301200456458802993406410752
  pi := 884279719003555 / 281474976710656
  e := 6121026514868073 / 2251799813685248
  extract s := if s = [] then none else (readDigits s 0).map (fun n => (n : ℚ))
  print q :=
    if q.den = 1 then
      (if q.num < 0 then ['-'] else []) ++ Nat.toDigits 10 q.num.natAbs
    else
      (if q.num < 0 then ['-'] else []) ++ Nat.toDigits 10 q.num.natAbs ++ ['/'] ++
        Nat.toDigits 10 q.den

end RationalModel

section RealModel

/-- A numeric type on the real numbers whose constants, sum, difference,
product, sine, cosine and exponential are those of the real numbers.  The
other entries are left open. -/
structure RealOps (N : Numeric ℝ) : Prop where
  /-- The cast of an integer literal is that integer. -/
  ofInt : ∀ z : Int, N.ofInt z = (z : ℝ)
  /-- `a + b` is the real sum. -/
  add : ∀ a b : ℝ, N.add a b = a + b
  /-- `a - b` is the real difference. -/
  sub : ∀ a b : ℝ, N.sub a b = a - b
  /-- `a * b` is the real product. -/
  mul : ∀ a b : ℝ, N.mul a b = a * b
  /-- `std::sin` is the real sine. -/
  sin : ∀ a : ℝ, N.sin a = Real.sin a
  /-- `std::cos` is the real cosine. -/
  cos : ∀ a : ℝ, N.cos a = Real.cos a
  /-- `std::exp` is the real exponential. -/
  exp : ∀ a : ℝ, N.exp a = Real.exp a

/-- The model of `T` on the real numbers: real arithmetic, the real functions
`sin`, `cos`, `log`, `exp`, the real power, `1e-15` as `10⁻¹⁵`.  Real numbers
are neither read from nor written to text: `extract` reads nothing and `print`
writes the empty text, so this model serves the evaluator and the
differentiator only. -/
noncomputable def realNumeric : Numeric ℝ where
  ofInt z := (z : ℝ)
  add a b := a + b
  sub a b := a - b
  mul a b := a * b
  div a b := a / b
  pow b x := b ^ x
  sin x := Real.sin x
  cos x := Real.cos x
  log x := Real.log x
  exp x := Real.exp x
  fabs a := |a|
  lt a b := decide (a < b)
  le a b := decide (a ≤ b)
  eps := 1 / 10 ^ 15
  pi := Real.pi
  e := Real.exp 1
  extract _ := none
  print _ := []

end RealModel

section TreeNotions

variable {T : Type}

/-- The names of the `Variable` nodes of a tree, left to right. -/
def varNames : ExprNode T → List Str
  | .null => []
  | .Constant _ => []
  | .Variable n => [n]
  | .Add l r => varNames l ++ varNames r
  | .Sub l r => varNames l ++ varNames r
  | .Mul l r => varNames l ++ varNames r
  | .Div l r => varNames l ++ varNames r
  | .Pow l r => varNames l ++ varNames r
  | .Sin u => varNames u
  | .Cos u => varNames u
  | .Ln u => varNames u
  | .Exp u => varNames u

/-- A tree and all the trees below it. -/
def subtrees : ExprNode T → List (ExprNode T)
  | .null => [.null]
  | .Constant c => [.Constant c]
  | .Variable n => [.Variable n]
  | .Add l r => .Add l r :: (subtrees l ++ subtrees r)
  | .Sub l r => .Sub l r :: (subtrees l ++ subtrees r)
  | .Mul l r => .Mul l r :: (subtrees l ++ subtrees r)
  | .Div l r => .Div l r :: (subtrees l ++ subtrees r)
  | .Pow l r => .Pow l r :: (subtrees l ++ subtrees r)
  | .Sin u => .Sin u :: subtrees u
  | .Cos u => .Cos u :: subtrees u
  | .Ln u => .Ln u :: subtrees u
  | .Exp u => .Exp u :: subtrees u

/-- The reference rewrite of the substitutor: every `Variable` leaf `n` is
replaced by `leaf n`; every other node keeps its kind, its constant value and
its place, over the rewritten children. -/
def replaceVariables (leaf : Str → ExprNode T) : ExprNode T → ExprNode T
  | .null => .null
  | .Constant c => .Constant c
  | .Variable n => leaf n
  | .Add l r => .Add (replaceVariables leaf l) (replaceVariables leaf r)
  | .Sub l r => .Sub (replaceVariables leaf l) (replaceVariables leaf r)
  | .Mul l r => .Mul (replaceVariables leaf l) (replaceVariables leaf r)
  | .Div l r => .Div (replaceVariables leaf l) (replaceVariables leaf r)
  | .Pow l r => .Pow (replaceVariables leaf l) (replaceVariables leaf r)
  | .Sin u => .Sin (replaceVariables leaf u)
  | .Cos u => .Cos (replaceVariables leaf u)
  | .Ln u => .Ln (replaceVariables leaf u)
  | .Exp u => .Exp (replaceVariables leaf u)

/-- The node built by the friend function called `name`: `sin`, `cos`, `ln`,
and `exp` for any other name. -/
def callNode (name : Str) : ExprNode T → ExprNode T :=
  if name = "sin".toList then .Sin
  else if name = "cos".toList then .Cos
  else if name = "ln".toList then .Ln
  else .Exp

/-- The node built by the friend operator written `o`: `+`, `-`, `*`, `/`,
and `^` for any other sign. -/
def binaryNode (o : Char) : ExprNode T → ExprNode T → ExprNode T :=
  if o = '+' then .Add
  else if o = '-' then .Sub
  else if o = '*' then .Mul
  else if o = '/' then .Div
  else .Pow

/-- A text that the last step of `parse` takes whole: non-empty, made of plain
characters, and not `pi` or `e`. -/
def PlainLeaf (p : Str) : Prop :=
  p ≠ [] ∧ (∀ c ∈ p, plainChar c) ∧ p ≠ "pi".toList ∧ p ≠ "e".toList

instance (p : Str) : Decidable (PlainLeaf p) := by
  unfold PlainLeaf
  exact inferInstance

/-- A tree without null children whose leaves print as texts that parse back
to them: every Variable name is a plain leaf text that stream extraction does
not read as a number, and every Constant prints as a plain leaf text that
stream extraction reads as the same value. -/
def PlainTree (N : Numeric T) : ExprNode T → Prop
  | .null => False
  | .Constant v => PlainLeaf (N.print v) ∧ N.extract (N.print v) = some v
  | .Variable n => PlainLeaf n ∧ N.extract n = none
  | .Add l r => PlainTree N l ∧ PlainTree N r
  | .Sub l r => PlainTree N l ∧ PlainTree N r
  | .Mul l r => PlainTree N l ∧ PlainTree N r
  | .Div l r => PlainTree N l ∧ PlainTree N r
  | .Pow l r => PlainTree N l ∧ PlainTree N r
  | .Sin u => PlainTree N u
  | .Cos u => PlainTree N u
  | .Ln u => PlainTree N u
  | .Exp u => PlainTree N u

/-- No operator sign of the text is at parenthesis depth 0. -/
def NoTopOps (p : Str) : Prop :=
  ∀ k c, p[k]? = some c → c ∈ ['+', '-', '*', '/', '^'] → depth (p.take k) ≠ 0

/-- The form of the texts written by the printer for plain trees: non-empty,
not starting with whitespace or `-`, not ending with whitespace, with balanced
parentheses and every operator sign inside parentheses. -/
def Printed (p : Str) : Prop :=
  p ≠ [] ∧ (∀ c, p.head? = some c → ¬ isWs c ∧ c ≠ '-') ∧
    (∀ c, p.getLast? = some c → ¬ isWs c) ∧ Balanced p ∧ NoTopOps p

/-- A well-formed tree: no node of it is the null pointer, so that every node
has exactly the children of its kind. -/
def WellFormed : ExprNode T → Prop
  | .null => False
  | .Constant _ => True
  | .Variable _ => True
  | .Add l r => WellFormed l ∧ WellFormed r
  | .Sub l r => WellFormed l ∧ WellFormed r
  | .Mul l r => WellFormed l ∧ WellFormed r
  | .Div l r => WellFormed l ∧ WellFormed r
  | .Pow l r => WellFormed l ∧ WellFormed r
  | .Sin u => WellFormed u
  | .Cos u => WellFormed u
  | .Ln u => WellFormed u
  | .Exp u => WellFormed u

/-- A tree built only from Constant, Variable, Add, Sub, Mul, Sin, Cos and Exp
nodes. -/
def Smooth : ExprNode T → Prop
  | .null => False
  | .Constant _ => True
  | .Variable _ => True
  | .Add l r => Smooth l ∧ Smooth r
  | .Sub l r => Smooth l ∧ Smooth r
  | .Mul l r => Smooth l ∧ Smooth r
  | .Div _ _ => False
  | .Pow _ _ => False
  | .Sin u => Smooth u
  | .Cos u => Smooth u
  | .Ln _ => False
  | .Exp u => Smooth u

/-- A non-empty text of decimal digits. -/
def DigitText (p : Str) : Prop := p ≠ [] ∧ ∀ c ∈ p, c.isDigit = true

instance (p : Str) : Decidable (DigitText p) := by
  unfold DigitText
  exact inferInstance

/-- A well-formed tree of simple names and small whole numbers: every Variable
name is a simple name that stream extraction does not read as a number, and
every Constant is a non-negative integer that prints as a text of decimal
digits, which stream extraction reads as that number. -/
def NameDigitTree (N : Numeric T) : ExprNode T → Prop
  | .null => False
  | .Constant v =>
    (∃ n : Nat, v = N.ofInt (n : Int)) ∧ DigitText (N.print v) ∧ N.extract (N.print v) = some v
  | .Variable n => SimpleName n ∧ N.extract n = none
  | .Add l r => NameDigitTree N l ∧ NameDigitTree N r
  | .Sub l r => NameDigitTree N l ∧ NameDigitTree N r
  | .Mul l r => NameDigitTree N l ∧ NameDigitTree N r
  | .Div l r => NameDigitTree N l ∧ NameDigitTree N r
  | .Pow l r => NameDigitTree N l ∧ NameDigitTree N r
  | .Sin u => NameDigitTree N u
  | .Cos u => NameDigitTree N u
  | .Ln u => NameDigitTree N u
  | .Exp u => NameDigitTree N u

/-- The three reasons for which the evaluator fails on a well-formed tree. -/
def FailureReason (N : Numeric T) (t : ExprNode T) (env : VarValues T)
    (err : RuntimeError) : Prop :=
  (∃ n ∈ varNames t, env n = none ∧ err = .missingValue n) ∨
  (∃ l r d, .Div l r ∈ subtrees t ∧ evaluateImpl N r env = .ok d ∧
    N.lt (N.fabs d) N.eps = true ∧ err = .divisionByZero) ∨
  (∃ u a, .Ln u ∈ subtrees t ∧ evaluateImpl N u env = .ok a ∧
    N.le a (N.ofInt 0) = true ∧ err = .lnDomain)

end TreeNotions

/-! ## Lemmas on the scanning loops -/

section ScanLemmas

theorem parenStep_eq (pc : Int) (c : Char) : parenStep pc c = pc + depth [c] := by
  unfold parenStep depth
  by_cases h1 : c = '('
  · subst h1; simp
  · by_cases h2 : c = ')'
    · subst h2; simp; ring
    · have h1' : ¬ ('(' = c) := fun h => h1 h.symm
      have h2' : ¬ (')' = c) := fun h => h2 h.symm
      simp [h1, h2, List.count_cons, h1', h2']

theorem depth_nil : depth [] = 0 := by simp [depth]

theorem depth_cons (c : Char) (s : Str) : depth (c :: s) = depth [c] + depth s := by
  unfold depth
  simp only [List.count_cons, List.count_nil]
  push_cast
  ring

theorem depth_append (s t : Str) : depth (s ++ t) = depth s + depth t := by
  unfold depth
  simp only [List.count_append]
  push_cast
  ring

theorem foldl_parenStep (s : Str) (pc : Int) : s.foldl parenStep pc = pc + depth s := by
  induction s generalizing pc with
  | nil => simp [depth_nil]
  | cons c s ih =>
    rw [List.foldl_cons, ih, parenStep_eq, depth_cons c s]
    ring

theorem depth_single_of_not_paren {c : Char} (h1 : c ≠ '(') (h2 : c ≠ ')') : depth [c] = 0 := by
  have h1' : ¬ ('(' = c) := fun h => h1 h.symm
  have h2' : ¬ (')' = c) := fun h => h2 h.symm
  simp [depth, List.count_cons, h1, h2]

theorem findSplit_some {isOp : Char → Nat → Bool} {s : Str} {i0 : Nat} {pc : Int} {i : Nat} {c : Char}
    (h : findSplit isOp s i0 pc = some (i, c)) :
    ∃ k, i = i0 + k ∧ Hit isOp s i0 pc k c ∧ ∀ j d, j < k → ¬ Hit isOp s i0 pc j d := by
  induction s generalizing i0 pc with
  | nil => simp [findSplit] at h
  | cons a rest ih =>
    simp only [findSplit] at h
    split at h
    · rename_i hh
      simp only [Option.some.injEq, Prod.mk.injEq] at h
      obtain ⟨rfl, rfl⟩ := h
      refine ⟨0, rfl, ⟨by simp, ?_, hh.2⟩, fun j d hj => absurd hj (Nat.not_lt_zero _)⟩
      rw [← hh.1, parenStep_eq]; simp
    · rename_i hh
      obtain ⟨k, hk, hhit, hmin⟩ := ih h
      refine ⟨k + 1, by omega, ?_, ?_⟩
      · obtain ⟨h1, h2, h3⟩ := hhit
        refine ⟨by simpa using h1, ?_, ?_⟩
        · rw [List.take_succ_cons, depth_cons, ← h2, parenStep_eq]; ring
        · rw [← h3]; congr 1; omega
      · intro j d hj hd
        cases j with
        | zero =>
          apply hh
          obtain ⟨h1, h2, h3⟩ := hd
          simp at h1
          subst h1
          refine ⟨?_, h3⟩
          rw [parenStep_eq]; simpa using h2
        | succ j =>
          apply hmin j d (by omega)
          obtain ⟨h1, h2, h3⟩ := hd
          refine ⟨by simpa using h1, ?_, ?_⟩
          · rw [List.take_succ_cons, depth_cons] at h2
            rw [parenStep_eq, ← h2]; ring
          · rw [← h3]; congr 1; omega

theorem findSplit_of_hit {isOp : Char → Nat → Bool} {s : Str} {i0 : Nat} {pc : Int} {k : Nat} {c : Char}
    (hhit : Hit isOp s i0 pc k c) (hmin : ∀ j d, j < k → ¬ Hit isOp s i0 pc j d) :
    findSplit isOp s i0 pc = some (i0 + k, c) := by
  induction s generalizing i0 pc k with
  | nil => simp [Hit] at hhit
  | cons a rest ih =>
    simp only [findSplit]
    cases k with
    | zero =>
      obtain ⟨h1, h2, h3⟩ := hhit
      simp at h1
      subst h1
      have hp : parenStep pc a = 0 := by rw [parenStep_eq]; simpa using h2
      have h3' : isOp a i0 = true := by simpa using h3
      rw [if_pos ⟨hp, h3'⟩]; rfl
    | succ k =>
      have hno : ¬ (parenStep pc a = 0 ∧ isOp a i0 = true) := by
        intro hh
        apply hmin 0 a (by omega)
        refine ⟨by simp, ?_, hh.2⟩
        rw [← hh.1, parenStep_eq]; simp
      rw [if_neg hno]
      have := @ih (i0 + 1) (parenStep pc a) k ?_ ?_
      · rw [this]; congr 2; omega
      · obtain ⟨h1, h2, h3⟩ := hhit
        refine ⟨by simpa using h1, ?_, ?_⟩
        · rw [List.take_succ_cons, depth_cons] at h2
          rw [parenStep_eq, ← h2]; ring
        · rw [← h3]; congr 1; omega
      · intro j d hj hd
        apply hmin (j + 1) d (by omega)
        obtain ⟨h1, h2, h3⟩ := hd
        refine ⟨by simpa using h1, ?_, ?_⟩
        · rw [List.take_succ_cons, depth_cons, ← h2, parenStep_eq]; ring
        · rw [← h3]; congr 1; omega

theorem findSplit_none {isOp : Char → Nat → Bool} {s : Str} {i0 : Nat} {pc : Int}
    (h : ∀ k d, ¬ Hit isOp s i0 pc k d) : findSplit isOp s i0 pc = none := by
  cases hf : findSplit isOp s i0 pc with
  | none => rfl
  | some p =>
    obtain ⟨i, c⟩ := p
    obtain ⟨k, _, hhit, _⟩ := findSplit_some hf
    exact absurd hhit (h k c)

theorem findSplit_none_hit {isOp : Char → Nat → Bool} {s : Str} {i0 : Nat} {pc : Int}
    (h : findSplit isOp s i0 pc = none) (k : Nat) (d : Char) : ¬ Hit isOp s i0 pc k d := by
  intro hhit
  -- take the least hit
  have hex : ∃ k, ∃ d, Hit isOp s i0 pc k d := ⟨k, d, hhit⟩
  classical
  obtain ⟨d0, hd0⟩ := Nat.find_spec hex
  have hmin : ∀ j d, j < Nat.find hex → ¬ Hit isOp s i0 pc j d := by
    intro j d hj hd
    exact Nat.find_min hex hj ⟨d, hd⟩
  rw [findSplit_of_hit hd0 hmin] at h
  cases h

theorem wrappedLoop_true_iff (s : Str) (d : Int) :
    wrappedLoop s d = true ↔ ∀ k, k < s.length → d + depth (s.take (k + 1)) ≠ 0 := by
  induction s generalizing d with
  | nil => simp [wrappedLoop]
  | cons a rest ih =>
    simp only [wrappedLoop]
    constructor
    · intro h k hk
      split at h
      · cases h
      · rename_i hne
        cases k with
        | zero =>
          rw [parenStep_eq] at hne
          simpa using hne
        | succ k =>
          have := (ih _).1 h k (by simpa using hk)
          rw [parenStep_eq] at this
          rw [List.take_succ_cons, depth_cons]
          intro h0; apply this; rw [← h0]; ring
    · intro h
      have h0 := h 0 (by simp)
      have hne : ¬ parenStep d a = 0 := by
        rw [parenStep_eq]; simpa using h0
      rw [if_neg hne]
      apply (ih _).2
      intro k hk
      have := h (k + 1) (by simpa using hk)
      rw [List.take_succ_cons, depth_cons] at this
      rw [parenStep_eq]
      intro h0; apply this; rw [← h0]; ring

theorem mem_ws_iff (c : Char) : c ∈ ws ↔ isWs c := by
  unfold isWs
  simp [ws]

theorem find_first_not_of_ws_all {s : Str} (h : ∀ c ∈ s, isWs c) : find_first_not_of s ws = none := by
  induction s with
  | nil => rfl
  | cons a rest ih =>
    have ha : a ∈ ws := (mem_ws_iff a).2 (h a (by simp))
    simp [find_first_not_of, ha, ih (fun c hc => h c (by simp [hc]))]

theorem find_first_not_of_ws_append {w rest : Str} {a : Char} (hw : ∀ c ∈ w, isWs c) (ha : ¬ isWs a) :
    find_first_not_of (w ++ a :: rest) ws = some w.length := by
  induction w with
  | nil =>
    have hn : a ∉ ws := fun h => ha ((mem_ws_iff a).1 h)
    simp [find_first_not_of, hn]
  | cons b w ih =>
    have hb : b ∈ ws := (mem_ws_iff b).2 (hw b (by simp))
    simp [find_first_not_of, hb, ih (fun c hc => hw c (by simp [hc]))]

theorem find_last_not_of_ws_all {s : Str} (h : ∀ c ∈ s, isWs c) : find_last_not_of s ws = none := by
  induction s with
  | nil => rfl
  | cons a rest ih =>
    have ha : a ∈ ws := (mem_ws_iff a).2 (h a (by simp))
    simp [find_last_not_of, ha, ih (fun c hc => h c (by simp [hc]))]

theorem find_last_not_of_ws_append {pre w : Str} {a : Char} (hw : ∀ c ∈ w, isWs c) (ha : ¬ isWs a) :
    find_last_not_of (pre ++ a :: w) ws = some pre.length := by
  induction pre with
  | nil =>
    have hn : a ∉ ws := fun h => ha ((mem_ws_iff a).1 h)
    simp [find_last_not_of, hn, find_last_not_of_ws_all hw]
  | cons b pre ih =>
    simp [find_last_not_of, ih]

theorem trim_all_ws {s : Str} (h : ∀ c ∈ s, isWs c) : trim s = [] := by
  simp [trim, find_first_not_of_ws_all h]

/-- `trim` removes surrounding whitespace and nothing else. -/
theorem trim_pad {w1 w2 core : Str} (hw1 : ∀ c ∈ w1, isWs c) (hw2 : ∀ c ∈ w2, isWs c)
    (hne : core ≠ []) (hhead : ∀ c, core.head? = some c → ¬ isWs c)
    (hlast : ∀ c, core.getLast? = some c → ¬ isWs c) :
    trim (w1 ++ core ++ w2) = core := by
  obtain ⟨a, rest, rfl⟩ := List.exists_cons_of_ne_nil hne
  have ha : ¬ isWs a := hhead a (by simp)
  obtain ⟨ini, b, hini⟩ : ∃ ini b, a :: rest = ini ++ [b] := by
    refine ⟨(a :: rest).dropLast, (a :: rest).getLast (by simp), ?_⟩
    exact (List.dropLast_append_getLast _).symm
  have hb : ¬ isWs b := hlast b (by rw [hini]; simp)
  have h1 : find_first_not_of (w1 ++ (a :: rest) ++ w2) ws = some w1.length := by
    rw [List.append_assoc, List.cons_append]
    exact find_first_not_of_ws_append hw1 ha
  have h2 : find_last_not_of (w1 ++ (a :: rest) ++ w2) ws = some (w1.length + ini.length) := by
    rw [hini]
    have : w1 ++ (ini ++ [b]) ++ w2 = (w1 ++ ini) ++ b :: w2 := by simp
    rw [this, find_last_not_of_ws_append hw2 hb]
    simp
  have hlen : (a :: rest).length = ini.length + 1 := by rw [hini]; simp
  simp only [trim, h1, h2, substr]
  rw [List.append_assoc, List.drop_left]
  have : w1.length + ini.length - w1.length + 1 = (a :: rest).length := by omega
  rw [this, List.take_left]

end ScanLemmas

/-! ## The recursion equation of `parse` -/

section FuelLemmas

theorem length_substr_le (s : Str) (pos len : Nat) : (substr s pos len).length ≤ s.length - pos := by
  unfold substr
  rw [List.length_take, List.length_drop]
  exact Nat.min_le_right _ _

theorem length_trim_le (s : Str) : (trim s).length ≤ s.length := by
  unfold trim
  split
  · simp
  · split
    · simp
    · exact le_trans (length_substr_le _ _ _) (Nat.sub_le _ _)

theorem findSplit_index_lt {isOp : Char → Nat → Bool} {s : Str} {i : Nat} {c : Char}
    (h : findSplit isOp s 0 0 = some (i, c)) : i < s.length := by
  obtain ⟨k, hk, hhit, _⟩ := findSplit_some h
  have := hhit.1
  have hk' : k < s.length := by
    by_contra hge
    rw [List.getElem?_eq_none (by omega)] at this
    cases this
  omega

theorem getInsideFunction_length {expr funcName inside : Str}
    (h : getInsideFunction expr funcName = .ok inside) (hne : expr ≠ []) :
    inside.length < expr.length := by
  unfold getInsideFunction at h
  split at h
  · cases h
  · rename_i pos hpos
    simp only at h
    split at h
    · cases h
    · simp only [Except.ok.injEq] at h
      subst h
      have h1 := length_substr_le expr (pos + funcName.length + 1)
        ((insideLoop (List.drop (pos + funcName.length + 1) expr) (pos + funcName.length + 1) 1).1 -
          (pos + funcName.length + 1))
      have h2 : 0 < expr.length := List.length_pos.2 hne
      omega

theorem parseCall_congr {T : Type} (f g : Str → Except RuntimeError (ExprNode T))
    (mk : ExprNode T → ExprNode T) (s funcName : Str) (hne : s ≠ [])
    (h : ∀ u : Str, u.length < s.length → f u = g u) :
    parseCall f mk s funcName = parseCall g mk s funcName := by
  unfold parseCall
  cases hg : getInsideFunction s funcName with
  | error e => rfl
  | ok inside =>
    simp only
    rw [h inside (getInsideFunction_length hg hne)]

theorem parseStep_congr {T : Type} (N : Numeric T) (f g : Str → Except RuntimeError (ExprNode T))
    (s : Str) (h : ∀ u : Str, u.length < s.length → f u = g u) :
    parseStep N f s = parseStep N g s := by
  unfold parseStep
  by_cases hem : s.isEmpty = true
  · simp [hem]
  · have hne : s ≠ [] := by
      intro h0; apply hem; simp [h0]
    have hpos : 0 < s.length := List.length_pos.2 hne
    have hsub : ∀ i, i < s.length → f (substr s 0 i) = g (substr s 0 i) := by
      intro i hi
      apply h
      have : (substr s 0 i).length ≤ i := by
        unfold substr; exact List.length_take_le _ _
      omega
    have hdrop : ∀ i, f (s.drop (i + 1)) = g (s.drop (i + 1)) := by
      intro i
      apply h
      rw [List.length_drop]; omega
    have hwrap : f (substr s 1 (s.length - 2)) = g (substr s 1 (s.length - 2)) := by
      apply h
      have := length_substr_le s 1 (s.length - 2)
      omega
    rw [if_neg hem, if_neg hem, hwrap]
    split
    · rfl
    · split
      · rfl
      · split
        · rfl
        · split
          · split
            · rfl
            · rename_i hl
              have h0 : f "0".toList = g "0".toList := by
                apply h
                show 1 < s.length
                omega
              rw [h0, hdrop 0]
          · cases ha : findSplit isAdditive s 0 0 with
            | some p =>
              obtain ⟨i, c⟩ := p
              simp only
              rw [hsub i (findSplit_index_lt ha), hdrop i]
            | none =>
              simp only
              cases hm : findSplit isMultiplicative s 0 0 with
              | some p =>
                obtain ⟨i, c⟩ := p
                simp only
                rw [hsub i (findSplit_index_lt hm), hdrop i]
              | none =>
                simp only
                cases hp : findSplit isPower s 0 0 with
                | some p =>
                  obtain ⟨i, c⟩ := p
                  simp only
                  rw [hsub i (findSplit_index_lt hp), hdrop i]
                | none =>
                  simp only
                  rw [parseCall_congr f g _ s _ hne h, parseCall_congr f g _ s _ hne h,
                    parseCall_congr f g _ s _ hne h, parseCall_congr f g _ s _ hne h]

theorem parseFuel_eq {T : Type} (N : Numeric T) (n m : Nat) (s : Str)
    (hn : s.length < n) (hm : s.length < m) : parseFuel N n s = parseFuel N m s := by
  induction n generalizing m s with
  | zero => omega
  | succ n ih =>
    cases m with
    | zero => omega
    | succ m =>
      simp only [parseFuel]
      apply parseStep_congr
      intro u hu
      have := length_trim_le s
      exact ih m u (by omega) (by omega)

/-- A budget above the length of the text is never used up: the result is
that of `parse`. -/
theorem parseFuel_stable {T : Type} (N : Numeric T) (n : Nat) (s : Str) (hn : s.length < n) :
    parseFuel N n s = parse N s :=
  parseFuel_eq N n (s.length + 1) s hn (Nat.lt_succ_self _)

/-- The recursion equation of `Expression::parse`. -/
theorem parse_eq {T : Type} (N : Numeric T) (s : Str) :
    parse N s = parseStep N (parse N) (trim s) := by
  show parseStep N (parseFuel N s.length) (trim s) = _
  apply parseStep_congr
  intro u hu
  have := length_trim_le s
  exact parseFuel_stable N _ u (by omega)

theorem applyBinary_ne_fuel {T : Type} (mk : ExprNode T → ExprNode T → ExprNode T)
    {a b : Except RuntimeError (ExprNode T)} (ha : a ≠ .error .fuelExhausted)
    (hb : b ≠ .error .fuelExhausted) : applyBinary mk a b ≠ .error .fuelExhausted := by
  cases a with
  | error e => exact ha
  | ok l =>
    cases b with
    | error e => exact hb
    | ok r => intro h; cases h

theorem applyUnary_ne_fuel {T : Type} (mk : ExprNode T → ExprNode T)
    {a : Except RuntimeError (ExprNode T)} (ha : a ≠ .error .fuelExhausted) :
    applyUnary mk a ≠ .error .fuelExhausted := by
  cases a with
  | error e => exact ha
  | ok l => intro h; cases h

theorem getInsideFunction_ne_fuel (expr funcName : Str) :
    getInsideFunction expr funcName ≠ .error .fuelExhausted := by
  unfold getInsideFunction
  split
  · intro h; cases h
  · simp only
    split
    · intro h; cases h
    · intro h; cases h

theorem parseCall_ne_fuel {T : Type} (g : Str → Except RuntimeError (ExprNode T))
    (mk : ExprNode T → ExprNode T) (s funcName : Str)
    (hg : ∀ u, g u ≠ .error .fuelExhausted) :
    parseCall g mk s funcName ≠ .error .fuelExhausted := by
  unfold parseCall
  cases h : getInsideFunction s funcName with
  | error e =>
    simp only
    intro h'
    apply getInsideFunction_ne_fuel s funcName
    rw [h]
    injection h' with h''
    rw [h'']
  | ok inside => exact applyUnary_ne_fuel mk (hg inside)

theorem parseStep_ne_fuel {T : Type} (N : Numeric T) (g : Str → Except RuntimeError (ExprNode T))
    (t : Str) (hg : ∀ u, g u ≠ .error .fuelExhausted) :
    parseStep N g t ≠ .error .fuelExhausted := by
  unfold parseStep
  split
  · intro h; cases h
  split
  · exact hg _
  split
  · intro h; cases h
  split
  · intro h; cases h
  split
  · split
    · intro h; cases h
    · exact applyBinary_ne_fuel _ (hg _) (hg _)
  split
  · split <;> exact applyBinary_ne_fuel _ (hg _) (hg _)
  split
  · split <;> exact applyBinary_ne_fuel _ (hg _) (hg _)
  split
  · exact applyBinary_ne_fuel _ (hg _) (hg _)
  split
  · exact parseCall_ne_fuel g _ _ _ hg
  split
  · exact parseCall_ne_fuel g _ _ _ hg
  split
  · exact parseCall_ne_fuel g _ _ _ hg
  split
  · exact parseCall_ne_fuel g _ _ _ hg
  · intro h; cases h

/-- The recursion budget of `parse` is never used up: `parse` returns a tree or
one of the errors of the program. -/
theorem parse_ne_fuelExhausted {T : Type} (N : Numeric T) (s : Str) :
    parse N s ≠ .error .fuelExhausted := by
  suffices hall : ∀ n (s : Str), s.length = n → parse N s ≠ .error .fuelExhausted from
    hall s.length s rfl
  intro n
  induction n using Nat.strong_induction_on with
  | _ n ih =>
    intro s hn
    let g : Str → Except RuntimeError (ExprNode T) := fun u =>
      if u.length < (trim s).length then parse N u else .error .emptyExpression
    have hg : ∀ u, g u ≠ .error .fuelExhausted := by
      intro u
      show (if u.length < (trim s).length then parse N u else .error .emptyExpression) ≠ _
      split
      · rename_i hu
        have := length_trim_le s
        exact ih u.length (by omega) u rfl
      · intro h; cases h
    have hcongr : parseStep N (parse N) (trim s) = parseStep N g (trim s) := by
      apply parseStep_congr
      intro u hu
      show parse N u = if u.length < (trim s).length then parse N u else .error .emptyExpression
      rw [if_pos hu]
    rw [parse_eq, hcongr]
    exact parseStep_ne_fuel N g _ hg

end FuelLemmas

/-! ## The steps of `parse` -/

section StepLemmas

theorem not_wrapped_of_top {t : Str} {k : Nat} {c : Char} (hc : t[k]? = some c) (hne : c ≠ ')')
    (hd : depth (t.take (k + 1)) = 0) : isWrappedInParens t = false := by
  have hk : k < t.length := by
    by_contra hge
    rw [List.getElem?_eq_none (by omega)] at hc
    cases hc
  unfold isWrappedInParens
  split
  · rfl
  · split
    · rfl
    · rename_i hlen hends
      rw [← Bool.not_eq_true, wrappedLoop_true_iff]
      intro hall
      have hlast : t.getLast? = some ')' := by
        by_contra hl
        exact hends (Or.inr hl)
      by_cases hk' : k < t.length - 1
      · have := hall k (by rw [List.length_take]; omega)
        apply this
        rw [List.take_take, Nat.min_eq_left (by omega)]
        simpa using hd
      · have hkeq : k = t.length - 1 := by omega
        rw [List.getLast?_eq_getElem?, ← hkeq, hc] at hlast
        simp at hlast
        exact hne hlast

theorem ne_pi_e_of_mem {t : Str} {c : Char} (hc : c ∈ t) (h1 : c ≠ 'p') (h2 : c ≠ 'i')
    (h3 : c ≠ 'e') : t ≠ "pi".toList ∧ t ≠ "e".toList := by
  constructor
  · intro h
    subst h
    simp at hc
    rcases hc with h | h
    · exact h1 h
    · exact h2 h
  · intro h
    subst h
    simp at hc
    exact h3 hc

theorem mem_of_getElem? {t : Str} {k : Nat} {c : Char} (hc : t[k]? = some c) : c ∈ t := by
  exact List.mem_iff_getElem?.2 ⟨k, hc⟩

theorem substr_zero (t : Str) (i : Nat) : substr t 0 i = t.take i := by
  simp [substr]

/-- What `parse` does once the first three tests (empty, wrapped, `pi`/`e`) and the
unary minus test have failed. -/
theorem parseStep_scan {T : Type} (N : Numeric T) (f : Str → Except RuntimeError (ExprNode T))
    (t : Str) (hne : t ≠ []) (hw : isWrappedInParens t = false) (hpi : t ≠ "pi".toList)
    (he : t ≠ "e".toList) (hminus : t.head? ≠ some '-') :
    parseStep N f t =
      match findSplit isAdditive t 0 0 with
      | some (i, c) =>
        if c = '+' then applyBinary .Add (f (t.take i)) (f (t.drop (i + 1)))
        else applyBinary .Sub (f (t.take i)) (f (t.drop (i + 1)))
      | none =>
      match findSplit isMultiplicative t 0 0 with
      | some (i, c) =>
        if c = '*' then applyBinary .Mul (f (t.take i)) (f (t.drop (i + 1)))
        else applyBinary .Div (f (t.take i)) (f (t.drop (i + 1)))
      | none =>
      match findSplit isPower t 0 0 with
      | some (i, _) => applyBinary .Pow (f (t.take i)) (f (t.drop (i + 1)))
      | none =>
      if startsWith t "sin(".toList then parseCall f .Sin t "sin".toList
      else if startsWith t "cos(".toList then parseCall f .Cos t "cos".toList
      else if startsWith t "ln(".toList then parseCall f .Ln t "ln".toList
      else if startsWith t "exp(".toList then parseCall f .Exp t "exp".toList
      else .ok (parseAtom N t) := by
  have hem : ¬ (t.isEmpty = true) := by
    intro h; apply hne; simpa using h
  unfold parseStep
  rw [if_neg hem, hw]
  simp only [Bool.false_eq_true, if_false, if_neg hpi, if_neg he, if_neg hminus, substr_zero]

theorem plainChar_of_isAlpha {c : Char} (h : c.isAlpha = true) : plainChar c := by
  unfold plainChar isWs
  refine ⟨?_, ?_, ?_, ?_, ?_, ?_, ?_, ?_⟩
  · rintro (rfl | rfl | rfl | rfl) <;> exact absurd h (by decide)
  all_goals (rintro rfl; exact absurd h (by decide))

theorem mem_of_startsWith {s pre : Str} (h : startsWith s pre = true) {c : Char} (hc : c ∈ pre) :
    c ∈ s := by
  unfold startsWith at h
  simp only [Bool.and_eq_true, beq_iff_eq, decide_eq_true_eq] at h
  rw [← h.2] at hc
  exact List.mem_of_mem_take hc

theorem not_wrapped_of_head {t : Str} (h : t.head? ≠ some '(') : isWrappedInParens t = false := by
  unfold isWrappedInParens
  split
  · rfl
  · rw [if_pos (Or.inl h)]

theorem findSplit_none_of_plain {isOp : Char → Nat → Bool} {t : Str}
    (hop : ∀ c i, isOp c i = true → ¬ plainChar c) (hplain : ∀ c ∈ t, plainChar c) :
    findSplit isOp t 0 0 = none := by
  apply findSplit_none
  intro k d hhit
  exact hop d _ hhit.2.2 (hplain d (mem_of_getElem? hhit.1))

theorem isAdditive_not_plain (c : Char) (i : Nat) (h : isAdditive c i = true) : ¬ plainChar c := by
  unfold isAdditive at h
  simp only [Bool.and_eq_true, Bool.or_eq_true, decide_eq_true_eq] at h
  intro hp
  rcases h.1 with h1 | h1
  · exact hp.2.2.2.1 h1
  · exact hp.2.2.2.2.1 h1

theorem isMultiplicative_not_plain (c : Char) (i : Nat) (h : isMultiplicative c i = true) :
    ¬ plainChar c := by
  unfold isMultiplicative at h
  simp only [Bool.or_eq_true, decide_eq_true_eq] at h
  intro hp
  rcases h with h1 | h1
  · exact hp.2.2.2.2.2.1 h1
  · exact hp.2.2.2.2.2.2.1 h1

theorem isPower_not_plain (c : Char) (i : Nat) (h : isPower c i = true) : ¬ plainChar c := by
  unfold isPower at h
  simp only [decide_eq_true_eq] at h
  intro hp
  exact hp.2.2.2.2.2.2.2 h

theorem trim_of_plain {a : Str} (hplain : ∀ c ∈ a, plainChar c) : trim a = a := by
  by_cases hne : a = []
  · subst hne; rfl
  · have := @trim_pad [] [] a (by simp) (by simp) hne
      (fun c hc => (hplain c (List.mem_of_mem_head? hc)).1)
      (fun c hc => (hplain c (List.mem_of_mem_getLast? hc)).1)
    simpa using this

theorem parseAtom_none {T : Type} (N : Numeric T) {s : Str} (h : N.extract s = none) :
    parseAtom N s = .Variable s := by
  simp [parseAtom, stringToValue, h]

theorem parseAtom_some {T : Type} (N : Numeric T) {s : Str} {v : T} (h : N.extract s = some v) :
    parseAtom N s = .Constant v := by
  simp [parseAtom, stringToValue, h]

/-- A non-empty text of plain characters other than `pi` and `e` is a number
when stream extraction reads it, and a variable name otherwise. -/
theorem parse_plain {T : Type} (N : Numeric T) {a : Str} (hne : a ≠ [])
    (hplain : ∀ c ∈ a, plainChar c) (hpi : a ≠ "pi".toList) (he : a ≠ "e".toList) :
    parse N a = .ok (parseAtom N a) := by
  have hparen : '(' ∉ a := fun h => (hplain _ h).2.1 rfl
  have hhead : a.head? ≠ some '(' := fun h => hparen (List.mem_of_mem_head? h)
  have hminus : a.head? ≠ some '-' := fun h => (hplain _ (List.mem_of_mem_head? h)).2.2.2.2.1 rfl
  rw [parse_eq, trim_of_plain hplain,
    parseStep_scan N _ a hne (not_wrapped_of_head hhead) hpi he hminus,
    findSplit_none_of_plain isAdditive_not_plain hplain,
    findSplit_none_of_plain isMultiplicative_not_plain hplain,
    findSplit_none_of_plain isPower_not_plain hplain]
  have hs : ∀ pre : Str, '(' ∈ pre → startsWith a pre = false := by
    intro pre hp
    rw [← Bool.not_eq_true]
    intro h
    exact hparen (mem_of_startsWith h hp)
  simp only [hs "sin(".toList (by decide), hs "cos(".toList (by decide),
    hs "ln(".toList (by decide), hs "exp(".toList (by decide), Bool.false_eq_true, if_false]

theorem parse_name {T : Type} (N : Numeric T) {a : Str} (ha : SimpleName a)
    (hx : N.extract a = none) : parse N a = .ok (.Variable a) := by
  rw [parse_plain N ha.1 (fun c hc => plainChar_of_isAlpha (ha.2.1 c hc)) ha.2.2.1 ha.2.2.2,
    parseAtom_none N hx]

theorem depth_take_succ {t : Str} {k : Nat} {c : Char} (hc : t[k]? = some c) :
    depth (t.take (k + 1)) = depth (t.take k) + depth [c] := by
  rw [List.take_succ, hc, depth_append]
  rfl

theorem lt_length_of_getElem? {t : Str} {k : Nat} {c : Char} (hc : t[k]? = some c) :
    k < t.length := by
  by_contra hge
  rw [List.getElem?_eq_none (by omega)] at hc
  cases hc

theorem hit_additive_iff (t : Str) (k : Nat) (c : Char) :
    Hit isAdditive t 0 0 k c ↔
      t[k]? = some c ∧ (c = '+' ∨ c = '-') ∧ 0 < k ∧ depth (t.take k) = 0 := by
  unfold Hit isAdditive
  simp only [Bool.and_eq_true, Bool.or_eq_true, decide_eq_true_eq, zero_add]
  constructor
  · rintro ⟨h1, h2, h3, h4⟩
    refine ⟨h1, h3, h4, ?_⟩
    rw [depth_take_succ h1] at h2
    have : depth [c] = 0 := by
      rcases h3 with rfl | rfl <;> rfl
    omega
  · rintro ⟨h1, h3, h4, h2⟩
    refine ⟨h1, ?_, h3, h4⟩
    rw [depth_take_succ h1]
    have : depth [c] = 0 := by
      rcases h3 with rfl | rfl <;> rfl
    omega

theorem hit_multiplicative_iff (t : Str) (k : Nat) (c : Char) :
    Hit isMultiplicative t 0 0 k c ↔
      t[k]? = some c ∧ (c = '*' ∨ c = '/') ∧ depth (t.take k) = 0 := by
  unfold Hit isMultiplicative
  simp only [Bool.or_eq_true, decide_eq_true_eq, zero_add]
  constructor
  · rintro ⟨h1, h2, h3⟩
    refine ⟨h1, h3, ?_⟩
    rw [depth_take_succ h1] at h2
    have : depth [c] = 0 := by
      rcases h3 with rfl | rfl <;> rfl
    omega
  · rintro ⟨h1, h3, h2⟩
    refine ⟨h1, ?_, h3⟩
    rw [depth_take_succ h1]
    have : depth [c] = 0 := by
      rcases h3 with rfl | rfl <;> rfl
    omega

theorem hit_power_iff (t : Str) (k : Nat) (c : Char) :
    Hit isPower t 0 0 k c ↔ t[k]? = some c ∧ c = '^' ∧ depth (t.take k) = 0 := by
  unfold Hit isPower
  simp only [decide_eq_true_eq, zero_add]
  constructor
  · rintro ⟨h1, h2, h3⟩
    refine ⟨h1, h3, ?_⟩
    rw [depth_take_succ h1] at h2
    have : depth [c] = 0 := by subst h3; rfl
    omega
  · rintro ⟨h1, h3, h2⟩
    refine ⟨h1, ?_, h3⟩
    rw [depth_take_succ h1]
    have : depth [c] = 0 := by subst h3; rfl
    omega

/-- The tests that precede the scanning loops fail on a text with an operator
sign at parenthesis depth 0, provided the text does not start with `-`. -/
theorem scan_reached {t : Str} {k : Nat} {c : Char} (hc : t[k]? = some c)
    (hop : c = '+' ∨ c = '-' ∨ c = '*' ∨ c = '/' ∨ c = '^') (hd : depth (t.take k) = 0) :
    t ≠ [] ∧ isWrappedInParens t = false ∧ t ≠ "pi".toList ∧ t ≠ "e".toList := by
  have hmem := mem_of_getElem? hc
  have hz : depth [c] = 0 := by
    rcases hop with rfl | rfl | rfl | rfl | rfl <;> rfl
  refine ⟨List.ne_nil_of_mem hmem, ?_, ?_⟩
  · apply not_wrapped_of_top hc
    · rcases hop with rfl | rfl | rfl | rfl | rfl <;> decide
    · rw [depth_take_succ hc, hd, hz]; rfl
  · apply ne_pi_e_of_mem hmem <;>
      (rcases hop with rfl | rfl | rfl | rfl | rfl <;> decide)

theorem parse_additive {T : Type} (N : Numeric T) {s : Str} {i : Nat} {c : Char}
    (hminus : (trim s).head? ≠ some '-')
    (h : findSplit isAdditive (trim s) 0 0 = some (i, c)) :
    parse N s = applyBinary (if c = '+' then .Add else .Sub)
      (parse N ((trim s).take i)) (parse N ((trim s).drop (i + 1))) := by
  obtain ⟨k, hk, hhit, _⟩ := findSplit_some h
  rw [zero_add] at hk
  subst hk
  obtain ⟨h1, h2, _, h4⟩ := (hit_additive_iff _ _ _).1 hhit
  obtain ⟨hne, hw, hpi, he⟩ := scan_reached h1
    (by rcases h2 with h | h <;> simp [h]) h4
  rw [parse_eq, parseStep_scan N _ _ hne hw hpi he hminus, h]
  simp only
  split <;> rfl

theorem parse_multiplicative {T : Type} (N : Numeric T) {s : Str} {i : Nat} {c : Char}
    (hminus : (trim s).head? ≠ some '-')
    (hadd : findSplit isAdditive (trim s) 0 0 = none)
    (h : findSplit isMultiplicative (trim s) 0 0 = some (i, c)) :
    parse N s = applyBinary (if c = '*' then .Mul else .Div)
      (parse N ((trim s).take i)) (parse N ((trim s).drop (i + 1))) := by
  obtain ⟨k, hk, hhit, _⟩ := findSplit_some h
  rw [zero_add] at hk
  subst hk
  obtain ⟨h1, h2, h4⟩ := (hit_multiplicative_iff _ _ _).1 hhit
  obtain ⟨hne, hw, hpi, he⟩ := scan_reached h1
    (by rcases h2 with h | h <;> simp [h]) h4
  rw [parse_eq, parseStep_scan N _ _ hne hw hpi he hminus, hadd, h]
  simp only
  split <;> rfl

theorem parse_power {T : Type} (N : Numeric T) {s : Str} {i : Nat} {c : Char}
    (hminus : (trim s).head? ≠ some '-')
    (hadd : findSplit isAdditive (trim s) 0 0 = none)
    (hmul : findSplit isMultiplicative (trim s) 0 0 = none)
    (h : findSplit isPower (trim s) 0 0 = some (i, c)) :
    parse N s = applyBinary .Pow
      (parse N ((trim s).take i)) (parse N ((trim s).drop (i + 1))) := by
  obtain ⟨k, hk, hhit, _⟩ := findSplit_some h
  rw [zero_add] at hk
  subst hk
  obtain ⟨h1, h2, h4⟩ := (hit_power_iff _ _ _).1 hhit
  obtain ⟨hne, hw, hpi, he⟩ := scan_reached h1 (by simp [h2]) h4
  rw [parse_eq, parseStep_scan N _ _ hne hw hpi he hminus, hadd, hmul, h]

theorem applyBinary_ok {T : Type} (mk : ExprNode T → ExprNode T → ExprNode T)
    {a b : Except RuntimeError (ExprNode T)} {l r : ExprNode T} (ha : a = .ok l) (hb : b = .ok r) :
    applyBinary mk a b = .ok (mk l r) := by
  subst ha hb; rfl

theorem applyBinary_error {T : Type} (mk : ExprNode T → ExprNode T → ExprNode T)
    {a b : Except RuntimeError (ExprNode T)}
    (h : (∃ e, a = .error e) ∨ (∃ e, b = .error e)) : ∃ e, applyBinary mk a b = .error e := by
  cases a with
  | error e => exact ⟨e, rfl⟩
  | ok l =>
    cases b with
    | error e => exact ⟨e, rfl⟩
    | ok r =>
      rcases h with ⟨e, h⟩ | ⟨e, h⟩ <;> cases h

theorem applyBinary_eq_ok {T : Type} (mk : ExprNode T → ExprNode T → ExprNode T)
    {a b : Except RuntimeError (ExprNode T)} {tree : ExprNode T}
    (h : applyBinary mk a b = .ok tree) : ∃ l r, a = .ok l ∧ b = .ok r ∧ tree = mk l r := by
  cases a with
  | error e => cases h
  | ok l =>
    cases b with
    | error e => cases h
    | ok r =>
      refine ⟨l, r, rfl, rfl, ?_⟩
      simp only [applyBinary, Except.ok.injEq] at h
      exact h.symm

theorem depth_of_plain {l : Str} (h : ∀ ch ∈ l, plainChar ch) : depth l = 0 := by
  induction l with
  | nil => rfl
  | cons a l ih =>
    rw [depth_cons, ih (fun ch hch => h ch (by simp [hch])),
      depth_single_of_not_paren (h a (by simp)).2.1 (h a (by simp)).2.2.1]
    rfl

theorem findSplit_after_plain {isOp : Char → Nat → Bool} {l r : Str} {c : Char}
    (hlp : ∀ ch ∈ l, plainChar ch) (hop : ∀ ch i, isOp ch i = true → ¬ plainChar ch)
    (hc : isOp c l.length = true) (hcz : depth [c] = 0) :
    findSplit isOp (l ++ c :: r) 0 0 = some (l.length, c) := by
  have := @findSplit_of_hit isOp (l ++ c :: r) 0 0 l.length c ?_ ?_
  · rw [this, zero_add]
  · refine ⟨by rw [List.getElem?_append_right (Nat.le_refl _)]; simp, ?_, by simpa using hc⟩
    have : List.take (l.length + 1) (l ++ c :: r) = l ++ [c] := by
      rw [List.take_append_eq_append_take]
      simp
    rw [this, depth_append, depth_of_plain hlp, hcz]
    rfl
  · intro j d hj hhit
    have h1 := hhit.1
    rw [List.getElem?_append_left hj] at h1
    exact hop d _ hhit.2.2 (hlp d (mem_of_getElem? h1))

theorem findSplit_none_of_forall {isOp : Char → Nat → Bool} {t : Str}
    (h : ∀ ch ∈ t, ∀ i, isOp ch i = false) : findSplit isOp t 0 0 = none := by
  apply findSplit_none
  intro k d hhit
  have := h d (mem_of_getElem? hhit.1) (0 + k)
  rw [hhit.2.2] at this
  cases this

theorem trim_split {l r : Str} {c : Char} (hl : ∀ x, l.head? = some x → ¬ isWs x)
    (hc : ¬ isWs c) (hr : ∀ x, r.getLast? = some x → ¬ isWs x) :
    trim (l ++ c :: r) = l ++ c :: r := by
  have := @trim_pad [] [] (l ++ c :: r) (by simp) (by simp) (by simp) ?_ ?_
  · simpa using this
  · intro x hx
    cases l with
    | nil =>
      simp at hx
      subst hx; exact hc
    | cons a l =>
      simp at hx
      subst hx
      exact hl a rfl
  · intro x hx
    rcases List.eq_nil_or_concat r with h0 | ⟨ini, y, h0⟩
    · subst h0
      simp at hx
      subst hx; exact hc
    · subst h0
      rw [List.concat_eq_append] at hx hr
      have : l ++ c :: (ini ++ [y]) = (l ++ c :: ini) ++ [y] := by simp
      rw [this] at hx
      simp only [List.getLast?_append, List.getLast?_singleton] at hx
      have hx' : y = x := by simpa [Option.or] using hx
      subst hx'
      exact hr _ (by simp)

theorem head_plain_not_ws {l : Str} (hlp : ∀ ch ∈ l, plainChar ch) :
    ∀ x, l.head? = some x → ¬ isWs x :=
  fun x hx => (hlp x (List.mem_of_mem_head? hx)).1

theorem take_drop_split (l r : Str) (c : Char) :
    (l ++ c :: r).take l.length = l ∧ (l ++ c :: r).drop (l.length + 1) = r := by
  constructor
  · simp
  · rw [List.drop_append_eq_append_drop]
    simp

/-- A text `l c r` whose left part `l` has only plain characters and whose
`c` is `+` or `-` is split at `c`. -/
theorem parse_plain_additive {T : Type} (N : Numeric T) {l r : Str} {c : Char}
    (hl : l ≠ []) (hlp : ∀ ch ∈ l, plainChar ch) (hc : c = '+' ∨ c = '-')
    (hr : ∀ x, r.getLast? = some x → ¬ isWs x) :
    parse N (l ++ c :: r)
      = applyBinary (if c = '+' then .Add else .Sub) (parse N l) (parse N r) := by
  have hcws : ¬ isWs c := by
    rcases hc with rfl | rfl <;> decide
  have htrim := trim_split (head_plain_not_ws hlp) hcws hr
  have hminus : (trim (l ++ c :: r)).head? ≠ some '-' := by
    rw [htrim]
    obtain ⟨a, l', rfl⟩ := List.exists_cons_of_ne_nil hl
    intro h
    simp at h
    exact (hlp a (by simp)).2.2.2.2.1 h
  have hsplit : findSplit isAdditive (trim (l ++ c :: r)) 0 0 = some (l.length, c) := by
    rw [htrim]
    apply findSplit_after_plain hlp isAdditive_not_plain
    · have : 0 < l.length := List.length_pos.2 hl
      rcases hc with rfl | rfl <;> simp [isAdditive, this]
    · rcases hc with rfl | rfl <;> rfl
  rw [parse_additive N hminus hsplit, htrim, (take_drop_split l r c).1, (take_drop_split l r c).2]

/-- A text `l c r` whose left part `l` has only plain characters, whose `c` is
`*` or `/` and whose right part has no `+` and no `-` is split at `c`. -/
theorem parse_plain_multiplicative {T : Type} (N : Numeric T) {l r : Str} {c : Char}
    (hlp : ∀ ch ∈ l, plainChar ch) (hc : c = '*' ∨ c = '/')
    (hr : ∀ x, r.getLast? = some x → ¬ isWs x) (hplus : '+' ∉ r) (hmin : '-' ∉ r) :
    parse N (l ++ c :: r)
      = applyBinary (if c = '*' then .Mul else .Div) (parse N l) (parse N r) := by
  have hcws : ¬ isWs c := by
    rcases hc with rfl | rfl <;> decide
  have htrim := trim_split (head_plain_not_ws hlp) hcws hr
  have hminus : (trim (l ++ c :: r)).head? ≠ some '-' := by
    rw [htrim]
    cases l with
    | nil => rcases hc with rfl | rfl <;> simp
    | cons a l' =>
      intro h
      simp at h
      exact (hlp a (by simp)).2.2.2.2.1 h
  have hadd : findSplit isAdditive (trim (l ++ c :: r)) 0 0 = none := by
    rw [htrim]
    apply findSplit_none_of_forall
    intro ch hch i
    rw [← Bool.not_eq_true]
    intro hop
    simp only [isAdditive, Bool.and_eq_true, Bool.or_eq_true, decide_eq_true_eq] at hop
    simp only [List.mem_append, List.mem_cons] at hch
    rcases hch with h | h | h
    · exact isAdditive_not_plain ch i (by simp [isAdditive, hop]) (hlp ch h)
    · subst h
      rcases hc with rfl | rfl <;> rcases hop.1 with h | h <;> cases h
    · rcases hop.1 with h' | h'
      · subst h'; exact hplus h
      · subst h'; exact hmin h
  have hsplit : findSplit isMultiplicative (trim (l ++ c :: r)) 0 0 = some (l.length, c) := by
    rw [htrim]
    apply findSplit_after_plain hlp isMultiplicative_not_plain
    · rcases hc with rfl | rfl <;> simp [isMultiplicative]
    · rcases hc with rfl | rfl <;> rfl
  rw [parse_multiplicative N hminus hadd hsplit, htrim, (take_drop_split l r c).1,
    (take_drop_split l r c).2]

/-- A text `l ^ r` whose left part `l` has only plain characters and whose
right part has no `+`, `-`, `*`, `/` is split at `^`. -/
theorem parse_plain_power {T : Type} (N : Numeric T) {l r : Str}
    (hlp : ∀ ch ∈ l, plainChar ch)
    (hr : ∀ x, r.getLast? = some x → ¬ isWs x) (hplus : '+' ∉ r) (hmin : '-' ∉ r)
    (hstar : '*' ∉ r) (hslash : '/' ∉ r) :
    parse N (l ++ '^' :: r) = applyBinary .Pow (parse N l) (parse N r) := by
  have htrim := trim_split (c := '^') (head_plain_not_ws hlp) (by decide) hr
  have hminus : (trim (l ++ '^' :: r)).head? ≠ some '-' := by
    rw [htrim]
    cases l with
    | nil => simp
    | cons a l' =>
      intro h
      simp at h
      exact (hlp a (by simp)).2.2.2.2.1 h
  have hadd : findSplit isAdditive (trim (l ++ '^' :: r)) 0 0 = none := by
    rw [htrim]
    apply findSplit_none_of_forall
    intro ch hch i
    rw [← Bool.not_eq_true]
    intro hop
    simp only [isAdditive, Bool.and_eq_true, Bool.or_eq_true, decide_eq_true_eq] at hop
    simp only [List.mem_append, List.mem_cons] at hch
    rcases hch with h | h | h
    · exact isAdditive_not_plain ch i (by simp [isAdditive, hop]) (hlp ch h)
    · subst h
      rcases hop.1 with h | h <;> cases h
    · rcases hop.1 with h' | h'
      · subst h'; exact hplus h
      · subst h'; exact hmin h
  have hmul : findSplit isMultiplicative (trim (l ++ '^' :: r)) 0 0 = none := by
    rw [htrim]
    apply findSplit_none_of_forall
    intro ch hch i
    rw [← Bool.not_eq_true]
    intro hop
    simp only [isMultiplicative, Bool.or_eq_true, decide_eq_true_eq] at hop
    simp only [List.mem_append, List.mem_cons] at hch
    rcases hch with h | h | h
    · exact isMultiplicative_not_plain ch i (by simp [isMultiplicative, hop]) (hlp ch h)
    · subst h
      rcases hop with h | h <;> cases h
    · rcases hop with h' | h'
      · subst h'; exact hstar h
      · subst h'; exact hslash h
  have hsplit : findSplit isPower (trim (l ++ '^' :: r)) 0 0 = some (l.length, '^') := by
    rw [htrim]
    apply findSplit_after_plain hlp isPower_not_plain
    · simp [isPower]
    · rfl
  rw [parse_power N hminus hadd hmul hsplit, htrim, (take_drop_split l r '^').1,
    (take_drop_split l r '^').2]

end StepLemmas

/-! ## Differentiation and substitution -/

section TreeTheorems

/-- C1: `differentiateImpl` is exactly the rule table, applied recursively,
with no simplification.  For every numeric type and variable name `x`:
Constant gives Constant 0; Variable `n` gives Constant 1 if `n = x`, else
Constant 0; Add and Sub differentiate both children; Mul gives the product
rule, Div the quotient rule over `Pow(v, Constant 2)`; `Pow(u, Constant c)`
gives `Mul(Mul(Constant c, Pow(u, Constant (c - 1))), u')`; `Pow(u, v)` with
`v` not a Constant gives `Mul(Pow(u,v), Add(Mul(v', Ln u), Div(Mul(v,u'), u)))`;
Sin, Cos, Ln, Exp give the chain rule forms.  Differentiating
`Mul(Variable x, Variable x)` by `x` gives `Add(Mul(1,x), Mul(x,1))`, which
prints as `((1 * x) + (x * 1))` when the number 1 prints as `1`. -/
theorem differentiate_rule_table {T : Type} (N : Numeric T) (x : Str) :
    (∀ c, differentiateImpl N (.Constant c) x = .Constant (N.ofInt 0)) ∧
    (∀ n, differentiateImpl N (.Variable n) x
        = if n = x then .Constant (N.ofInt 1) else .Constant (N.ofInt 0)) ∧
    (∀ u v, differentiateImpl N (.Add u v) x
        = .Add (differentiateImpl N u x) (differentiateImpl N v x)) ∧
    (∀ u v, differentiateImpl N (.Sub u v) x
        = .Sub (differentiateImpl N u x) (differentiateImpl N v x)) ∧
    (∀ u v, differentiateImpl N (.Mul u v) x
        = .Add (.Mul (differentiateImpl N u x) v) (.Mul u (differentiateImpl N v x))) ∧
    (∀ u v, differentiateImpl N (.Div u v) x
        = .Div (.Sub (.Mul (differentiateImpl N u x) v) (.Mul u (differentiateImpl N v x)))
            (.Pow v (.Constant (N.ofInt 2)))) ∧
    (∀ u c, differentiateImpl N (.Pow u (.Constant c)) x
        = .Mul (.Mul (.Constant c) (.Pow u (.Constant (N.sub c (N.ofInt 1)))))
            (differentiateImpl N u x)) ∧
    (∀ u v, (∀ c, v ≠ .Constant c) → differentiateImpl N (.Pow u v) x
        = .Mul (.Pow u v)
            (.Add (.Mul (differentiateImpl N v x) (.Ln u))
              (.Div (.Mul v (differentiateImpl N u x)) u))) ∧
    (∀ u, differentiateImpl N (.Sin u) x = .Mul (.Cos u) (differentiateImpl N u x)) ∧
    (∀ u, differentiateImpl N (.Cos u) x
        = .Mul (.Mul (.Constant (N.ofInt (-1))) (.Sin u)) (differentiateImpl N u x)) ∧
    (∀ u, differentiateImpl N (.Ln u) x = .Div (differentiateImpl N u x) u) ∧
    (∀ u, differentiateImpl N (.Exp u) x = .Mul (.Exp u) (differentiateImpl N u x)) ∧
    differentiateImpl N (.Mul (.Variable x) (.Variable x)) x
        = .Add (.Mul (.Constant (N.ofInt 1)) (.Variable x))
            (.Mul (.Variable x) (.Constant (N.ofInt 1))) ∧
    (N.print (N.ofInt 1) = "1".toList →
      toStringImpl N (differentiateImpl N (.Mul (.Variable x) (.Variable x)) x)
        = "((1 * ".toList ++ x ++ ") + (".toList ++ x ++ " * 1))".toList) := by
  refine ⟨fun _ => rfl, fun _ => rfl, fun _ _ => rfl, fun _ _ => rfl, fun _ _ => rfl,
    fun _ _ => rfl, fun _ _ => rfl, ?_, fun _ => rfl, fun _ => rfl, fun _ => rfl,
    fun _ => rfl, ?_, ?_⟩
  · intro u v hv
    cases v with
    | Constant c => exact absurd rfl (hv c)
    | _ => rfl
  · simp [differentiateImpl]
  · intro h1
    simp [differentiateImpl, toStringImpl, h1]

/-- The rule table at `x * x` and at a power with a variable exponent, in the
rational model: `d/dx (x*x)` prints as `((1 * x) + (x * 1))`, and
`d/dx (x^y)` takes the general form with an `Ln` node. -/
theorem differentiate_rule_table_witness :
    toStringImpl ratNumeric
        (differentiateImpl ratNumeric (.Mul (.Variable "x".toList) (.Variable "x".toList))
          "x".toList)
      = "((1 * x) + (x * 1))".toList ∧
    differentiateImpl ratNumeric (.Pow (.Variable "x".toList) (.Variable "y".toList)) "x".toList
      = .Mul (.Pow (.Variable "x".toList) (.Variable "y".toList))
          (.Add (.Mul (.Constant 0) (.Ln (.Variable "x".toList)))
            (.Div (.Mul (.Variable "y".toList) (.Constant 1)) (.Variable "x".toList))) := by
  obtain ⟨_, _, _, _, _, _, _, hpow, _, _, _, _, _, hprint⟩ :=
    differentiate_rule_table ratNumeric "x".toList
  refine ⟨hprint (by decide), ?_⟩
  have := hpow (.Variable "x".toList) (.Variable "y".toList) (fun c h => by cases h)
  rw [this]
  rfl

/-- C2: substitution agrees with evaluation.  For every tree `t`, name `x`,
value `v` and bindings `env`, evaluating `substitute(t, x, v)` under `env`
gives the same outcome (the same number or the same error) as evaluating `t`
under `env` with `x` bound to `v`.  In the rational model,
`evaluate(substitute(x + y, "x", 2), {y: 3}) = 5`. -/
theorem evaluate_substitute {T : Type} (N : Numeric T) (t : ExprNode T) (x : Str) (v : T)
    (env : VarValues T) :
    evaluateImpl N (substituteImpl t x v) env = evaluateImpl N t (env.bind x v) ∧
    evaluateImpl ratNumeric
        (substituteImpl (.Add (.Variable "x".toList) (.Variable "y".toList)) "x".toList 2)
        (fun n => if n = "y".toList then some 3 else none)
      = .ok 5 := by
  constructor
  · induction t with
    | null => rfl
    | Constant c => rfl
    | Variable n =>
      by_cases h : n = x
      · simp [substituteImpl, evaluateImpl, VarValues.bind, h]
      · simp [substituteImpl, evaluateImpl, VarValues.bind, h]
    | Add l r ihl ihr => simp only [substituteImpl, evaluateImpl, ihl, ihr]
    | Sub l r ihl ihr => simp only [substituteImpl, evaluateImpl, ihl, ihr]
    | Mul l r ihl ihr => simp only [substituteImpl, evaluateImpl, ihl, ihr]
    | Div l r ihl ihr => simp only [substituteImpl, evaluateImpl, ihl, ihr]
    | Pow l r ihl ihr => simp only [substituteImpl, evaluateImpl, ihl, ihr]
    | Sin u ih => simp only [substituteImpl, evaluateImpl, ih]
    | Cos u ih => simp only [substituteImpl, evaluateImpl, ih]
    | Ln u ih => simp only [substituteImpl, evaluateImpl, ih]
    | Exp u ih => simp only [substituteImpl, evaluateImpl, ih]
  · have h : evaluateImpl ratNumeric
        (substituteImpl (.Add (.Variable "x".toList) (.Variable "y".toList)) "x".toList 2)
        (fun n => if n = "y".toList then some 3 else none) = .ok ((2 : ℚ) + 3) := rfl
    rw [h]
    norm_num

/-- C20: Pow differentiation dispatches on syntax only.  `differentiate(Pow(u,
v), x)` is the constant-exponent power rule `Mul(Mul(Constant c, Pow(u,
Constant (c - 1))), u')` if and only if the root of `v` is a `Constant c`.  For
every other exponent, such as `Add(Constant 2, Constant 3)` or a Variable
other than `x`, it is the general form `Mul(Pow(u,v), Add(Mul(v', Ln(u)),
Div(Mul(v,u'), u)))`, which contains the node `Ln(u)`. -/
theorem differentiate_pow_dispatch {T : Type} (N : Numeric T) (u v : ExprNode T) (x : Str) :
    (∀ c, differentiateImpl N (.Pow u (.Constant c)) x
        = .Mul (.Mul (.Constant c) (.Pow u (.Constant (N.sub c (N.ofInt 1)))))
            (differentiateImpl N u x)) ∧
    ((∃ c, differentiateImpl N (.Pow u v) x
        = .Mul (.Mul (.Constant c) (.Pow u (.Constant (N.sub c (N.ofInt 1)))))
            (differentiateImpl N u x)) ↔ ∃ c, v = .Constant c) ∧
    ((∀ c, v ≠ .Constant c) →
      differentiateImpl N (.Pow u v) x
        = .Mul (.Pow u v)
            (.Add (.Mul (differentiateImpl N v x) (.Ln u))
              (.Div (.Mul v (differentiateImpl N u x)) u)) ∧
      .Ln u ∈ subtrees (differentiateImpl N (.Pow u v) x)) ∧
    differentiateImpl N (.Pow u (.Add (.Constant (N.ofInt 2)) (.Constant (N.ofInt 3)))) x
      = .Mul (.Pow u (.Add (.Constant (N.ofInt 2)) (.Constant (N.ofInt 3))))
          (.Add (.Mul (.Add (.Constant (N.ofInt 0)) (.Constant (N.ofInt 0))) (.Ln u))
            (.Div (.Mul (.Add (.Constant (N.ofInt 2)) (.Constant (N.ofInt 3)))
              (differentiateImpl N u x)) u)) ∧
    (∀ y, y ≠ x → differentiateImpl N (.Pow u (.Variable y)) x
      = .Mul (.Pow u (.Variable y))
          (.Add (.Mul (.Constant (N.ofInt 0)) (.Ln u))
            (.Div (.Mul (.Variable y) (differentiateImpl N u x)) u))) := by
  have hgen : (∀ c, v ≠ .Constant c) →
      differentiateImpl N (.Pow u v) x
        = .Mul (.Pow u v)
            (.Add (.Mul (differentiateImpl N v x) (.Ln u))
              (.Div (.Mul v (differentiateImpl N u x)) u)) := by
    intro hv
    cases v with
    | Constant c => exact absurd rfl (hv c)
    | _ => rfl
  refine ⟨fun _ => rfl, ?_, ?_, rfl, ?_⟩
  · constructor
    · rintro ⟨c, hc⟩
      by_contra hv
      rw [hgen (fun c' h => hv ⟨c', h⟩)] at hc
      injection hc with h1 _
      cases h1
    · rintro ⟨c, rfl⟩; exact ⟨c, rfl⟩
  · intro hv
    refine ⟨hgen hv, ?_⟩
    rw [hgen hv]
    simp [subtrees]
  · intro y hy
    simp only [differentiateImpl, if_neg hy]

/-- The dispatch in the rational model: `d/dx (x^(2+3))` takes the general
form and contains `Ln(x)`, while `d/dx (x^5)` is `(5 * x^4) * 1`. -/
theorem differentiate_pow_dispatch_witness :
    ExprNode.Ln (.Variable "x".toList) ∈ subtrees (differentiateImpl ratNumeric
      (.Pow (.Variable "x".toList) (.Add (.Constant 2) (.Constant 3))) "x".toList) ∧
    differentiateImpl ratNumeric (.Pow (.Variable "x".toList) (.Constant 5)) "x".toList
      = .Mul (.Mul (.Constant 5) (.Pow (.Variable "x".toList) (.Constant 4))) (.Constant 1) := by
  refine ⟨((differentiate_pow_dispatch ratNumeric (.Variable "x".toList)
    (.Add (.Constant 2) (.Constant 3)) "x".toList).2.2.1 (fun c h => by cases h)).2, ?_⟩
  simp only [differentiateImpl]
  norm_num [ratNumeric]

end TreeTheorems

/-! ## The parser -/

section ParserTheorems

theorem findSplit_additive_first {t : Str} {i : Nat} {c : Char}
    (hc : t[i]? = some c) (hop : c = '+' ∨ c = '-') (hi : 0 < i) (hd : depth (t.take i) = 0)
    (hmin : ∀ j, j < i → 0 < j → ¬ TopLevelOp ['+', '-'] t j) :
    findSplit isAdditive t 0 0 = some (i, c) := by
  have := @findSplit_of_hit isAdditive t 0 0 i c
    ((hit_additive_iff t i c).2 ⟨hc, hop, hi, hd⟩) ?_
  · rw [this, zero_add]
  · intro j d hj hhit
    obtain ⟨h1, h2, h3, h4⟩ := (hit_additive_iff t j d).1 hhit
    refine hmin j hj h3 ⟨⟨d, ?_, h1⟩, h4⟩
    rcases h2 with rfl | rfl <;> simp

/-- C3: additive split at the first top-level operator.  Let `t` be the
trimmed form of `s`, not starting with `-`, and let `i > 0` be the smallest
index at which `t` has `+` or `-` at parenthesis depth 0.  Then `parse s` is
`parse (t[0..i)) + parse (t[i+1..])` when `t[i]` is `+` and
`parse (t[0..i)) - parse (t[i+1..])` when it is `-`: the Add (Sub) node over
the two trees when both sub-parses succeed, and a failure when either fails.
(That `t` is not wrapped in parentheses and is not `pi` or `e` follows from
the existence of `i`.) -/
theorem parse_additive_split {T : Type} (N : Numeric T) (s : Str) (i : Nat) (c : Char)
    (hminus : (trim s).head? ≠ some '-')
    (hi : 0 < i) (hc : (trim s)[i]? = some c) (hop : c = '+' ∨ c = '-')
    (hdepth : depth ((trim s).take i) = 0)
    (hmin : ∀ j, j < i → 0 < j → ¬ TopLevelOp ['+', '-'] (trim s) j) :
    parse N s = applyBinary (if c = '+' then .Add else .Sub)
        (parse N ((trim s).take i)) (parse N ((trim s).drop (i + 1))) ∧
    (∀ l r, parse N ((trim s).take i) = .ok l → parse N ((trim s).drop (i + 1)) = .ok r →
      parse N s = .ok (if c = '+' then .Add l r else .Sub l r)) ∧
    ((∃ e, parse N ((trim s).take i) = .error e) ∨
        (∃ e, parse N ((trim s).drop (i + 1)) = .error e) →
      ∃ e, parse N s = .error e) := by
  have h := parse_additive N hminus (findSplit_additive_first hc hop hi hdepth hmin)
  refine ⟨h, ?_, ?_⟩
  · intro l r hl hr
    rw [h, applyBinary_ok _ hl hr]
    split <;> rfl
  · intro hfail
    rw [h]
    exact applyBinary_error _ hfail

/-- The additive split at `sin(x)+3`, in the rational model: the first
top-level sign is the `+` at index 6 and
`parse("sin(x)+3") = Add(Sin(Variable x), Constant 3)`. -/
theorem parse_additive_split_witness :
    parse ratNumeric "sin(x)+3".toList
      = .ok (.Add (.Sin (.Variable "x".toList)) (.Constant 3)) :=
  (parse_additive_split ratNumeric "sin(x)+3".toList 6 '+' (by decide) (by decide) (by decide)
    (by decide) (by decide) (by decide)).2.1 _ _ rfl rfl

theorem last_not_ws_of_forall {r : Str} (h : ∀ x ∈ r, ¬ isWs x) :
    ∀ x, r.getLast? = some x → ¬ isWs x :=
  fun x hx => h x (List.mem_of_mem_getLast? hx)

theorem SimpleName.plain {a : Str} (ha : SimpleName a) : ∀ ch ∈ a, plainChar ch :=
  fun ch hch => plainChar_of_isAlpha (ha.2.1 ch hch)

/-- The parse of `a c b` for two simple names `a`, `b` that are not read as
numbers and an operator sign `c`. -/
theorem parse_two_names {T : Type} (N : Numeric T) {a b : Str} (ha : SimpleName a)
    (hb : SimpleName b) (hxa : N.extract a = none) (hxb : N.extract b = none) :
    parse N (a ++ '-' :: b) = .ok (.Sub (.Variable a) (.Variable b)) ∧
    parse N (a ++ '/' :: b) = .ok (.Div (.Variable a) (.Variable b)) := by
  have hbl := last_not_ws_of_forall (fun x hx => (hb.plain x hx).1)
  constructor
  · rw [parse_plain_additive N ha.1 ha.plain (Or.inr rfl) hbl, parse_name N ha hxa,
      parse_name N hb hxb]
    rfl
  · rw [parse_plain_multiplicative N ha.plain (Or.inr rfl) hbl
        (fun h => (hb.plain _ h).2.2.2.1 rfl) (fun h => (hb.plain _ h).2.2.2.2.1 rfl),
      parse_name N ha hxa, parse_name N hb hxb]
    rfl

/-- C4: chains of same-level operators group to the right.  For all simple
variable names `a`, `b`, `c` (non-empty, letters only, none equal to `pi` or
`e`; stream extraction reads none of them as a number),
`parse("a-b-c") = Sub(Variable a, Sub(Variable b, Variable c))` and
`parse("a/b/c") = Div(Variable a, Div(Variable b, Variable c))`; so the parse
of `a-b-c` evaluates to `a - (b - c)`, which in the rational model at
`a = 5, b = 3, c = 1` is 3 and not `(5 - 3) - 1 = 1`. -/
theorem parse_chain_groups_right {T : Type} (N : Numeric T) (a b c : Str)
    (ha : SimpleName a) (hb : SimpleName b) (hc : SimpleName c)
    (hxa : N.extract a = none) (hxb : N.extract b = none) (hxc : N.extract c = none) :
    parse N (a ++ "-".toList ++ b ++ "-".toList ++ c)
      = .ok (.Sub (.Variable a) (.Sub (.Variable b) (.Variable c))) ∧
    parse N (a ++ "/".toList ++ b ++ "/".toList ++ c)
      = .ok (.Div (.Variable a) (.Div (.Variable b) (.Variable c))) ∧
    (∀ (env : VarValues T) (va vb vc : T) (tree : ExprNode T),
      env a = some va → env b = some vb → env c = some vc →
      parse N (a ++ "-".toList ++ b ++ "-".toList ++ c) = .ok tree →
      evaluateImpl N tree env = .ok (N.sub va (N.sub vb vc))) ∧
    ratNumeric.sub 5 (ratNumeric.sub 3 1) ≠ ratNumeric.sub (ratNumeric.sub 5 3) 1 := by
  have hsub : parse N (a ++ "-".toList ++ b ++ "-".toList ++ c)
      = .ok (.Sub (.Variable a) (.Sub (.Variable b) (.Variable c))) := by
    have hstr : a ++ "-".toList ++ b ++ "-".toList ++ c = a ++ '-' :: (b ++ '-' :: c) := by
      simp
    have hr : ∀ x ∈ b ++ '-' :: c, ¬ isWs x := by
      intro x hx
      simp only [List.mem_append, List.mem_cons] at hx
      rcases hx with h | h | h
      · exact (hb.plain x h).1
      · subst h; decide
      · exact (hc.plain x h).1
    rw [hstr, parse_plain_additive N ha.1 ha.plain (Or.inr rfl) (last_not_ws_of_forall hr),
      parse_name N ha hxa, (parse_two_names N hb hc hxb hxc).1]
    rfl
  have hdiv : parse N (a ++ "/".toList ++ b ++ "/".toList ++ c)
      = .ok (.Div (.Variable a) (.Div (.Variable b) (.Variable c))) := by
    have hstr : a ++ "/".toList ++ b ++ "/".toList ++ c = a ++ '/' :: (b ++ '/' :: c) := by
      simp
    have hr : ∀ x ∈ b ++ '/' :: c, ¬ isWs x := by
      intro x hx
      simp only [List.mem_append, List.mem_cons] at hx
      rcases hx with h | h | h
      · exact (hb.plain x h).1
      · subst h; decide
      · exact (hc.plain x h).1
    have hplus : '+' ∉ b ++ '/' :: c := by
      intro hx
      simp only [List.mem_append, List.mem_cons] at hx
      rcases hx with h | h | h
      · exact (hb.plain _ h).2.2.2.1 rfl
      · cases h
      · exact (hc.plain _ h).2.2.2.1 rfl
    have hminus : '-' ∉ b ++ '/' :: c := by
      intro hx
      simp only [List.mem_append, List.mem_cons] at hx
      rcases hx with h | h | h
      · exact (hb.plain _ h).2.2.2.2.1 rfl
      · cases h
      · exact (hc.plain _ h).2.2.2.2.1 rfl
    rw [hstr, parse_plain_multiplicative N ha.plain (Or.inr rfl) (last_not_ws_of_forall hr)
        hplus hminus,
      parse_name N ha hxa, (parse_two_names N hb hc hxb hxc).2]
    rfl
  refine ⟨hsub, hdiv, ?_, ?_⟩
  · intro env va vb vc tree h1 h2 h3 htree
    rw [hsub] at htree
    simp only [Except.ok.injEq] at htree
    subst htree
    simp only [evaluateImpl, h1, h2, h3]
    rfl
  · norm_num [ratNumeric]

/-- Right grouping at the names `a`, `b`, `c`, in the rational model:
`parse("a-b-c") = Sub(a, Sub(b, c))`, `parse("a/b/c") = Div(a, Div(b, c))`. -/
theorem parse_chain_groups_right_witness :
    parse ratNumeric "a-b-c".toList
      = .ok (.Sub (.Variable "a".toList) (.Sub (.Variable "b".toList) (.Variable "c".toList))) ∧
    parse ratNumeric "a/b/c".toList
      = .ok (.Div (.Variable "a".toList) (.Div (.Variable "b".toList) (.Variable "c".toList))) :=
  have h := parse_chain_groups_right ratNumeric "a".toList "b".toList "c".toList
    (by decide) (by decide) (by decide) rfl rfl rfl
  ⟨h.1, h.2.1⟩

theorem TopLevelOp.lt_length {ops : List Char} {t : Str} {j : Nat} (h : TopLevelOp ops t j) :
    j < t.length := by
  obtain ⟨⟨c, _, hc⟩, _⟩ := h
  exact lt_length_of_getElem? hc

theorem findSplit_additive_none {t : Str}
    (h : ∀ j, j < t.length → 0 < j → ¬ TopLevelOp ['+', '-'] t j) :
    findSplit isAdditive t 0 0 = none := by
  apply findSplit_none
  intro k d hhit
  obtain ⟨h1, h2, h3, h4⟩ := (hit_additive_iff t k d).1 hhit
  refine h k (lt_length_of_getElem? h1) h3 ⟨⟨d, ?_, h1⟩, h4⟩
  rcases h2 with rfl | rfl <;> simp

theorem findSplit_multiplicative_none {t : Str}
    (h : ∀ j, j < t.length → ¬ TopLevelOp ['*', '/'] t j) :
    findSplit isMultiplicative t 0 0 = none := by
  apply findSplit_none
  intro k d hhit
  obtain ⟨h1, h2, h4⟩ := (hit_multiplicative_iff t k d).1 hhit
  refine h k (lt_length_of_getElem? h1) ⟨⟨d, ?_, h1⟩, h4⟩
  rcases h2 with rfl | rfl <;> simp

theorem findSplit_multiplicative_first {t : Str} {i : Nat} {c : Char}
    (hc : t[i]? = some c) (hop : c = '*' ∨ c = '/') (hd : depth (t.take i) = 0)
    (hmin : ∀ j, j < i → ¬ TopLevelOp ['*', '/'] t j) :
    findSplit isMultiplicative t 0 0 = some (i, c) := by
  have := @findSplit_of_hit isMultiplicative t 0 0 i c
    ((hit_multiplicative_iff t i c).2 ⟨hc, hop, hd⟩) ?_
  · rw [this, zero_add]
  · intro j d hj hhit
    obtain ⟨h1, h2, h4⟩ := (hit_multiplicative_iff t j d).1 hhit
    refine hmin j hj ⟨⟨d, ?_, h1⟩, h4⟩
    rcases h2 with rfl | rfl <;> simp

theorem findSplit_power_first {t : Str} {i : Nat}
    (hc : t[i]? = some '^') (hd : depth (t.take i) = 0)
    (hmin : ∀ j, j < i → ¬ TopLevelOp ['^'] t j) :
    findSplit isPower t 0 0 = some (i, '^') := by
  have := @findSplit_of_hit isPower t 0 0 i '^'
    ((hit_power_iff t i '^').2 ⟨hc, rfl, hd⟩) ?_
  · rw [this, zero_add]
  · intro j d hj hhit
    obtain ⟨h1, h2, h4⟩ := (hit_power_iff t j d).1 hhit
    refine hmin j hj ⟨⟨d, ?_, h1⟩, h4⟩
    subst h2; simp

theorem findSplit_additive_exists {t : Str} (h : ∃ j, 0 < j ∧ TopLevelOp ['+', '-'] t j) :
    ∃ i c, (c = '+' ∨ c = '-') ∧ findSplit isAdditive t 0 0 = some (i, c) := by
  obtain ⟨j, hj, ⟨c, hc, hget⟩, hd⟩ := h
  have hop : c = '+' ∨ c = '-' := by simpa using hc
  cases hf : findSplit isAdditive t 0 0 with
  | none =>
    exact absurd ((hit_additive_iff t j c).2 ⟨hget, hop, hj, hd⟩) (findSplit_none_hit hf j c)
  | some p =>
    obtain ⟨i, c'⟩ := p
    obtain ⟨k, _, hhit, _⟩ := findSplit_some hf
    exact ⟨i, c', ((hit_additive_iff t k c').1 hhit).2.1, rfl⟩

theorem findSplit_depth {t : Str} {i : Nat} {c : Char}
    (h : findSplit isAdditive t 0 0 = some (i, c) ∨
      findSplit isMultiplicative t 0 0 = some (i, c) ∨ findSplit isPower t 0 0 = some (i, c)) :
    depth (t.take i) = 0 := by
  rcases h with h | h | h
  · obtain ⟨k, hk, hhit, _⟩ := findSplit_some h
    rw [zero_add] at hk; subst hk
    exact ((hit_additive_iff t _ c).1 hhit).2.2.2
  · obtain ⟨k, hk, hhit, _⟩ := findSplit_some h
    rw [zero_add] at hk; subst hk
    exact ((hit_multiplicative_iff t _ c).1 hhit).2.2
  · obtain ⟨k, hk, hhit, _⟩ := findSplit_some h
    rw [zero_add] at hk; subst hk
    exact ((hit_power_iff t _ c).1 hhit).2.2

/-- C5: operator precedence by pass order.  Let `t` be a trimmed text that
does not start with `-`.  (1) If `t` has a `+` or `-` at depth 0 at an index
above 0, `parse t` splits at the first of them and every tree it returns has
an Add or Sub root.  (2) Otherwise, if `t` has a `*` or `/` at depth 0,
`parse t` is the Mul or Div of the parses of the two sides of the first of
them.  (3) Otherwise, if `t` has a `^` at depth 0, `parse t` is the Pow of the
parses of the two sides of the first `^`.  (4) An index chosen by any of the
three scanning loops is at depth 0: operators inside parentheses are never
split points.  (That `t` is not wrapped in parentheses and is not `pi` or `e`
follows from the existence of the operator.) -/
theorem parse_precedence {T : Type} (N : Numeric T) (t : Str) (htrim : trim t = t)
    (hminus : t.head? ≠ some '-') :
    ((∃ j, 0 < j ∧ TopLevelOp ['+', '-'] t j) →
      (∃ i c, (c = '+' ∨ c = '-') ∧ TopLevelOp ['+', '-'] t i ∧ t[i]? = some c ∧
        (∀ j, j < i → 0 < j → ¬ TopLevelOp ['+', '-'] t j) ∧
        parse N t = applyBinary (if c = '+' then .Add else .Sub)
          (parse N (t.take i)) (parse N (t.drop (i + 1)))) ∧
      ∀ tree, parse N t = .ok tree → ∃ l r, tree = .Add l r ∨ tree = .Sub l r) ∧
    ((∀ j, j < t.length → 0 < j → ¬ TopLevelOp ['+', '-'] t j) →
      ∀ i c, t[i]? = some c → (c = '*' ∨ c = '/') → depth (t.take i) = 0 →
        (∀ j, j < i → ¬ TopLevelOp ['*', '/'] t j) →
        parse N t = applyBinary (if c = '*' then .Mul else .Div)
          (parse N (t.take i)) (parse N (t.drop (i + 1)))) ∧
    ((∀ j, j < t.length → 0 < j → ¬ TopLevelOp ['+', '-'] t j) →
      (∀ j, j < t.length → ¬ TopLevelOp ['*', '/'] t j) →
      ∀ i, t[i]? = some '^' → depth (t.take i) = 0 →
        (∀ j, j < i → ¬ TopLevelOp ['^'] t j) →
        parse N t = applyBinary .Pow (parse N (t.take i)) (parse N (t.drop (i + 1)))) ∧
    (∀ i c, (findSplit isAdditive t 0 0 = some (i, c) ∨
        findSplit isMultiplicative t 0 0 = some (i, c) ∨
        findSplit isPower t 0 0 = some (i, c)) → depth (t.take i) = 0) := by
  have hminus' : (trim t).head? ≠ some '-' := by rw [htrim]; exact hminus
  refine ⟨?_, ?_, ?_, fun i c h => findSplit_depth h⟩
  · intro hex
    obtain ⟨i, c, hop, hf⟩ := findSplit_additive_exists hex
    have hp := parse_additive N hminus' (by rw [htrim]; exact hf)
    rw [htrim] at hp
    obtain ⟨k, hk, hhit, hfirst⟩ := findSplit_some hf
    rw [zero_add] at hk; subst hk
    obtain ⟨h1, h2, h3, h4⟩ := (hit_additive_iff t _ c).1 hhit
    refine ⟨⟨_, c, hop, ⟨⟨c, by rcases hop with rfl | rfl <;> simp, h1⟩, h4⟩, h1, ?_, hp⟩, ?_⟩
    · rintro j hj hj0 ⟨⟨d, hd, hget⟩, hdep⟩
      exact hfirst j d hj ((hit_additive_iff t j d).2 ⟨hget, by simpa using hd, hj0, hdep⟩)
    · intro tree htree
      rw [hp] at htree
      obtain ⟨l, r, _, _, hmk⟩ := applyBinary_eq_ok _ htree
      refine ⟨l, r, ?_⟩
      rcases hop with rfl | rfl
      · left; simpa using hmk
      · right; simpa using hmk
  · intro hno i c hc hop hd hfirst
    have hp := parse_multiplicative N hminus'
      (by rw [htrim]; exact findSplit_additive_none hno)
      (by rw [htrim]; exact findSplit_multiplicative_first hc hop hd hfirst)
    rw [htrim] at hp
    exact hp
  · intro hno hnom i hc hd hfirst
    have hp := parse_power N hminus'
      (by rw [htrim]; exact findSplit_additive_none hno)
      (by rw [htrim]; exact findSplit_multiplicative_none hnom)
      (by rw [htrim]; exact findSplit_power_first hc hd hfirst)
    rw [htrim] at hp
    exact hp

/-- Precedence in the rational model: `a*b^c` has no top-level `+`/`-`, its
first top-level `*` is at index 1, and the parses of `a+b*c`, `a*b^c`,
`(a+b)*c` and `2*x` are `Add(a, Mul(b,c))`, `Mul(a, Pow(b,c))`,
`Mul(Add(a,b), c)` and `Mul(Constant 2, Variable x)`. -/
theorem parse_precedence_witness :
    parse ratNumeric "a*b^c".toList
      = .ok (.Mul (.Variable "a".toList) (.Pow (.Variable "b".toList) (.Variable "c".toList))) ∧
    parse ratNumeric "a+b*c".toList
      = .ok (.Add (.Variable "a".toList) (.Mul (.Variable "b".toList) (.Variable "c".toList))) ∧
    parse ratNumeric "(a+b)*c".toList
      = .ok (.Mul (.Add (.Variable "a".toList) (.Variable "b".toList)) (.Variable "c".toList)) ∧
    parse ratNumeric "2*x".toList
      = .ok (.Mul (.Constant 2) (.Variable "x".toList)) :=
  ⟨((parse_precedence ratNumeric "a*b^c".toList rfl (by decide)).2.1 (by decide) 1 '*'
      (by decide) (by decide) (by decide) (by decide)).trans rfl,
    rfl, rfl, rfl⟩

theorem parse_of_trim_nil {T : Type} (N : Numeric T) {s : Str} (h : trim s = []) :
    parse N s = .error .emptyExpression := by
  rw [parse_eq, h]
  rfl

theorem parse_nil {T : Type} (N : Numeric T) : parse N [] = .error .emptyExpression :=
  parse_of_trim_nil N rfl

theorem parse_zero {T : Type} (N : Numeric T) :
    parse N "0".toList = .ok (parseAtom N "0".toList) :=
  parse_plain N (by decide) (by decide) (by decide) (by decide)

/-- The unary minus step of `parse`. -/
theorem parse_minus {T : Type} (N : Numeric T) {s r : Str} (hs : trim s = '-' :: r)
    (hr : r ≠ []) :
    parse N s = applyBinary .Sub (parse N "0".toList) (parse N r) := by
  have hw : isWrappedInParens ('-' :: r) = false := not_wrapped_of_head (by simp)
  have hpi : '-' :: r ≠ "pi".toList := by
    intro h; injection h with h1 _; exact absurd h1 (by decide)
  have he : '-' :: r ≠ "e".toList := by
    intro h; injection h with h1 _; exact absurd h1 (by decide)
  have hlen : ¬ (('-' :: r).length = 1) := by
    intro h
    apply hr
    simpa using h
  rw [parse_eq, hs]
  unfold parseStep
  rw [hw]
  simp only [List.isEmpty_cons, Bool.false_eq_true, if_false, if_neg hpi, if_neg he,
    List.head?_cons, if_true, if_neg hlen, List.drop_succ_cons, List.drop_zero]

theorem applyBinary_left_ok {T : Type} (mk : ExprNode T → ExprNode T → ExprNode T)
    (l : ExprNode T) (b : Except RuntimeError (ExprNode T)) :
    applyBinary mk (.ok l) b = applyUnary (mk l) b := by
  cases b <;> rfl

/-- C6: unary minus rewrite.  For every string `s` whose trimmed form is `-`
followed by a non-empty rest `r`, `parse s` is `parse("0") - parse(r)`: it
fails exactly when `parse r` fails, and when stream extraction reads `0` as
the number `(T)0` it is `Sub(Constant 0, tree)` for the tree of `parse r`.  The
whole remainder is negated: `parse("-x+y") = Sub(Constant 0, Add(Variable x,
Variable y))` when `x` and `y` are not read as numbers, and
`parse("-2") = Sub(Constant 0, Constant 2)` when `2` is read as `(T)2`. -/
theorem parse_unary_minus {T : Type} (N : Numeric T) (s r : Str)
    (hs : trim s = '-' :: r) (hr : r ≠ []) :
    parse N s = applyBinary .Sub (parse N "0".toList) (parse N r) ∧
    ((∃ err, parse N s = .error err) ↔ (∃ err, parse N r = .error err)) ∧
    (N.extract "0".toList = some (N.ofInt 0) →
      (∀ tree, parse N r = .ok tree → parse N s = .ok (.Sub (.Constant (N.ofInt 0)) tree)) ∧
      (N.extract "x".toList = none → N.extract "y".toList = none →
        parse N "-x+y".toList
          = .ok (.Sub (.Constant (N.ofInt 0))
              (.Add (.Variable "x".toList) (.Variable "y".toList)))) ∧
      (N.extract "2".toList = some (N.ofInt 2) →
        parse N "-2".toList = .ok (.Sub (.Constant (N.ofInt 0)) (.Constant (N.ofInt 2))))) := by
  have h := parse_minus N hs hr
  refine ⟨h, ?_, ?_⟩
  · rw [h, parse_zero, applyBinary_left_ok]
    cases parse N r with
    | error e => exact ⟨fun _ => ⟨e, rfl⟩, fun _ => ⟨e, rfl⟩⟩
    | ok u =>
      constructor
      · rintro ⟨e, he⟩; cases he
      · rintro ⟨e, he⟩; cases he
  · intro h0
    refine ⟨?_, ?_, ?_⟩
    · intro tree htree
      rw [h, parse_zero, parseAtom_some N h0, htree]
      rfl
    · intro hx hy
      rw [parse_minus N (s := "-x+y".toList) (r := "x+y".toList) rfl (by decide), parse_zero, parseAtom_some N h0]
      have hxy : parse N "x+y".toList
          = .ok (.Add (.Variable "x".toList) (.Variable "y".toList)) := by
        have := parse_plain_additive N (l := "x".toList) (r := "y".toList) (c := '+')
          (by decide) (by decide) (Or.inl rfl) (by decide)
        rw [parse_name N (by decide) hx, parse_name N (by decide) hy] at this
        exact this
      rw [hxy]
      rfl
    · intro h2
      rw [parse_minus N (s := "-2".toList) (r := "2".toList) rfl (by decide), parse_zero, parseAtom_some N h0,
        parse_plain N (a := "2".toList) (by decide) (by decide) (by decide) (by decide),
        parseAtom_some N h2]
      rfl

/-- The unary minus rewrite in the rational model:
`parse(" -x+y") = Sub(Constant 0, Add(Variable x, Variable y))` and
`parse("-2") = Sub(Constant 0, Constant 2)`. -/
theorem parse_unary_minus_witness :
    parse ratNumeric " -x+y".toList
      = .ok (.Sub (.Constant 0) (.Add (.Variable "x".toList) (.Variable "y".toList))) ∧
    parse ratNumeric "-2".toList = .ok (.Sub (.Constant 0) (.Constant 2)) :=
  have h := (parse_unary_minus ratNumeric " -x+y".toList "x+y".toList rfl (by decide)).2.2 rfl
  ⟨h.1 _ rfl, h.2.2 rfl⟩

theorem isWrappedInParens_of_balanced {s : Str} (hb : Balanced s) :
    isWrappedInParens ('(' :: (s ++ [')'])) = true := by
  unfold isWrappedInParens
  have hlen : ¬ (('(' :: (s ++ [')'])).length < 2) := by simp
  have hends : ¬ (('(' :: (s ++ [')'])).head? ≠ some '(' ∨
      ('(' :: (s ++ [')'])).getLast? ≠ some ')') := by
    have : ('(' :: (s ++ [')'])).getLast? = some ')' := by
      have : '(' :: (s ++ [')']) = ('(' :: s) ++ [')'] := by simp
      rw [this, List.getLast?_append]
      rfl
    simp [this]
  rw [if_neg hlen, if_neg hends]
  have htake : List.take (('(' :: (s ++ [')'])).length - 1) ('(' :: (s ++ [')'])) = '(' :: s := by
    have : '(' :: (s ++ [')']) = ('(' :: s) ++ [')'] := by simp
    rw [this]
    simp
  rw [htake, wrappedLoop_true_iff]
  intro k hk
  rw [List.take_succ_cons, depth_cons]
  have h1 : depth ['('] = 1 := rfl
  have h2 := hb.1 k (by simp at hk; omega)
  omega

theorem substr_wrapped (s : Str) :
    substr ('(' :: (s ++ [')'])) 1 (('(' :: (s ++ [')'])).length - 2) = s := by
  simp [substr]

/-- The step of `parse` that strips a wrapping pair of parentheses. -/
theorem parse_wrapped {T : Type} (N : Numeric T) {s t : Str} (ht : trim s = t)
    (hw : isWrappedInParens t = true) :
    parse N s = parse N (substr t 1 (t.length - 2)) := by
  have hne : ¬ (t.isEmpty = true) := by
    intro h
    have : t = [] := by simpa using h
    subst this
    simp [isWrappedInParens] at hw
  rw [parse_eq, ht]
  unfold parseStep
  rw [if_neg hne, if_pos hw]

/-- C7: stripping wrapping parentheses.  For every string `s` with balanced
parentheses (no prefix has more `)` than `(`, and the totals are equal),
`parse("(" ++ s ++ ")")` gives the same result as `parse(s)` (the same tree
or the same failure), also when the text is surrounded by whitespace.  In
particular `parse("(x+1)") = parse("x+1")`. -/
theorem parse_strip_parens {T : Type} (N : Numeric T) (s : Str) (hb : Balanced s) :
    parse N ("(".toList ++ s ++ ")".toList) = parse N s ∧
    (∀ w1 w2 : Str, (∀ c ∈ w1, isWs c) → (∀ c ∈ w2, isWs c) →
      parse N (w1 ++ ("(".toList ++ s ++ ")".toList) ++ w2) = parse N s) ∧
    parse N "(x+1)".toList = parse N "x+1".toList := by
  have hform : "(".toList ++ s ++ ")".toList = '(' :: (s ++ [')']) := by simp
  have hpad : ∀ w1 w2 : Str, (∀ c ∈ w1, isWs c) → (∀ c ∈ w2, isWs c) →
      parse N (w1 ++ ("(".toList ++ s ++ ")".toList) ++ w2) = parse N s := by
    intro w1 w2 hw1 hw2
    rw [hform]
    have htrim : trim (w1 ++ '(' :: (s ++ [')']) ++ w2) = '(' :: (s ++ [')']) := by
      apply trim_pad hw1 hw2 (by simp)
      · intro c hc
        simp at hc
        subst hc; decide
      · intro c hc
        have : '(' :: (s ++ [')']) = ('(' :: s) ++ [')'] := by simp
        rw [this, List.getLast?_append] at hc
        simp [Option.or] at hc
        subst hc; decide
    rw [parse_wrapped N htrim (isWrappedInParens_of_balanced hb), substr_wrapped]
  refine ⟨?_, hpad, ?_⟩
  · have := hpad [] [] (by simp) (by simp)
    simpa using this
  · have htrim : trim "(x+1)".toList = "(x+1)".toList := rfl
    rw [parse_wrapped N htrim (by decide)]
    rfl

/-- Stripping at the balanced text `x+1`, in the rational model:
`parse(" (x+1) ") = parse("x+1") = Add(Variable x, Constant 1)`. -/
theorem parse_strip_parens_witness :
    parse ratNumeric " (x+1) ".toList = parse ratNumeric "x+1".toList ∧
    parse ratNumeric "x+1".toList = .ok (.Add (.Variable "x".toList) (.Constant 1)) :=
  ⟨(parse_strip_parens ratNumeric "x+1".toList (by decide)).2.1 " ".toList " ".toList
      (by decide) (by decide), rfl⟩

/-- C9 (amended): `parse` rejects empty and bare-minus input.  For every string
made only of whitespace (space, tab, newline, carriage return), the empty
string included, `parse` fails (empty expression); for every string whose
trimmed form is exactly `-`, `parse` fails (just a minus).  Consequently `()`
fails, and so does every text that `parse` splits at a binary operator whose
right part is empty or whitespace: `x+`, `x*`, `x^`; `u+`, `u-`, `u*`, `u/`,
`u^` for every non-empty text `u` of plain characters; and in general, for
`t` the trimmed form of `s`, not starting with `-`,
* when the first `+` or `-` of `t` at depth 0 and index `> 0` has nothing but
  whitespace after it;
* when `t` has no such `+` or `-` and its first `*` or `/` at depth 0 has
  nothing but whitespace after it;
* when `t` has neither and its first `^` at depth 0 has nothing but whitespace
  after it. -/
theorem parse_rejects_empty {T : Type} (N : Numeric T) :
    (∀ s : Str, (∀ c ∈ s, isWs c) → parse N s = .error .emptyExpression) ∧
    (∀ s : Str, trim s = "-".toList → parse N s = .error .justMinus) ∧
    parse N "()".toList = .error .emptyExpression ∧
    (∃ err, parse N "x+".toList = .error err) ∧
    (∃ err, parse N "x*".toList = .error err) ∧
    (∃ err, parse N "x^".toList = .error err) ∧
    (∀ (u : Str) (op : Char), u ≠ [] → (∀ ch ∈ u, plainChar ch) →
      op ∈ ['+', '-', '*', '/', '^'] → ∃ err, parse N (u ++ [op]) = .error err) ∧
    (∀ (s : Str) (i : Nat) (c : Char), (trim s).head? ≠ some '-' →
      0 < i → (trim s)[i]? = some c → (c = '+' ∨ c = '-') →
      depth ((trim s).take i) = 0 →
      (∀ j, j < i → 0 < j → ¬ TopLevelOp ['+', '-'] (trim s) j) →
      (∀ ch ∈ (trim s).drop (i + 1), isWs ch) →
      ∃ err, parse N s = .error err) ∧
    (∀ (s : Str) (i : Nat) (c : Char), (trim s).head? ≠ some '-' →
      (∀ j, j < (trim s).length → 0 < j → ¬ TopLevelOp ['+', '-'] (trim s) j) →
      (trim s)[i]? = some c → (c = '*' ∨ c = '/') →
      depth ((trim s).take i) = 0 →
      (∀ j, j < i → ¬ TopLevelOp ['*', '/'] (trim s) j) →
      (∀ ch ∈ (trim s).drop (i + 1), isWs ch) →
      ∃ err, parse N s = .error err) ∧
    (∀ (s : Str) (i : Nat), (trim s).head? ≠ some '-' →
      (∀ j, j < (trim s).length → 0 < j → ¬ TopLevelOp ['+', '-'] (trim s) j) →
      (∀ j, j < (trim s).length → ¬ TopLevelOp ['*', '/'] (trim s) j) →
      (trim s)[i]? = some '^' →
      depth ((trim s).take i) = 0 →
      (∀ j, j < i → ¬ TopLevelOp ['^'] (trim s) j) →
      (∀ ch ∈ (trim s).drop (i + 1), isWs ch) →
      ∃ err, parse N s = .error err) := by
  have hgen : ∀ (u : Str) (op : Char), u ≠ [] → (∀ ch ∈ u, plainChar ch) →
      op ∈ ['+', '-', '*', '/', '^'] → ∃ err, parse N (u ++ [op]) = .error err := by
    intro u op hu hplain hop
    have hnil : ∃ err, parse N ([] : Str) = .error err := ⟨_, parse_nil N⟩
    simp only [List.mem_cons, List.mem_singleton, List.not_mem_nil, or_false] at hop
    rcases hop with rfl | rfl | rfl | rfl | rfl
    · rw [parse_plain_additive N hu hplain (Or.inl rfl) (by simp)]
      exact applyBinary_error _ (Or.inr hnil)
    · rw [parse_plain_additive N hu hplain (Or.inr rfl) (by simp)]
      exact applyBinary_error _ (Or.inr hnil)
    · rw [parse_plain_multiplicative N hplain (Or.inl rfl) (by simp) (by simp) (by simp)]
      exact applyBinary_error _ (Or.inr hnil)
    · rw [parse_plain_multiplicative N hplain (Or.inr rfl) (by simp) (by simp) (by simp)]
      exact applyBinary_error _ (Or.inr hnil)
    · rw [parse_plain_power N hplain (by simp) (by simp) (by simp) (by simp) (by simp)]
      exact applyBinary_error _ (Or.inr hnil)
  have hright : ∀ r : Str, (∀ ch ∈ r, isWs ch) → ∃ err, parse N r = .error err :=
    fun r hr => ⟨_, parse_of_trim_nil N (trim_all_ws hr)⟩
  refine ⟨fun s hs => parse_of_trim_nil N (trim_all_ws hs), ?_, ?_,
    hgen "x".toList '+' (by decide) (by decide) (by decide),
    hgen "x".toList '*' (by decide) (by decide) (by decide),
    hgen "x".toList '^' (by decide) (by decide) (by decide), hgen, ?_, ?_, ?_⟩
  · intro s hs
    rw [parse_eq, hs]
    rfl
  · rw [parse_wrapped N (s := "()".toList) (t := "()".toList) rfl (by decide)]
    exact parse_nil N
  · intro s i c hminus hi hc hop hd hmin hws
    rw [parse_additive N hminus (findSplit_additive_first hc hop hi hd hmin)]
    exact applyBinary_error _ (Or.inr (hright _ hws))
  · intro s i c hminus hadd hc hop hd hmin hws
    rw [parse_multiplicative N hminus (findSplit_additive_none hadd)
      (findSplit_multiplicative_first hc hop hd hmin)]
    exact applyBinary_error _ (Or.inr (hright _ hws))
  · intro s i hminus hadd hmul hc hd hmin hws
    rw [parse_power N hminus (findSplit_additive_none hadd)
      (findSplit_multiplicative_none hmul) (findSplit_power_first hc hd hmin)]
    exact applyBinary_error _ (Or.inr (hright _ hws))

/-- Rejection in the rational model: the whitespace text of a space and a tab,
the text `" - "`, and the texts `ab/`, `sin(x)+`, `2*3+`, `" a + "`, `(a+b)*`
and `(a*b)^` all fail to parse. -/
theorem parse_rejects_empty_witness :
    parse ratNumeric " \t".toList = .error .emptyExpression ∧
    parse ratNumeric " - ".toList = .error .justMinus ∧
    (∃ err, parse ratNumeric "ab/".toList = .error err) ∧
    (∃ err, parse ratNumeric "sin(x)+".toList = .error err) ∧
    (∃ err, parse ratNumeric "2*3+".toList = .error err) ∧
    (∃ err, parse ratNumeric " a + ".toList = .error err) ∧
    (∃ err, parse ratNumeric "(a+b)*".toList = .error err) ∧
    (∃ err, parse ratNumeric "(a*b)^".toList = .error err) :=
  have h := parse_rejects_empty ratNumeric
  ⟨h.1 " \t".toList (by decide), h.2.1 " - ".toList rfl,
    h.2.2.2.2.2.2.1 "ab".toList '/' (by decide) (by decide) (by decide),
    h.2.2.2.2.2.2.2.1 "sin(x)+".toList 6 '+' (by decide) (by decide) (by decide)
      (by decide) (by decide) (by decide) (by decide),
    h.2.2.2.2.2.2.2.1 "2*3+".toList 3 '+' (by decide) (by decide) (by decide)
      (by decide) (by decide) (by decide) (by decide),
    h.2.2.2.2.2.2.2.1 " a + ".toList 2 '+' (by decide) (by decide) (by decide)
      (by decide) (by decide) (by decide) (by decide),
    h.2.2.2.2.2.2.2.2.1 "(a+b)*".toList 5 '*' (by decide) (by decide) (by decide)
      (by decide) (by decide) (by decide) (by decide),
    h.2.2.2.2.2.2.2.2.2 "(a*b)^".toList 5 (by decide) (by decide) (by decide)
      (by decide) (by decide) (by decide) (by decide)⟩

/-- C9 (counterexample): a text that ends in a binary operator with nothing to
its right is accepted when `parse` does not split at that operator.  In `(x+`
the `+` is inside an unclosed parenthesis, and the whole text becomes a
Variable; in `-+` the `+` is at index 0 of the operand of the leading minus,
and in `a-+` at index 0 of the right part of the split at `-`, so it becomes
the Variable `+`. -/
theorem parse_trailing_operator_accepted :
    parse ratNumeric "(x+".toList = .ok (.Variable "(x+".toList) ∧
    parse ratNumeric "-+".toList = .ok (.Sub (.Constant 0) (.Variable "+".toList)) ∧
    parse ratNumeric "a-+".toList =
      .ok (.Sub (.Variable "a".toList) (.Variable "+".toList)) :=
  ⟨rfl, rfl, rfl⟩

/-- The signs that the scanning loops of `parse` look for. -/
theorem isOp_mem {c : Char} {i : Nat}
    (h : isAdditive c i = true ∨ isMultiplicative c i = true ∨ isPower c i = true) :
    c ∈ ['+', '-', '*', '/', '^'] := by
  simp only [isAdditive, isMultiplicative, isPower, Bool.and_eq_true, Bool.or_eq_true,
    decide_eq_true_eq] at h
  simp only [List.mem_cons, List.mem_singleton, List.not_mem_nil, or_false]
  tauto

theorem findSplit_none_of_open {isOp : Char → Nat → Bool} {pre rest : Str}
    (hpre : ∀ c ∈ pre, ∀ i, isOp c i = false)
    (hd : ∀ k, k ≤ rest.length → depth pre + depth (rest.take k) ≠ 0) :
    findSplit isOp (pre ++ rest) 0 0 = none := by
  apply findSplit_none
  rintro k d ⟨h1, h2, h3⟩
  by_cases hk : k < pre.length
  · rw [List.getElem?_append_left hk] at h1
    rw [hpre d (mem_of_getElem? h1)] at h3
    cases h3
  · have hlt := lt_length_of_getElem? h1
    rw [List.length_append] at hlt
    have htake : List.take (k + 1) (pre ++ rest) = pre ++ List.take (k + 1 - pre.length) rest := by
      rw [List.take_append_eq_append_take, List.take_of_length_le (by omega)]
    rw [htake, depth_append, zero_add] at h2
    exact hd _ (by omega) h2

theorem insideLoop_open (rest : Str) (i : Nat) (pc : Int)
    (h : ∀ k, k ≤ rest.length → pc + depth (rest.take k) ≠ 0) :
    (insideLoop rest i pc).2 ≠ 0 := by
  induction rest generalizing i pc with
  | nil =>
    have := h 0 (Nat.le_refl _)
    simpa [insideLoop, depth_nil] using this
  | cons c rest ih =>
    simp only [insideLoop]
    have h1 : parenStep pc c ≠ 0 := by
      have := h 1 (by simp)
      rw [parenStep_eq]
      simpa using this
    rw [if_neg h1]
    apply ih
    intro k hk
    have := h (k + 1) (by simpa using hk)
    rw [List.take_succ_cons, depth_cons] at this
    rw [parenStep_eq]
    intro h0; apply this; rw [← h0]; ring

theorem find_prefix (pre rest : Str) (hne : pre ++ rest ≠ []) : find (pre ++ rest) pre = some 0 := by
  unfold find
  cases h : pre ++ rest with
  | nil => exact absurd h hne
  | cons c tl =>
    simp only [findFrom]
    rw [← h, if_pos (by simp)]

/-- The call branch on a text `name(rest` whose opening parenthesis is never
closed. -/
theorem parseCall_open {T : Type} (f : Str → Except RuntimeError (ExprNode T))
    (mk : ExprNode T → ExprNode T) (name rest : Str)
    (hopen : ∀ k, k ≤ rest.length → 1 + depth (rest.take k) ≠ 0) :
    parseCall f mk (name ++ '(' :: rest) name = .error (.unmatchedParens (name ++ '(' :: rest)) := by
  have hfind : find (name ++ '(' :: rest) (name ++ ['(']) = some 0 := by
    have : name ++ '(' :: rest = (name ++ ['(']) ++ rest := by simp
    rw [this]
    exact find_prefix _ _ (by simp)
  have hdrop : List.drop (0 + name.length + 1) (name ++ '(' :: rest) = rest := by
    rw [zero_add]
    exact (take_drop_split name rest '(').2
  have hloop := insideLoop_open rest (0 + name.length + 1) 1 hopen
  unfold parseCall getInsideFunction
  rw [hfind]
  simp only [hdrop]
  cases hl : insideLoop rest (0 + name.length + 1) 1 with
  | mk i pc =>
    rw [hl] at hloop
    simp only [ne_eq] at hloop ⊢
    rw [if_pos hloop]

theorem startsWith_self_append (pre rest : Str) : startsWith (pre ++ rest) pre = true := by
  simp [startsWith]

theorem startsWith_false_of_head {t p : Str} (hp : p ≠ []) (h : t.head? ≠ p.head?) :
    startsWith t p = false := by
  rw [← Bool.not_eq_true]
  intro hs
  unfold startsWith at hs
  simp only [Bool.and_eq_true, beq_iff_eq, decide_eq_true_eq] at hs
  apply h
  obtain ⟨a, p', rfl⟩ := List.exists_cons_of_ne_nil hp
  cases t with
  | nil => simp at hs
  | cons b t' =>
    have := hs.2
    simp only [List.length_cons, List.take_succ_cons, List.cons.injEq] at this
    simp [this.1]

/-- The scanning loops find nothing in a text `name(rest` whose opening
parenthesis is never closed, and the tests before them fail. -/
theorem parseStep_open {T : Type} (N : Numeric T) (f : Str → Except RuntimeError (ExprNode T))
    (name rest : Str) (a : Char) (hhead : name.head? = some a) (ha1 : a ≠ '(') (ha2 : a ≠ '-')
    (hops : ∀ c ∈ name, c ∉ ['+', '-', '*', '/', '^']) (hdep : depth name = 0)
    (hopen : ∀ k, k ≤ rest.length → 1 + depth (rest.take k) ≠ 0) :
    parseStep N f (name ++ '(' :: rest) =
      if startsWith (name ++ '(' :: rest) "sin(".toList then
        parseCall f .Sin (name ++ '(' :: rest) "sin".toList
      else if startsWith (name ++ '(' :: rest) "cos(".toList then
        parseCall f .Cos (name ++ '(' :: rest) "cos".toList
      else if startsWith (name ++ '(' :: rest) "ln(".toList then
        parseCall f .Ln (name ++ '(' :: rest) "ln".toList
      else if startsWith (name ++ '(' :: rest) "exp(".toList then
        parseCall f .Exp (name ++ '(' :: rest) "exp".toList
      else .ok (parseAtom N (name ++ '(' :: rest)) := by
  have hhd : (name ++ '(' :: rest).head? = some a := by
    cases name with
    | nil => simp at hhead
    | cons b n => simpa using hhead
  have hmem : '(' ∈ name ++ '(' :: rest := by simp
  obtain ⟨hpi, he⟩ := ne_pi_e_of_mem hmem (by decide) (by decide) (by decide)
  have hsplit : name ++ '(' :: rest = (name ++ ['(']) ++ rest := by simp
  have hnone : ∀ isOp : Char → Nat → Bool,
      (∀ c i, isOp c i = true → c ∈ ['+', '-', '*', '/', '^']) →
      findSplit isOp (name ++ '(' :: rest) 0 0 = none := by
    intro isOp hop
    rw [hsplit]
    apply findSplit_none_of_open
    · intro c hc i
      rw [← Bool.not_eq_true]
      intro hi
      have hcops := hop c i hi
      simp only [List.mem_append, List.mem_singleton] at hc
      rcases hc with hc | hc
      · exact hops c hc hcops
      · subst hc; revert hcops; decide
    · intro k hk
      rw [depth_append, hdep]
      have : depth ['('] = 1 := rfl
      rw [this]
      simpa using hopen k hk
  rw [parseStep_scan N f _ (List.ne_nil_of_mem hmem)
      (not_wrapped_of_head (by rw [hhd]; simpa using ha1)) hpi he
      (by rw [hhd]; simpa using ha2),
    hnone isAdditive (fun c i h => isOp_mem (Or.inl h)),
    hnone isMultiplicative (fun c i h => isOp_mem (Or.inr (Or.inl h))),
    hnone isPower (fun c i h => isOp_mem (Or.inr (Or.inr h)))]

/-- C10 (amended): unmatched parentheses are a parse error in a function
call.  For every input whose trimmed form is `sin(`, `cos(`, `ln(` or `exp(`
followed by a rest in which that opening parenthesis is never closed (the
count started at 1 never returns to 0), `parse` fails with the
unmatched-parentheses error.  Outside a function call an unbalanced text is
not rejected for its parentheses: `parse("(")` succeeds with the leaf built
from the whole text. -/
theorem parse_unmatched_call {T : Type} (N : Numeric T) (s name rest : Str)
    (hname : name = "sin".toList ∨ name = "cos".toList ∨ name = "ln".toList ∨
      name = "exp".toList)
    (hs : trim s = name ++ "(".toList ++ rest)
    (hopen : ∀ k, k ≤ rest.length → 1 + depth (rest.take k) ≠ 0) :
    parse N s = .error (.unmatchedParens (trim s)) ∧
    parse N "(".toList = .ok (parseAtom N "(".toList) := by
  constructor
  · have hform : name ++ "(".toList ++ rest = name ++ '(' :: rest := by simp
    rw [parse_eq, hs, hform]
    rcases hname with rfl | rfl | rfl | rfl
    · have h1 : startsWith ("sin".toList ++ '(' :: rest) "sin(".toList = true :=
        startsWith_self_append "sin(".toList rest
      rw [parseStep_open N _ "sin".toList rest 's' rfl (by decide) (by decide) (by decide) rfl
        hopen, if_pos h1]
      exact parseCall_open _ _ _ _ hopen
    · have h1 : startsWith ("cos".toList ++ '(' :: rest) "cos(".toList = true :=
        startsWith_self_append "cos(".toList rest
      have h2 : ¬ (startsWith ("cos".toList ++ '(' :: rest) "sin(".toList = true) := by
        rw [startsWith_false_of_head (by decide) (by simp)]; simp
      rw [parseStep_open N _ "cos".toList rest 'c' rfl (by decide) (by decide) (by decide) rfl
        hopen, if_neg h2, if_pos h1]
      exact parseCall_open _ _ _ _ hopen
    · have h1 : startsWith ("ln".toList ++ '(' :: rest) "ln(".toList = true :=
        startsWith_self_append "ln(".toList rest
      have h2 : ¬ (startsWith ("ln".toList ++ '(' :: rest) "sin(".toList = true) := by
        rw [startsWith_false_of_head (by decide) (by simp)]; simp
      have h3 : ¬ (startsWith ("ln".toList ++ '(' :: rest) "cos(".toList = true) := by
        rw [startsWith_false_of_head (by decide) (by simp)]; simp
      rw [parseStep_open N _ "ln".toList rest 'l' rfl (by decide) (by decide) (by decide) rfl
        hopen, if_neg h2, if_neg h3, if_pos h1]
      exact parseCall_open _ _ _ _ hopen
    · have h1 : startsWith ("exp".toList ++ '(' :: rest) "exp(".toList = true :=
        startsWith_self_append "exp(".toList rest
      have h2 : ¬ (startsWith ("exp".toList ++ '(' :: rest) "sin(".toList = true) := by
        rw [startsWith_false_of_head (by decide) (by simp)]; simp
      have h3 : ¬ (startsWith ("exp".toList ++ '(' :: rest) "cos(".toList = true) := by
        rw [startsWith_false_of_head (by decide) (by simp)]; simp
      have h4 : ¬ (startsWith ("exp".toList ++ '(' :: rest) "ln(".toList = true) := by
        rw [startsWith_false_of_head (by decide) (by simp)]; simp
      rw [parseStep_open N _ "exp".toList rest 'e' rfl (by decide) (by decide) (by decide) rfl
        hopen, if_neg h2, if_neg h3, if_neg h4, if_pos h1]
      exact parseCall_open _ _ _ _ hopen
  · rw [parse_eq]
    rfl

/-- An unclosed call in the rational model: in `cos((x)` the parenthesis
opened after `cos` is never closed, and `parse` fails with the
unmatched-parentheses error. -/
theorem parse_unmatched_call_witness :
    parse ratNumeric " cos((x)".toList = .error (.unmatchedParens "cos((x)".toList) :=
  (parse_unmatched_call ratNumeric " cos((x)".toList "cos".toList "(x)".toList
    (Or.inr (Or.inl rfl)) rfl (by decide)).1

/-- C10 (counterexample): the text `(` has unbalanced parentheses, and `parse`
returns the tree `Variable "("` for it instead of failing. -/
theorem parse_unbalanced_accepted :
    ¬ Balanced "(".toList ∧
    parse ratNumeric "(".toList = .ok (.Variable "(".toList) :=
  ⟨by decide, rfl⟩

/-- C8 (the code at the failing input): for every numeric type,
`parse("sin(x)y")` is the `Sin` node over `parse("x")`, the same as
`parse("sin(x)")`; in the rational model both are `Sin(Variable x)`.  The `y`
after the closing parenthesis is dropped without an error. -/
theorem parse_call_drops_tail {T : Type} (N : Numeric T) :
    parse N "sin(x)y".toList = applyUnary .Sin (parse N "x".toList) ∧
    parse N "sin(x)".toList = applyUnary .Sin (parse N "x".toList) ∧
    parse ratNumeric "sin(x)y".toList = .ok (.Sin (.Variable "x".toList)) := by
  refine ⟨?_, ?_, rfl⟩
  · rw [parse_eq]; rfl
  · rw [parse_eq]; rfl

/-- C23: `parse` terminates on every input string.  Every recursive call of
`parse` is made on a string strictly shorter than the trimmed current string
`t` (itself no longer than the input): the interior of wrapping parentheses,
the remainder after a leading `-`, the literal `0`, the left and right parts
of an operator split, a function argument.  So the body of `parse` depends on
the recursive results for strictly shorter strings only, a recursion budget
above the length of the input is never used up, and `parse` is a total
function that returns a tree or an error of the program and satisfies its
recursion equation. -/
theorem parse_terminates {T : Type} (N : Numeric T) :
    (∀ s : Str, (trim s).length ≤ s.length) ∧
    (∀ t : Str, isWrappedInParens t = true →
      (substr t 1 (t.length - 2)).length < t.length) ∧
    (∀ t : Str, t.head? = some '-' → t.length ≠ 1 →
      (t.drop 1).length < t.length ∧ "0".toList.length < t.length) ∧
    (∀ (isOp : Char → Nat → Bool) (t : Str) (i : Nat) (c : Char),
      findSplit isOp t 0 0 = some (i, c) →
      (substr t 0 i).length < t.length ∧ (t.drop (i + 1)).length < t.length) ∧
    (∀ t funcName inside : Str, t ≠ [] → getInsideFunction t funcName = .ok inside →
      inside.length < t.length) ∧
    (∀ (f g : Str → Except RuntimeError (ExprNode T)) (t : Str),
      (∀ u : Str, u.length < t.length → f u = g u) → parseStep N f t = parseStep N g t) ∧
    (∀ (s : Str) (n : Nat), s.length < n → parseFuel N n s = parse N s) ∧
    (∀ s : Str, parse N s = parseStep N (parse N) (trim s)) ∧
    (∀ s : Str, (∃ tree, parse N s = .ok tree) ∨
      (∃ err, parse N s = .error err ∧ err ≠ .fuelExhausted)) := by
  refine ⟨length_trim_le, ?_, ?_, ?_, ?_, fun f g t h => parseStep_congr N f g t h,
    fun s n h => parseFuel_stable N n s h, parse_eq N, ?_⟩
  · intro t hw
    have hlen : 2 ≤ t.length := by
      by_contra hlt
      unfold isWrappedInParens at hw
      rw [if_pos (by omega)] at hw
      cases hw
    have := length_substr_le t 1 (t.length - 2)
    omega
  · intro t hhead hlen
    have hne : t ≠ [] := by
      intro h0; subst h0; simp at hhead
    have hpos : 0 < t.length := List.length_pos.2 hne
    constructor
    · rw [List.length_drop]; omega
    · show 1 < t.length
      omega
  · intro isOp t i c h
    have hi := findSplit_index_lt h
    constructor
    · have : (substr t 0 i).length ≤ i := by
        unfold substr; exact List.length_take_le _ _
      omega
    · rw [List.length_drop]; omega
  · intro t funcName inside hne h
    exact getInsideFunction_length h hne
  · intro s
    cases h : parse N s with
    | ok tree => exact Or.inl ⟨tree, rfl⟩
    | error err =>
      refine Or.inr ⟨err, rfl, ?_⟩
      intro he
      rw [he] at h
      exact parse_ne_fuelExhausted N s h

/-- Termination in the rational model: on `-(x*sin(y))` the interior of the
wrapped remainder and the parts of the split are shorter than the text they
are cut from, a budget of 100 calls gives the result of `parse`, and the
result is a tree. -/
theorem parse_terminates_witness :
    (substr "(x*sin(y))".toList 1 ("(x*sin(y))".toList.length - 2)).length
      < "(x*sin(y))".toList.length ∧
    (substr "x*sin(y)".toList 0 1).length < "x*sin(y)".toList.length ∧
    ("x*sin(y)".toList.drop 2).length < "x*sin(y)".toList.length ∧
    parseFuel ratNumeric 100 "-(x*sin(y))".toList = parse ratNumeric "-(x*sin(y))".toList ∧
    parse ratNumeric "-(x*sin(y))".toList
      = .ok (.Sub (.Constant 0)
          (.Mul (.Variable "x".toList) (.Sin (.Variable "y".toList)))) := by
  obtain ⟨_, hw, _, hs, _, _, hfuel, _, _⟩ := parse_terminates ratNumeric
  have h2 := hs isMultiplicative "x*sin(y)".toList 1 '*' (by decide)
  exact ⟨hw "(x*sin(y))".toList (by decide), h2.1, h2.2,
    hfuel "-(x*sin(y))".toList 100 (by decide), rfl⟩

end ParserTheorems

/-! ## The evaluator -/

section EvaluatorTheorems

theorem evaluate_bind_ok {T : Type} {a : Except RuntimeError T} {f : T → Except RuntimeError T}
    {v : T} (h : (a >>= f) = .ok v) : ∃ x, a = .ok x ∧ f x = .ok v := by
  cases a with
  | error e => cases h
  | ok x => exact ⟨x, rfl, h⟩

/-- A successful evaluation has looked up every variable of the tree. -/
theorem evaluate_ok_bound {T : Type} (N : Numeric T) (t : ExprNode T) (env : VarValues T) (v : T)
    (h : evaluateImpl N t env = .ok v) : ∀ n ∈ varNames t, ∃ w, env n = some w := by
  induction t generalizing v with
  | null => cases h
  | Constant c => intro n hn; cases hn
  | Variable m =>
    intro n hn
    simp only [varNames, List.mem_singleton] at hn
    subst hn
    simp only [evaluateImpl] at h
    cases hm : env n with
    | none => rw [hm] at h; cases h
    | some w => exact ⟨w, rfl⟩
  | Add l r ihl ihr | Sub l r ihl ihr | Mul l r ihl ihr | Pow l r ihl ihr =>
    simp only [evaluateImpl] at h
    obtain ⟨a, ha, h⟩ := evaluate_bind_ok h
    obtain ⟨b, hb, _⟩ := evaluate_bind_ok h
    intro n hn
    simp only [varNames, List.mem_append] at hn
    rcases hn with hn | hn
    · exact ihl a ha n hn
    · exact ihr b hb n hn
  | Div l r ihl ihr =>
    simp only [evaluateImpl] at h
    obtain ⟨d, hd, h⟩ := evaluate_bind_ok h
    split at h
    · cases h
    · obtain ⟨a, ha, _⟩ := evaluate_bind_ok h
      intro n hn
      simp only [varNames, List.mem_append] at hn
      rcases hn with hn | hn
      · exact ihl a ha n hn
      · exact ihr d hd n hn
  | Sin u ih | Cos u ih | Ln u ih | Exp u ih =>
    simp only [evaluateImpl] at h
    obtain ⟨a, ha, _⟩ := evaluate_bind_ok h
    intro n hn
    exact ih a ha n hn

/-- C11: unbound variables are errors, never defaults.  `evaluate(Variable n,
env)` returns `env[n]` when `n` is a key of `env` and fails (missing value for
`n`) otherwise; and whenever `evaluate(t, env)` succeeds, every Variable name
occurring anywhere in `t` is a key of `env`. -/
theorem evaluate_unbound_variable {T : Type} (N : Numeric T) (env : VarValues T) :
    (∀ n w, env n = some w → evaluateImpl N (.Variable n) env = .ok w) ∧
    (∀ n, env n = none → evaluateImpl N (.Variable n) env = .error (.missingValue n)) ∧
    (∀ (t : ExprNode T) (v : T), evaluateImpl N t env = .ok v →
      ∀ n ∈ varNames t, ∃ w, env n = some w) := by
  refine ⟨?_, ?_, fun t v h => evaluate_ok_bound N t env v h⟩
  · intro n w h
    simp only [evaluateImpl, h]
  · intro n h
    simp only [evaluateImpl, h]

/-- Lookup in the rational model: under the bindings `x = 5/2` alone,
`Variable x` evaluates to `5/2`, `Variable y` fails, and so does `x * y`. -/
theorem evaluate_unbound_variable_witness :
    evaluateImpl ratNumeric (.Variable "x".toList)
        (fun n => if n = "x".toList then some (5 / 2) else none) = .ok (5 / 2) ∧
    evaluateImpl ratNumeric (.Variable "y".toList)
        (fun n => if n = "x".toList then some (5 / 2) else none)
      = .error (.missingValue "y".toList) ∧
    evaluateImpl ratNumeric (.Mul (.Variable "x".toList) (.Variable "y".toList))
        (fun n => if n = "x".toList then some (5 / 2) else none)
      = .error (.missingValue "y".toList) :=
  have h := evaluate_unbound_variable ratNumeric
    (fun n => if n = "x".toList then some (5 / 2) else none)
  ⟨h.1 "x".toList (5 / 2) rfl, h.2.1 "y".toList rfl, rfl⟩

/-- C14: evaluation of constant arithmetic is structural.  For all numbers `a`,
`b` and any bindings, `Expression(a)` evaluates to `a`, and the sum, difference
and product of `Expression(a)` and `Expression(b)` evaluate to `a + b`,
`a - b`, `a * b`; more generally the evaluation of `Add`/`Sub`/`Mul(u, v)` is
the matching arithmetic combination of the values of `u` and `v` whenever both
evaluate. -/
theorem evaluate_arithmetic {T : Type} (N : Numeric T) (env : VarValues T) :
    (∀ a, evaluateImpl N (.Constant a) env = .ok a) ∧
    (∀ a b, evaluateImpl N (.Add (.Constant a) (.Constant b)) env = .ok (N.add a b)) ∧
    (∀ a b, evaluateImpl N (.Sub (.Constant a) (.Constant b)) env = .ok (N.sub a b)) ∧
    (∀ a b, evaluateImpl N (.Mul (.Constant a) (.Constant b)) env = .ok (N.mul a b)) ∧
    (∀ u v x y, evaluateImpl N u env = .ok x → evaluateImpl N v env = .ok y →
      evaluateImpl N (.Add u v) env = .ok (N.add x y) ∧
      evaluateImpl N (.Sub u v) env = .ok (N.sub x y) ∧
      evaluateImpl N (.Mul u v) env = .ok (N.mul x y)) := by
  refine ⟨fun _ => rfl, fun _ _ => rfl, fun _ _ => rfl, fun _ _ => rfl, ?_⟩
  intro u v x y hu hv
  simp only [evaluateImpl, hu, hv]
  exact ⟨rfl, rfl, rfl⟩

/-- Constant arithmetic in the rational model, on the numbers of the tests:
`5 + 10 = 15`, `10 - 3 = 7`, `6 * 4 = 24`. -/
theorem evaluate_arithmetic_witness :
    evaluateImpl ratNumeric (.Add (.Constant 5) (.Constant 10)) (fun _ => none) = .ok 15 ∧
    evaluateImpl ratNumeric (.Sub (.Constant 10) (.Constant 3)) (fun _ => none) = .ok 7 ∧
    evaluateImpl ratNumeric (.Mul (.Constant 6) (.Constant 4)) (fun _ => none) = .ok 24 := by
  have h := (evaluate_arithmetic ratNumeric (fun _ => none)).2.2.2.2
    (.Constant 5) (.Constant 10) 5 10 rfl rfl
  obtain ⟨_, h2, h3, h4, _⟩ := evaluate_arithmetic ratNumeric (fun _ => none)
  refine ⟨?_, ?_, ?_⟩
  · rw [h.1]; norm_num [ratNumeric]
  · rw [h3]; norm_num [ratNumeric]
  · rw [h4]; norm_num [ratNumeric]

/-- C12: division guard.  When `evaluate(l, env) = n` and `evaluate(r, env) = d`
both succeed, `evaluate(Div(l, r), env)` fails (division by zero) if and only
if `fabs(d) < 1e-15`, and otherwise equals `n / d`.  So a divisor whose
magnitude is exactly `1e-15` is accepted (`<` being irreflexive), and the parse
of `1/0`, which is `Div(Constant 1, Constant 0)`, fails to evaluate when
`fabs(0) < 1e-15`. -/
theorem evaluate_div_guard {T : Type} (N : Numeric T) (l r : ExprNode T) (env : VarValues T)
    (n d : T) (hl : evaluateImpl N l env = .ok n) (hr : evaluateImpl N r env = .ok d) :
    ((∃ err, evaluateImpl N (.Div l r) env = .error err) ↔ N.lt (N.fabs d) N.eps = true) ∧
    (N.lt (N.fabs d) N.eps = true → evaluateImpl N (.Div l r) env = .error .divisionByZero) ∧
    (N.lt (N.fabs d) N.eps = false → evaluateImpl N (.Div l r) env = .ok (N.div n d)) ∧
    (N.fabs d = N.eps → N.lt N.eps N.eps = false →
      evaluateImpl N (.Div l r) env = .ok (N.div n d)) ∧
    (∀ one zero, N.extract "1".toList = some one → N.extract "0".toList = some zero →
      N.lt (N.fabs zero) N.eps = true →
      parse N "1/0".toList = .ok (.Div (.Constant one) (.Constant zero)) ∧
      evaluateImpl N (.Div (.Constant one) (.Constant zero)) env = .error .divisionByZero) := by
  have hpos : N.lt (N.fabs d) N.eps = true →
      evaluateImpl N (.Div l r) env = .error .divisionByZero := by
    intro h
    simp only [evaluateImpl, hr, hl]
    show (if N.lt (N.fabs d) N.eps = true then _ else _) = _
    rw [if_pos h]
  have hneg : N.lt (N.fabs d) N.eps = false →
      evaluateImpl N (.Div l r) env = .ok (N.div n d) := by
    intro h
    simp only [evaluateImpl, hr, hl]
    show (if N.lt (N.fabs d) N.eps = true then _ else _) = _
    rw [if_neg (by rw [h]; simp)]
    rfl
  refine ⟨?_, hpos, hneg, ?_, ?_⟩
  · constructor
    · rintro ⟨err, herr⟩
      by_contra hlt
      rw [hneg (by simpa using hlt)] at herr
      cases herr
    · intro h
      exact ⟨_, hpos h⟩
  · intro hd hirr
    exact hneg (by rw [hd]; exact hirr)
  · intro one zero h1 h0 hlt
    constructor
    · rw [show "1/0".toList = "1".toList ++ '/' :: "0".toList from rfl,
        parse_plain_multiplicative N (by decide) (Or.inr rfl) (by decide) (by decide)
          (by decide),
        parse_plain N (a := "1".toList) (by decide) (by decide) (by decide) (by decide),
        parse_plain N (a := "0".toList) (by decide) (by decide) (by decide) (by decide),
        parseAtom_some N h1, parseAtom_some N h0]
      rfl
    · simp only [evaluateImpl]
      show (if N.lt (N.fabs zero) N.eps = true then _ else _) = _
      rw [if_pos hlt]

/-- The division guard in the rational model: `8 / 2` evaluates to `4`, a
divisor equal to `1e-15` is accepted, and the parse of `1/0` fails to evaluate
with the division error. -/
theorem evaluate_div_guard_witness :
    evaluateImpl ratNumeric (.Div (.Constant 8) (.Constant 2)) (fun _ => none) = .ok 4 ∧
    evaluateImpl ratNumeric (.Div (.Constant 1) (.Constant ratNumeric.eps)) (fun _ => none)
      = .ok (ratNumeric.div 1 ratNumeric.eps) ∧
    parse ratNumeric "1/0".toList = .ok (.Div (.Constant 1) (.Constant 0)) ∧
    evaluateImpl ratNumeric (.Div (.Constant 1) (.Constant 0)) (fun _ => none)
      = .error .divisionByZero := by
  have h := evaluate_div_guard ratNumeric (.Constant 8) (.Constant 2) (fun _ => none) 8 2 rfl rfl
  have h' := evaluate_div_guard ratNumeric (.Constant 1) (.Constant ratNumeric.eps)
    (fun _ => none) 1 ratNumeric.eps rfl rfl
  have h0 := h.2.2.2.2 1 0 rfl rfl (by norm_num [ratNumeric])
  refine ⟨?_, ?_, h0.1, h0.2⟩
  · rw [h.2.2.1 (by norm_num [ratNumeric])]
    norm_num [ratNumeric]
  · exact h'.2.2.2.1 (by norm_num [ratNumeric]) (by norm_num [ratNumeric])

/-- C13: logarithm domain guard.  When `evaluate(u, env) = a` succeeds,
`evaluate(Ln(u), env)` fails (ln domain error) if and only if `a <= 0`, zero
included, and otherwise equals `log(a)`.  The parse of `ln(-1)` is
`Ln(Sub(Constant 0, Constant 1))`, and it fails to evaluate when
`0 - 1 <= 0`. -/
theorem evaluate_ln_guard {T : Type} (N : Numeric T) (u : ExprNode T) (env : VarValues T)
    (a : T) (hu : evaluateImpl N u env = .ok a) :
    ((∃ err, evaluateImpl N (.Ln u) env = .error err) ↔ N.le a (N.ofInt 0) = true) ∧
    (N.le a (N.ofInt 0) = true → evaluateImpl N (.Ln u) env = .error .lnDomain) ∧
    (N.le a (N.ofInt 0) = false → evaluateImpl N (.Ln u) env = .ok (N.log a)) ∧
    (a = N.ofInt 0 → N.le (N.ofInt 0) (N.ofInt 0) = true →
      evaluateImpl N (.Ln u) env = .error .lnDomain) ∧
    (N.extract "0".toList = some (N.ofInt 0) → N.extract "1".toList = some (N.ofInt 1) →
      N.le (N.sub (N.ofInt 0) (N.ofInt 1)) (N.ofInt 0) = true →
      parse N "ln(-1)".toList
        = .ok (.Ln (.Sub (.Constant (N.ofInt 0)) (.Constant (N.ofInt 1)))) ∧
      evaluateImpl N (.Ln (.Sub (.Constant (N.ofInt 0)) (.Constant (N.ofInt 1)))) env
        = .error .lnDomain) := by
  have hpos : N.le a (N.ofInt 0) = true → evaluateImpl N (.Ln u) env = .error .lnDomain := by
    intro h
    simp only [evaluateImpl, hu]
    show (if N.le a (N.ofInt 0) = true then _ else _) = _
    rw [if_pos h]
  have hneg : N.le a (N.ofInt 0) = false → evaluateImpl N (.Ln u) env = .ok (N.log a) := by
    intro h
    simp only [evaluateImpl, hu]
    show (if N.le a (N.ofInt 0) = true then _ else _) = _
    rw [if_neg (by rw [h]; simp)]
    rfl
  refine ⟨?_, hpos, hneg, ?_, ?_⟩
  · constructor
    · rintro ⟨err, herr⟩
      by_contra hle
      rw [hneg (by simpa using hle)] at herr
      cases herr
    · intro h
      exact ⟨_, hpos h⟩
  · intro ha hrefl
    exact hpos (by rw [ha]; exact hrefl)
  · intro h0 h1 hle
    constructor
    · have hcall : parse N "ln(-1)".toList = applyUnary .Ln (parse N "-1".toList) := by
        rw [parse_eq]; rfl
      rw [hcall, parse_minus N (s := "-1".toList) (r := "1".toList) rfl (by decide), parse_zero,
        parseAtom_some N h0,
        parse_plain N (a := "1".toList) (by decide) (by decide) (by decide) (by decide),
        parseAtom_some N h1]
      rfl
    · simp only [evaluateImpl]
      show (if N.le (N.sub (N.ofInt 0) (N.ofInt 1)) (N.ofInt 0) = true then _ else _) = _
      rw [if_pos hle]

/-- The logarithm guard in the rational model: `Ln(Constant 0)` fails, and the
parse of `ln(-1)` is `Ln(Sub(Constant 0, Constant 1))`, which fails to
evaluate with the domain error. -/
theorem evaluate_ln_guard_witness :
    evaluateImpl ratNumeric (.Ln (.Constant 0)) (fun _ => none) = .error .lnDomain ∧
    parse ratNumeric "ln(-1)".toList = .ok (.Ln (.Sub (.Constant 0) (.Constant 1))) ∧
    evaluateImpl ratNumeric (.Ln (.Sub (.Constant 0) (.Constant 1))) (fun _ => none)
      = .error .lnDomain := by
  have h := evaluate_ln_guard ratNumeric (.Constant 0) (fun _ => none) 0 rfl
  have h1 := h.2.2.2.2 rfl rfl (by norm_num [ratNumeric])
  exact ⟨h.2.1 (by norm_num [ratNumeric]), h1.1, h1.2⟩

theorem FailureReason.mono {T : Type} {N : Numeric T} {s t : ExprNode T} {env : VarValues T}
    {err : RuntimeError} (hv : ∀ n ∈ varNames s, n ∈ varNames t)
    (hs : ∀ u ∈ subtrees s, u ∈ subtrees t) (h : FailureReason N s env err) :
    FailureReason N t env err := by
  rcases h with ⟨n, hn, h1, h2⟩ | ⟨l, r, d, hm, h1, h2, h3⟩ | ⟨u, a, hm, h1, h2, h3⟩
  · exact Or.inl ⟨n, hv n hn, h1, h2⟩
  · exact Or.inr (Or.inl ⟨l, r, d, hs _ hm, h1, h2, h3⟩)
  · exact Or.inr (Or.inr ⟨u, a, hs _ hm, h1, h2, h3⟩)

theorem mem_subtrees_self {T : Type} (t : ExprNode T) : t ∈ subtrees t := by
  cases t <;> simp [subtrees]

theorem bind_error {T : Type} {a : Except RuntimeError T} {f : T → Except RuntimeError T}
    {err : RuntimeError} (h : (a >>= f) = .error err) :
    a = .error err ∨ ∃ x, a = .ok x ∧ f x = .error err := by
  cases a with
  | error e => left; exact h
  | ok x => right; exact ⟨x, rfl, h⟩

theorem evaluate_failure {T : Type} (N : Numeric T) (t : ExprNode T) (env : VarValues T)
    (err : RuntimeError) (hwf : WellFormed t) (h : evaluateImpl N t env = .error err) :
    FailureReason N t env err := by
  induction t generalizing err with
  | null => exact absurd hwf (by simp [WellFormed])
  | Constant c => cases h
  | Variable n =>
    simp only [evaluateImpl] at h
    cases hn : env n with
    | none =>
      rw [hn] at h
      injection h with h
      exact Or.inl ⟨n, by simp [varNames], hn, h.symm⟩
    | some w => rw [hn] at h; cases h
  | Add l r ihl ihr | Sub l r ihl ihr | Mul l r ihl ihr | Pow l r ihl ihr =>
    simp only [evaluateImpl] at h
    rcases bind_error h with h | ⟨a, _, h⟩
    · exact (ihl err hwf.1 h).mono (by simp [varNames]; tauto) (by simp [subtrees]; tauto)
    · rcases bind_error h with h | ⟨b, _, h⟩
      · exact (ihr err hwf.2 h).mono (by simp [varNames]; tauto) (by simp [subtrees]; tauto)
      · cases h
  | Div l r ihl ihr =>
    simp only [evaluateImpl] at h
    rcases bind_error h with h | ⟨d, hd, h⟩
    · exact (ihr err hwf.2 h).mono (by simp [varNames]; tauto) (by simp [subtrees]; tauto)
    · split at h
      · rename_i hlt
        injection h with h
        exact Or.inr (Or.inl ⟨l, r, d, mem_subtrees_self _, hd, hlt, h.symm⟩)
      · rcases bind_error h with h | ⟨a, _, h⟩
        · exact (ihl err hwf.1 h).mono (by simp [varNames]; tauto) (by simp [subtrees]; tauto)
        · cases h
  | Sin u ih | Cos u ih | Exp u ih =>
    simp only [evaluateImpl] at h
    rcases bind_error h with h | ⟨a, _, h⟩
    · exact (ih err hwf h).mono (by simp [varNames]) (by simp [subtrees]; tauto)
    · cases h
  | Ln u ih =>
    simp only [evaluateImpl] at h
    rcases bind_error h with h | ⟨a, ha, h⟩
    · exact (ih err hwf h).mono (by simp [varNames]) (by simp [subtrees]; tauto)
    · split at h
      · rename_i hle
        injection h with h
        exact Or.inr (Or.inr ⟨u, a, mem_subtrees_self _, ha, hle, h.symm⟩)
      · cases h

theorem evaluate_ne_unknownType {T : Type} (N : Numeric T) (t : ExprNode T) (env : VarValues T) :
    evaluateImpl N t env ≠ .error .unknownType := by
  induction t with
  | null => intro h; cases h
  | Constant c => intro h; cases h
  | Variable n =>
    simp only [evaluateImpl]
    cases env n <;> (intro h; cases h)
  | Add l r ihl ihr | Sub l r ihl ihr | Mul l r ihl ihr | Pow l r ihl ihr =>
    intro h
    simp only [evaluateImpl] at h
    rcases bind_error h with h | ⟨a, _, h⟩
    · exact ihl h
    · rcases bind_error h with h | ⟨b, _, h⟩
      · exact ihr h
      · cases h
  | Div l r ihl ihr =>
    intro h
    simp only [evaluateImpl] at h
    rcases bind_error h with h | ⟨d, _, h⟩
    · exact ihr h
    · split at h
      · cases h
      · rcases bind_error h with h | ⟨a, _, h⟩
        · exact ihl h
        · cases h
  | Sin u ih | Cos u ih | Exp u ih =>
    intro h
    simp only [evaluateImpl] at h
    rcases bind_error h with h | ⟨a, _, h⟩
    · exact ih h
    · cases h
  | Ln u ih =>
    intro h
    simp only [evaluateImpl] at h
    rcases bind_error h with h | ⟨a, _, h⟩
    · exact ih h
    · split at h
      · cases h
      · cases h

/-- C24: `evaluate` fails only for the documented reasons.  For every
well-formed tree `t` and bindings `env`, a failure of `evaluate(t, env)` is
the missing-value error of a Variable of `t` that `env` does not bind, or the
division error of a Div node of `t` whose divisor evaluates to a magnitude
below `1e-15`, or the domain error of an Ln node of `t` whose operand
evaluates to a value `<= 0`.  In particular `evaluate` succeeds on every
well-formed tree without Div and Ln nodes whose variables are all bound, and
no tree at all evaluates to the unknown-expression-type error. -/
theorem evaluate_failure_reasons {T : Type} (N : Numeric T) (env : VarValues T) :
    (∀ (t : ExprNode T) (err : RuntimeError), WellFormed t →
      evaluateImpl N t env = .error err →
      (∃ n ∈ varNames t, env n = none ∧ err = .missingValue n) ∨
      (∃ l r d, .Div l r ∈ subtrees t ∧ evaluateImpl N r env = .ok d ∧
        N.lt (N.fabs d) N.eps = true ∧ err = .divisionByZero) ∨
      (∃ u a, .Ln u ∈ subtrees t ∧ evaluateImpl N u env = .ok a ∧
        N.le a (N.ofInt 0) = true ∧ err = .lnDomain)) ∧
    (∀ t : ExprNode T, WellFormed t →
      (∀ s ∈ subtrees t, (∀ l r, s ≠ .Div l r) ∧ (∀ u, s ≠ .Ln u)) →
      (∀ n ∈ varNames t, ∃ w, env n = some w) →
      ∃ v, evaluateImpl N t env = .ok v) ∧
    (∀ t : ExprNode T, evaluateImpl N t env ≠ .error .unknownType) := by
  refine ⟨fun t err hwf h => evaluate_failure N t env err hwf h, ?_,
    fun t => evaluate_ne_unknownType N t env⟩
  intro t hwf hnone hbound
  cases h : evaluateImpl N t env with
  | ok v => exact ⟨v, rfl⟩
  | error err =>
    exfalso
    rcases evaluate_failure N t env err hwf h with
      ⟨n, hn, h1, _⟩ | ⟨l, r, d, hm, _⟩ | ⟨u, a, hm, _⟩
    · obtain ⟨w, hw⟩ := hbound n hn
      rw [hw] at h1
      cases h1
    · exact (hnone _ hm).1 l r rfl
    · exact (hnone _ hm).2 u rfl

/-- The failure reasons in the rational model: `sin(x) * y` with `x` and `y`
bound evaluates, and the failure of `x / (y - y)` under `x = 1, y = 2` is the
division error of its Div node, whose divisor evaluates to 0. -/
theorem evaluate_failure_reasons_witness :
    (∃ v, evaluateImpl ratNumeric
        (.Mul (.Sin (.Variable "x".toList)) (.Variable "y".toList))
        (fun n => if n = "x".toList then some 1 else if n = "y".toList then some 2 else none)
      = .ok v) ∧
    (∃ l r d, ExprNode.Div l r ∈ subtrees
        (ExprNode.Div (.Variable "x".toList) (.Sub (.Variable "y".toList) (.Variable "y".toList))) ∧
      evaluateImpl ratNumeric r
        (fun n => if n = "x".toList then some 1 else if n = "y".toList then some 2 else none)
        = .ok d ∧
      ratNumeric.lt (ratNumeric.fabs d) ratNumeric.eps = true) := by
  have h := evaluate_failure_reasons ratNumeric
    (fun n => if n = "x".toList then some 1 else if n = "y".toList then some 2 else none)
  have hwf0 : WellFormed (ExprNode.Mul (.Sin (.Variable "x".toList))
      (.Variable "y".toList) : ExprNode ℚ) := ⟨trivial, trivial⟩
  refine ⟨h.2.1 _ hwf0 ?_ ?_, ?_⟩
  · intro s hs
    simp only [subtrees, List.mem_cons, List.mem_append, List.mem_singleton,
      List.not_mem_nil, or_false] at hs
    rcases hs with rfl | (rfl | rfl) | rfl <;>
      exact ⟨fun _ _ hh => (by cases hh), fun _ hh => (by cases hh)⟩
  · intro n hn
    simp only [varNames, List.mem_append, List.mem_singleton] at hn
    rcases hn with rfl | rfl
    · exact ⟨1, rfl⟩
    · exact ⟨2, rfl⟩
  · have hden : evaluateImpl ratNumeric
        (ExprNode.Sub (.Variable "y".toList) (.Variable "y".toList))
        (fun n => if n = "x".toList then some 1 else if n = "y".toList then some 2 else none)
        = .ok ((2 : ℚ) - 2) := rfl
    have hlt : ratNumeric.lt (ratNumeric.fabs ((2 : ℚ) - 2)) ratNumeric.eps = true := by
      norm_num [ratNumeric]
    have hfail : evaluateImpl ratNumeric
        (ExprNode.Div (.Variable "x".toList) (.Sub (.Variable "y".toList) (.Variable "y".toList)))
        (fun n => if n = "x".toList then some 1 else if n = "y".toList then some 2 else none)
        = .error .divisionByZero := by
      rw [evaluateImpl, hden]
      show (if ratNumeric.lt (ratNumeric.fabs ((2 : ℚ) - 2)) ratNumeric.eps = true then _
        else _) = _
      rw [if_pos hlt]
    have hwf : WellFormed (ExprNode.Div (.Variable "x".toList)
        (.Sub (.Variable "y".toList) (.Variable "y".toList)) : ExprNode ℚ) :=
      ⟨trivial, trivial, trivial⟩
    rcases h.1 _ _ hwf hfail with
      ⟨n, _, _, h2⟩ | ⟨l, r, d, hm, h1, h2, _⟩ | ⟨u, a, _, _, _, h3⟩
    · cases h2
    · exact ⟨l, r, d, hm, h1, h2⟩
    · cases h3

end EvaluatorTheorems

/-! ## The printer and the substitutor -/

section PrinterTheorems

/-- C16: printer format.  `toString` renders a Variable as its name; a binary
node as `(`, the left text, ` OP ` with `OP` one of `+ - * /` between single
spaces, the right text, `)`; a Pow node the same way with `^` and no spaces; a
unary node as its name `sin`, `cos`, `ln`, `exp`, then `(`, the operand text,
`)`; the empty tree as the empty string; a Constant as the numeric insertion
of its value.  When 5 and 3 print as `5` and `3`, `toString((5 + x) * 3)` is
`((5 + x) * 3)`. -/
theorem toString_format {T : Type} (N : Numeric T) :
    (∀ n, toStringImpl N (.Variable n) = n) ∧
    (∀ c, toStringImpl N (.Constant c) = N.print c) ∧
    (∀ l r, toStringImpl N (.Add l r)
      = "(".toList ++ toStringImpl N l ++ " + ".toList ++ toStringImpl N r ++ ")".toList) ∧
    (∀ l r, toStringImpl N (.Sub l r)
      = "(".toList ++ toStringImpl N l ++ " - ".toList ++ toStringImpl N r ++ ")".toList) ∧
    (∀ l r, toStringImpl N (.Mul l r)
      = "(".toList ++ toStringImpl N l ++ " * ".toList ++ toStringImpl N r ++ ")".toList) ∧
    (∀ l r, toStringImpl N (.Div l r)
      = "(".toList ++ toStringImpl N l ++ " / ".toList ++ toStringImpl N r ++ ")".toList) ∧
    (∀ l r, toStringImpl N (.Pow l r)
      = "(".toList ++ toStringImpl N l ++ "^".toList ++ toStringImpl N r ++ ")".toList) ∧
    (∀ u, toStringImpl N (.Sin u) = "sin".toList ++ "(".toList ++ toStringImpl N u ++ ")".toList) ∧
    (∀ u, toStringImpl N (.Cos u) = "cos".toList ++ "(".toList ++ toStringImpl N u ++ ")".toList) ∧
    (∀ u, toStringImpl N (.Ln u) = "ln".toList ++ "(".toList ++ toStringImpl N u ++ ")".toList) ∧
    (∀ u, toStringImpl N (.Exp u) = "exp".toList ++ "(".toList ++ toStringImpl N u ++ ")".toList) ∧
    toStringImpl N .null = [] ∧
    (∀ x, N.print (N.ofInt 5) = "5".toList → N.print (N.ofInt 3) = "3".toList →
      toStringImpl N (.Mul (.Add (.Constant (N.ofInt 5)) (.Variable x)) (.Constant (N.ofInt 3)))
        = "((5 + ".toList ++ x ++ ") * 3)".toList) := by
  refine ⟨fun _ => rfl, fun _ => rfl, fun _ _ => rfl, fun _ _ => rfl, fun _ _ => rfl,
    fun _ _ => rfl, fun _ _ => rfl, fun _ => rfl, fun _ => rfl, fun _ => rfl, fun _ => rfl,
    rfl, ?_⟩
  intro x h5 h3
  simp [toStringImpl, h5, h3]

/-- The printer in the rational model: `toString((5 + x) * 3) = "((5 + x) * 3)"`
and `toString(sin(x) ^ 2) = "(sin(x)^2)"`. -/
theorem toString_format_witness :
    toStringImpl ratNumeric (.Mul (.Add (.Constant 5) (.Variable "x".toList)) (.Constant 3))
      = "((5 + x) * 3)".toList ∧
    toStringImpl ratNumeric (.Pow (.Sin (.Variable "x".toList)) (.Constant 2))
      = "(sin(x)^2)".toList :=
  ⟨(toString_format ratNumeric).2.2.2.2.2.2.2.2.2.2.2.2 "x".toList (by decide) (by decide),
    by decide⟩

theorem substitute_eq_replace {T : Type} (t : ExprNode T) (x : Str) (v : T) :
    substituteImpl t x v
      = replaceVariables (fun n => if n = x then .Constant v else .Variable n) t := by
  induction t with
  | null => rfl
  | Constant c => rfl
  | Variable n => rfl
  | Add l r ihl ihr | Sub l r ihl ihr | Mul l r ihl ihr | Div l r ihl ihr | Pow l r ihl ihr =>
    simp only [substituteImpl, replaceVariables, ihl, ihr]
  | Sin u ih | Cos u ih | Ln u ih | Exp u ih =>
    simp only [substituteImpl, replaceVariables, ih]

theorem substitute_not_mem {T : Type} (t : ExprNode T) (x : Str) (v : T) :
    x ∉ varNames (substituteImpl t x v) := by
  induction t with
  | null => simp [substituteImpl, varNames]
  | Constant c => simp [substituteImpl, varNames]
  | Variable n =>
    by_cases h : n = x
    · simp [substituteImpl, varNames, h]
    · simp only [substituteImpl, if_neg h, varNames, List.mem_singleton]
      exact fun h' => h h'.symm
  | Add l r ihl ihr | Sub l r ihl ihr | Mul l r ihl ihr | Div l r ihl ihr | Pow l r ihl ihr =>
    simp only [substituteImpl, varNames, List.mem_append, not_or]
    exact ⟨ihl, ihr⟩
  | Sin u ih | Cos u ih | Ln u ih | Exp u ih =>
    simpa only [substituteImpl, varNames] using ih

theorem substitute_of_not_mem {T : Type} (t : ExprNode T) (x : Str) (v : T)
    (h : x ∉ varNames t) : substituteImpl t x v = t := by
  induction t with
  | null => rfl
  | Constant c => rfl
  | Variable n =>
    simp only [varNames, List.mem_singleton] at h
    simp only [substituteImpl, if_neg (fun h' : n = x => h h'.symm)]
  | Add l r ihl ihr | Sub l r ihl ihr | Mul l r ihl ihr | Div l r ihl ihr | Pow l r ihl ihr =>
    simp only [varNames, List.mem_append, not_or] at h
    simp only [substituteImpl, ihl h.1, ihr h.2]
  | Sin u ih | Cos u ih | Ln u ih | Exp u ih =>
    simp only [varNames] at h
    simp only [substituteImpl, ih h]

/-- C17: `substitute` is total and equals the reference rewrite.  For every
tree `t`, name `x` and value `v`, `substitute(t, x, v)` is `t` with every
Variable leaf named `x` replaced by `Constant v` and every other node keeping
its kind, its constant value or its variable name.  Hence the result has no
Variable named `x`, it is `t` itself when `x` does not occur in `t`, and
substituting `x` a second time, with any value, changes nothing. -/
theorem substitute_reference {T : Type} (t : ExprNode T) (x : Str) (v : T) :
    substituteImpl t x v
      = replaceVariables (fun n => if n = x then .Constant v else .Variable n) t ∧
    x ∉ varNames (substituteImpl t x v) ∧
    (x ∉ varNames t → substituteImpl t x v = t) ∧
    (∀ w, substituteImpl (substituteImpl t x v) x w = substituteImpl t x v) :=
  ⟨substitute_eq_replace t x v, substitute_not_mem t x v, substitute_of_not_mem t x v,
    fun w => substitute_of_not_mem _ x w (substitute_not_mem t x v)⟩

/-- The substitutor on `x + y` in the rational model: `substitute(x + y, "x",
2)` is `2 + y`, and `substitute(x + y, "z", 2)` is `x + y`. -/
theorem substitute_reference_witness :
    substituteImpl (.Add (.Variable "x".toList) (.Variable "y".toList)) "x".toList (2 : ℚ)
      = .Add (.Constant 2) (.Variable "y".toList) ∧
    substituteImpl (.Add (.Variable "x".toList) (.Variable "y".toList)) "z".toList (2 : ℚ)
      = .Add (.Variable "x".toList) (.Variable "y".toList) :=
  ⟨rfl, (substitute_reference (.Add (.Variable "x".toList) (.Variable "y".toList))
    "z".toList (2 : ℚ)).2.2.1 (by decide)⟩

end PrinterTheorems

/-! ## Printed texts parse back -/

section RoundTripLemmas

theorem depth_single_bounds (c : Char) : -1 ≤ depth [c] ∧ depth [c] ≤ 1 := by
  by_cases h1 : c = '('
  · subst h1; exact ⟨by decide, by decide⟩
  · by_cases h2 : c = ')'
    · subst h2; exact ⟨by decide, by decide⟩
    · rw [depth_single_of_not_paren h1 h2]; exact ⟨by decide, by decide⟩

theorem depth_of_no_paren {s : Str} (h : ∀ c ∈ s, c ≠ '(' ∧ c ≠ ')') : depth s = 0 := by
  induction s with
  | nil => rfl
  | cons a s ih =>
    rw [depth_cons, ih (fun c hc => h c (by simp [hc])),
      depth_single_of_not_paren (h a (by simp)).1 (h a (by simp)).2]
    rfl

theorem balanced_of_no_paren {s : Str} (h : ∀ c ∈ s, c ≠ '(' ∧ c ≠ ')') : Balanced s := by
  refine ⟨fun k _ => ?_, depth_of_no_paren h⟩
  rw [depth_of_no_paren (fun c hc => h c (List.mem_of_mem_take hc))]

theorem balanced_append {a b : Str} (ha : Balanced a) (hb : Balanced b) : Balanced (a ++ b) := by
  refine ⟨fun k hk => ?_, by rw [depth_append, ha.2, hb.2]; rfl⟩
  rw [List.take_append_eq_append_take, depth_append]
  by_cases hka : k ≤ a.length
  · have h1 := ha.1 k hka
    have : k - a.length = 0 := by omega
    rw [this, List.take_zero, depth_nil]
    omega
  · rw [List.take_of_length_le (by omega), ha.2]
    have := hb.1 (k - a.length) (by rw [List.length_append] at hk; omega)
    omega

theorem balanced_wrap {x : Str} (hx : Balanced x) : Balanced ('(' :: (x ++ [')'])) := by
  constructor
  · intro k hk
    cases k with
    | zero => simp [depth_nil]
    | succ k =>
      rw [List.take_succ_cons, depth_cons, List.take_append_eq_append_take, depth_append]
      have h1 : depth ['('] = 1 := rfl
      by_cases hkx : k ≤ x.length
      · have := hx.1 k hkx
        have h0 : k - x.length = 0 := by omega
        rw [h0, List.take_zero, depth_nil]
        omega
      · rw [List.take_of_length_le (by omega), hx.2]
        have hb := depth_single_bounds ')'
        have : depth (List.take (k - x.length) [')']) ≥ -1 := by
          cases hk' : k - x.length with
          | zero => simp [depth_nil]
          | succ m => simpa using hb.1
        omega
  · rw [depth_cons, depth_append, hx.2]
    rfl

/-- In `pre(x)` with `pre` free of operator signs and parentheses and `x`
balanced, every operator sign is inside the parentheses. -/
theorem noTopOps_call {pre x : Str} (hpre : ∀ c ∈ pre, plainChar c) (hx : Balanced x) :
    NoTopOps (pre ++ '(' :: (x ++ [')'])) := by
  intro k c hc hop
  by_cases hk : k < pre.length
  · rw [List.getElem?_append_left hk] at hc
    have hp := hpre c (mem_of_getElem? hc)
    simp only [List.mem_cons, List.mem_singleton, List.not_mem_nil, or_false] at hop
    rcases hop with h | h | h | h | h
    · exact absurd h hp.2.2.2.1
    · exact absurd h hp.2.2.2.2.1
    · exact absurd h hp.2.2.2.2.2.1
    · exact absurd h hp.2.2.2.2.2.2.1
    · exact absurd h hp.2.2.2.2.2.2.2
  · have hlt := lt_length_of_getElem? hc
    simp only [List.length_append, List.length_cons, List.length_singleton,
      List.length_nil] at hlt
    rw [List.getElem?_append_right (by omega)] at hc
    obtain ⟨j, hj⟩ : ∃ j, k - pre.length = j := ⟨_, rfl⟩
    rw [hj] at hc
    cases j with
    | zero =>
      simp at hc
      subst hc
      exact absurd hop (by decide)
    | succ j =>
      have hkj : k = pre.length + (j + 1) := by omega
      rw [hkj, List.take_append_eq_append_take, List.take_of_length_le (by omega),
        depth_append, depth_of_plain hpre]
      have : pre.length + (j + 1) - pre.length = j + 1 := by omega
      rw [this, List.take_succ_cons, depth_cons, List.take_append_eq_append_take, depth_append]
      have h1 : depth ['('] = 1 := rfl
      rw [List.getElem?_cons_succ] at hc
      have hjx : j ≤ x.length := by omega
      by_cases hjx' : j < x.length
      · have := hx.1 j hjx
        have h0 : j - x.length = 0 := by omega
        rw [h0, List.take_zero, depth_nil]
        omega
      · have hjeq : j = x.length := by omega
        subst hjeq
        rw [List.getElem?_append_right (Nat.le_refl _)] at hc
        simp at hc
        subst hc
        exact absurd hop (by decide)

theorem printed_plain {p : Str} (hp : PlainLeaf p) : Printed p := by
  obtain ⟨hne, hplain, _, _⟩ := hp
  refine ⟨hne, ?_, ?_, ?_, ?_⟩
  · intro c hc
    have := hplain c (List.mem_of_mem_head? hc)
    exact ⟨this.1, this.2.2.2.2.1⟩
  · intro c hc
    exact (hplain c (List.mem_of_mem_getLast? hc)).1
  · exact balanced_of_no_paren (fun c hc => ⟨(hplain c hc).2.1, (hplain c hc).2.2.1⟩)
  · intro k c hc hop
    have hp := hplain c (mem_of_getElem? hc)
    simp only [List.mem_cons, List.mem_singleton, List.not_mem_nil, or_false] at hop
    rcases hop with h | h | h | h | h
    · exact absurd h hp.2.2.2.1
    · exact absurd h hp.2.2.2.2.1
    · exact absurd h hp.2.2.2.2.2.1
    · exact absurd h hp.2.2.2.2.2.2.1
    · exact absurd h hp.2.2.2.2.2.2.2

theorem getLast?_append_singleton (s : Str) (c : Char) : (s ++ [c]).getLast? = some c := by
  simp

/-- The text `pre(x)` is in printed form when `pre` is plain, does not start
with whitespace, and `x` is balanced. -/
theorem printed_call (pre x : Str) (hpre : ∀ c ∈ pre, plainChar c) (hx : Balanced x) :
    Printed (pre ++ '(' :: (x ++ [')'])) := by
  refine ⟨by simp, ?_, ?_, ?_, noTopOps_call hpre hx⟩
  · intro c hc
    cases pre with
    | nil =>
      simp at hc
      subst hc
      exact ⟨by decide, by decide⟩
    | cons a pre' =>
      simp at hc
      subst hc
      have := hpre a (by simp)
      exact ⟨this.1, this.2.2.2.2.1⟩
  · intro c hc
    have : pre ++ '(' :: (x ++ [')']) = (pre ++ '(' :: x) ++ [')'] := by simp
    rw [this, getLast?_append_singleton] at hc
    simp at hc
    subst hc
    decide
  · exact balanced_append
      (balanced_of_no_paren (fun c hc => ⟨(hpre c hc).2.1, (hpre c hc).2.2.1⟩))
      (balanced_wrap hx)

theorem findSplit_append_nohit {isOp : Char → Nat → Bool} (A B : Str) (i0 : Nat) (pc : Int)
    (h : ∀ k d, ¬ Hit isOp A i0 pc k d) :
    findSplit isOp (A ++ B) i0 pc = findSplit isOp B (i0 + A.length) (pc + depth A) := by
  induction A generalizing i0 pc with
  | nil => simp [depth_nil]
  | cons a A ih =>
    have h0 : ¬ (parenStep pc a = 0 ∧ isOp a i0 = true) := by
      intro hh
      apply h 0 a
      refine ⟨by simp, ?_, by simpa using hh.2⟩
      rw [← hh.1, parenStep_eq]; simp
    rw [List.cons_append, findSplit]
    rw [if_neg h0, ih (i0 + 1) (parenStep pc a)]
    · rw [parenStep_eq, depth_cons a A]
      congr 1
      · simp only [List.length_cons]; omega
      · ring
    · intro k d hhit
      apply h (k + 1) d
      obtain ⟨h1, h2, h3⟩ := hhit
      refine ⟨by simpa using h1, ?_, ?_⟩
      · rw [List.take_succ_cons, depth_cons, ← h2, parenStep_eq]; ring
      · rw [← h3]; congr 1; omega

theorem depth_op_zero {c : Char} (h : c ∈ ['+', '-', '*', '/', '^']) : depth [c] = 0 := by
  simp only [List.mem_cons, List.mem_singleton, List.not_mem_nil, or_false] at h
  rcases h with rfl | rfl | rfl | rfl | rfl <;> rfl

/-- A scanning loop started at depth 0 returns nowhere in a text whose
operator signs are all inside parentheses. -/
theorem nohit_of_noTopOps {isOp : Char → Nat → Bool}
    (hop : ∀ c i, isOp c i = true → c ∈ ['+', '-', '*', '/', '^']) {A : Str} (hA : NoTopOps A)
    (i0 : Nat) : ∀ k d, ¬ Hit isOp A i0 0 k d := by
  rintro k d ⟨h1, h2, h3⟩
  have hmem := hop d _ h3
  apply hA k d h1 hmem
  rw [depth_take_succ h1, depth_op_zero hmem] at h2
  omega

theorem nohit_of_spaces {isOp : Char → Nat → Bool}
    (hop : ∀ c i, isOp c i = true → c ∈ ['+', '-', '*', '/', '^']) {A : Str}
    (hA : ∀ c ∈ A, c = ' ') (i0 : Nat) (pc : Int) : ∀ k d, ¬ Hit isOp A i0 pc k d := by
  rintro k d ⟨h1, _, h3⟩
  have hmem := hop d _ h3
  have := hA d (mem_of_getElem? h1)
  subst this
  exact absurd hmem (by decide)

theorem depth_of_spaces {A : Str} (hA : ∀ c ∈ A, c = ' ') : depth A = 0 :=
  depth_of_no_paren (fun c hc => by rw [hA c hc]; exact ⟨by decide, by decide⟩)

/-- What a scanning loop returns on `L pre o post R`, for printed texts `L`,
`R`, spaces `pre`, `post` and an operator sign `o`: the index of `o` if the
loop looks for `o`, nothing otherwise. -/
theorem findSplit_printed {isOp : Char → Nat → Bool}
    (hop : ∀ c i, isOp c i = true → c ∈ ['+', '-', '*', '/', '^'])
    {L R pre post : Str} {o : Char} (hL : Printed L) (hR : Printed R)
    (hpre : ∀ c ∈ pre, c = ' ') (hpost : ∀ c ∈ post, c = ' ')
    (ho : o ∈ ['+', '-', '*', '/', '^']) :
    findSplit isOp (L ++ (pre ++ o :: (post ++ R))) 0 0
      = if isOp o (L.length + pre.length) = true then some (L.length + pre.length, o)
        else none := by
  rw [findSplit_append_nohit L _ 0 0 (nohit_of_noTopOps hop hL.2.2.2.2 0),
    findSplit_append_nohit pre _ _ _ (nohit_of_spaces hop hpre _ _)]
  simp only [zero_add, hL.2.2.2.1.2, depth_of_spaces hpre, add_zero]
  rw [findSplit]
  have hstep : parenStep 0 o = 0 := by rw [parenStep_eq, depth_op_zero ho]; rfl
  rw [hstep]
  by_cases hio : isOp o (L.length + pre.length) = true
  · rw [if_pos ⟨rfl, hio⟩, if_pos hio]
  · rw [if_neg (fun h => hio h.2), if_neg hio,
      findSplit_append_nohit post _ _ _ (nohit_of_spaces hop hpost _ _)]
    simp only [depth_of_spaces hpost, add_zero]
    exact findSplit_none (nohit_of_noTopOps hop hR.2.2.2.2 _)

theorem parse_trim_congr {T : Type} (N : Numeric T) {a b : Str} (h : trim a = trim b) :
    parse N a = parse N b := by
  rw [parse_eq, parse_eq N b, h]

theorem trim_printed {p : Str} (hp : Printed p) : trim p = p := by
  have := @trim_pad [] [] p (by simp) (by simp) hp.1 (fun c hc => (hp.2.1 c hc).1) hp.2.2.1
  simpa using this

theorem trim_printed_pad {p pre post : Str} (hp : Printed p) (hpre : ∀ c ∈ pre, c = ' ')
    (hpost : ∀ c ∈ post, c = ' ') : trim (pre ++ p ++ post) = p :=
  trim_pad (fun c hc => by rw [hpre c hc]; decide) (fun c hc => by rw [hpost c hc]; decide)
    hp.1 (fun c hc => (hp.2.1 c hc).1) hp.2.2.1

theorem parse_printed_pad {T : Type} (N : Numeric T) (p pre post : Str) (hp : Printed p)
    (hpre : ∀ c ∈ pre, c = ' ') (hpost : ∀ c ∈ post, c = ' ') :
    parse N (pre ++ p ++ post) = parse N p :=
  parse_trim_congr N (by rw [trim_printed_pad hp hpre hpost, trim_printed hp])

theorem isOp_mem_additive (c : Char) (i : Nat) (h : isAdditive c i = true) :
    c ∈ ['+', '-', '*', '/', '^'] := isOp_mem (Or.inl h)

theorem isOp_mem_multiplicative (c : Char) (i : Nat) (h : isMultiplicative c i = true) :
    c ∈ ['+', '-', '*', '/', '^'] := isOp_mem (Or.inr (Or.inl h))

theorem isOp_mem_power (c : Char) (i : Nat) (h : isPower c i = true) :
    c ∈ ['+', '-', '*', '/', '^'] := isOp_mem (Or.inr (Or.inr h))

/-- The parse of `L pre o post R` for printed texts `L`, `R`, spaces `pre`,
`post` and an operator sign `o` is the node of `o` over the parses of `L` and
`R`. -/
theorem parse_printed_binary {T : Type} (N : Numeric T) {L R pre post : Str} {o : Char}
    (hL : Printed L) (hR : Printed R) (hpre : ∀ c ∈ pre, c = ' ')
    (hpost : ∀ c ∈ post, c = ' ') (ho : o ∈ ['+', '-', '*', '/', '^']) :
    parse N ((L ++ pre) ++ o :: (post ++ R))
      = applyBinary (binaryNode o) (parse N L) (parse N R) := by
  have hows : ¬ isWs o := by
    simp only [List.mem_cons, List.mem_singleton, List.not_mem_nil, or_false] at ho
    rcases ho with rfl | rfl | rfl | rfl | rfl <;> decide
  obtain ⟨a, L', hLa⟩ := List.exists_cons_of_ne_nil hL.1
  have hhead : ∀ x, (L ++ pre).head? = some x → ¬ isWs x ∧ x ≠ '-' := by
    intro x hx
    apply hL.2.1 x
    rw [hLa] at hx ⊢
    simpa using hx
  have hlast : ∀ x, (post ++ R).getLast? = some x → ¬ isWs x := by
    intro x hx
    apply hR.2.2.1 x
    rcases List.eq_nil_or_concat R with h0 | ⟨ini, y, h0⟩
    · exact absurd h0 hR.1
    · rw [h0, List.concat_eq_append] at hx ⊢
      rw [← List.append_assoc, getLast?_append_singleton] at hx
      rw [getLast?_append_singleton]
      exact hx
  have htrim : trim ((L ++ pre) ++ o :: (post ++ R)) = (L ++ pre) ++ o :: (post ++ R) :=
    trim_split (fun x hx => (hhead x hx).1) hows hlast
  have hminus : (trim ((L ++ pre) ++ o :: (post ++ R))).head? ≠ some '-' := by
    rw [htrim]
    intro h
    have : ((L ++ pre) ++ o :: (post ++ R)).head? = (L ++ pre).head? := by
      rw [hLa]; simp
    rw [this] at h
    exact (hhead '-' h).2 rfl
  have hk0 : 0 < L.length + pre.length := by
    have := List.length_pos.2 hL.1
    omega
  have hfs : ∀ isOp : Char → Nat → Bool,
      (∀ c i, isOp c i = true → c ∈ ['+', '-', '*', '/', '^']) →
      findSplit isOp (trim ((L ++ pre) ++ o :: (post ++ R))) 0 0
        = if isOp o (L.length + pre.length) = true then some ((L ++ pre).length, o)
          else none := by
    intro isOp hop
    rw [htrim, List.append_assoc, findSplit_printed hop hL hR hpre hpost ho, List.length_append]
  have hl : parse N (L ++ pre) = parse N L := by
    have := parse_printed_pad N L [] pre hL (by simp) hpre
    simpa using this
  have hr : parse N (post ++ R) = parse N R := by
    have := parse_printed_pad N R post [] hR hpost (by simp)
    simpa using this
  have htd := take_drop_split (L ++ pre) (post ++ R) o
  simp only [List.mem_cons, List.mem_singleton, List.not_mem_nil, or_false] at ho
  rcases ho with rfl | rfl | rfl | rfl | rfl
  · have h := hfs isAdditive isOp_mem_additive
    rw [if_pos (by simp [isAdditive, hk0])] at h
    rw [parse_additive N hminus h, htrim, htd.1, htd.2, hl, hr]
    rfl
  · have h := hfs isAdditive isOp_mem_additive
    rw [if_pos (by simp [isAdditive, hk0])] at h
    rw [parse_additive N hminus h, htrim, htd.1, htd.2, hl, hr]
    rfl
  · have ha := hfs isAdditive isOp_mem_additive
    rw [if_neg (by simp [isAdditive])] at ha
    have h := hfs isMultiplicative isOp_mem_multiplicative
    rw [if_pos (by simp [isMultiplicative])] at h
    rw [parse_multiplicative N hminus ha h, htrim, htd.1, htd.2, hl, hr]
    rfl
  · have ha := hfs isAdditive isOp_mem_additive
    rw [if_neg (by simp [isAdditive])] at ha
    have h := hfs isMultiplicative isOp_mem_multiplicative
    rw [if_pos (by simp [isMultiplicative])] at h
    rw [parse_multiplicative N hminus ha h, htrim, htd.1, htd.2, hl, hr]
    rfl
  · have ha := hfs isAdditive isOp_mem_additive
    rw [if_neg (by simp [isAdditive])] at ha
    have hm := hfs isMultiplicative isOp_mem_multiplicative
    rw [if_neg (by simp [isMultiplicative])] at hm
    have h := hfs isPower isOp_mem_power
    rw [if_pos (by simp [isPower])] at h
    rw [parse_power N hminus ha hm h, htrim, htd.1, htd.2, hl, hr]
    rfl

theorem insideLoop_closed (U tail : Str) (i : Nat) (pc : Int)
    (hopen : ∀ k, k ≤ U.length → pc + depth (U.take k) ≠ 0) (hclose : pc + depth U = 1) :
    insideLoop (U ++ ')' :: tail) i pc = (i + U.length, 0) := by
  induction U generalizing i pc with
  | nil =>
    have hpc : pc = 1 := by simpa [depth_nil] using hclose
    subst hpc
    simp [insideLoop, parenStep]
  | cons c U ih =>
    have h1 : parenStep pc c ≠ 0 := by
      have := hopen 1 (by simp)
      rw [parenStep_eq]
      simpa using this
    rw [List.cons_append, insideLoop]
    rw [if_neg h1, ih (i + 1) (parenStep pc c)]
    · simp only [List.length_cons]
      congr 1
      omega
    · intro k hk
      have := hopen (k + 1) (by simpa using hk)
      rw [List.take_succ_cons, depth_cons] at this
      rw [parenStep_eq]
      intro h0; apply this; rw [← h0]; ring
    · rw [parenStep_eq, ← hclose, depth_cons c U]; ring

/-- `getInsideFunction` on `name(U)tail` with `U` balanced returns `U`. -/
theorem getInsideFunction_closed (name U tail : Str) (hU : Balanced U) :
    getInsideFunction (name ++ '(' :: (U ++ ')' :: tail)) name = .ok U := by
  have hfind : find (name ++ '(' :: (U ++ ')' :: tail)) (name ++ ['(']) = some 0 := by
    have : name ++ '(' :: (U ++ ')' :: tail) = (name ++ ['(']) ++ (U ++ ')' :: tail) := by simp
    rw [this]
    exact find_prefix _ _ (by simp)
  have hdrop : List.drop (0 + name.length + 1) (name ++ '(' :: (U ++ ')' :: tail))
      = U ++ ')' :: tail := by
    rw [zero_add]
    exact (take_drop_split name (U ++ ')' :: tail) '(').2
  have hloop := insideLoop_closed U tail (0 + name.length + 1) 1
    (fun k hk => by have := hU.1 k hk; omega) (by rw [hU.2]; rfl)
  unfold getInsideFunction
  rw [hfind]
  simp only [hdrop, hloop]
  rw [if_neg (by simp)]
  congr 1
  unfold substr
  rw [hdrop]
  have : 0 + name.length + 1 + U.length - (0 + name.length + 1) = U.length := by omega
  rw [this, List.take_left]

/-- The chain of `startsWith` tests of `parse` on `name(rest`, for one of the
four function names, takes the branch of `name`. -/
theorem call_chain {T : Type} (N : Numeric T) (f : Str → Except RuntimeError (ExprNode T))
    (name rest : Str)
    (hname : name = "sin".toList ∨ name = "cos".toList ∨ name = "ln".toList ∨
      name = "exp".toList) :
    (if startsWith (name ++ '(' :: rest) "sin(".toList then
        parseCall f .Sin (name ++ '(' :: rest) "sin".toList
      else if startsWith (name ++ '(' :: rest) "cos(".toList then
        parseCall f .Cos (name ++ '(' :: rest) "cos".toList
      else if startsWith (name ++ '(' :: rest) "ln(".toList then
        parseCall f .Ln (name ++ '(' :: rest) "ln".toList
      else if startsWith (name ++ '(' :: rest) "exp(".toList then
        parseCall f .Exp (name ++ '(' :: rest) "exp".toList
      else .ok (parseAtom N (name ++ '(' :: rest)))
      = parseCall f (callNode name) (name ++ '(' :: rest) name := by
  rcases hname with rfl | rfl | rfl | rfl
  · have h1 : startsWith ("sin".toList ++ '(' :: rest) "sin(".toList = true :=
      startsWith_self_append "sin(".toList rest
    rw [if_pos h1]
    rfl
  · have h1 : startsWith ("cos".toList ++ '(' :: rest) "cos(".toList = true :=
      startsWith_self_append "cos(".toList rest
    have h2 : ¬ (startsWith ("cos".toList ++ '(' :: rest) "sin(".toList = true) := by
      rw [startsWith_false_of_head (by decide) (by simp)]; simp
    rw [if_neg h2, if_pos h1]
    rfl
  · have h1 : startsWith ("ln".toList ++ '(' :: rest) "ln(".toList = true :=
      startsWith_self_append "ln(".toList rest
    have h2 : ¬ (startsWith ("ln".toList ++ '(' :: rest) "sin(".toList = true) := by
      rw [startsWith_false_of_head (by decide) (by simp)]; simp
    have h3 : ¬ (startsWith ("ln".toList ++ '(' :: rest) "cos(".toList = true) := by
      rw [startsWith_false_of_head (by decide) (by simp)]; simp
    rw [if_neg h2, if_neg h3, if_pos h1]
    rfl
  · have h1 : startsWith ("exp".toList ++ '(' :: rest) "exp(".toList = true :=
      startsWith_self_append "exp(".toList rest
    have h2 : ¬ (startsWith ("exp".toList ++ '(' :: rest) "sin(".toList = true) := by
      rw [startsWith_false_of_head (by decide) (by simp)]; simp
    have h3 : ¬ (startsWith ("exp".toList ++ '(' :: rest) "cos(".toList = true) := by
      rw [startsWith_false_of_head (by decide) (by simp)]; simp
    have h4 : ¬ (startsWith ("exp".toList ++ '(' :: rest) "ln(".toList = true) := by
      rw [startsWith_false_of_head (by decide) (by simp)]; simp
    rw [if_neg h2, if_neg h3, if_neg h4, if_pos h1]
    rfl

theorem name_plain {name : Str}
    (hname : name = "sin".toList ∨ name = "cos".toList ∨ name = "ln".toList ∨
      name = "exp".toList) :
    (∀ c ∈ name, plainChar c) ∧ ∃ a, name.head? = some a ∧ a ≠ '(' ∧ a ≠ '-' := by
  rcases hname with rfl | rfl | rfl | rfl
  · exact ⟨by decide, 's', rfl, by decide, by decide⟩
  · exact ⟨by decide, 'c', rfl, by decide, by decide⟩
  · exact ⟨by decide, 'l', rfl, by decide, by decide⟩
  · exact ⟨by decide, 'e', rfl, by decide, by decide⟩

/-- The scanning loops return nowhere in a text whose operator signs are all
inside parentheses; `parse` goes on to the function names. -/
theorem parseStep_noTopOps {T : Type} (N : Numeric T) (f : Str → Except RuntimeError (ExprNode T))
    {t : Str} (hne : t ≠ []) (hw : isWrappedInParens t = false) (hpi : t ≠ "pi".toList)
    (he : t ≠ "e".toList) (hminus : t.head? ≠ some '-') (hops : NoTopOps t) :
    parseStep N f t =
      if startsWith t "sin(".toList then parseCall f .Sin t "sin".toList
      else if startsWith t "cos(".toList then parseCall f .Cos t "cos".toList
      else if startsWith t "ln(".toList then parseCall f .Ln t "ln".toList
      else if startsWith t "exp(".toList then parseCall f .Exp t "exp".toList
      else .ok (parseAtom N t) := by
  rw [parseStep_scan N f t hne hw hpi he hminus,
    findSplit_none (nohit_of_noTopOps isOp_mem_additive hops 0),
    findSplit_none (nohit_of_noTopOps isOp_mem_multiplicative hops 0),
    findSplit_none (nohit_of_noTopOps isOp_mem_power hops 0)]

/-- The parse of `name(U)` for one of the four function names and a balanced
`U` is the node of `name` over the parse of `U`. -/
theorem parse_call {T : Type} (N : Numeric T) (name U : Str)
    (hname : name = "sin".toList ∨ name = "cos".toList ∨ name = "ln".toList ∨
      name = "exp".toList) (hU : Balanced U) :
    parse N (name ++ '(' :: (U ++ [')'])) = applyUnary (callNode name) (parse N U) := by
  obtain ⟨hplain, a, hhead, ha1, ha2⟩ := name_plain hname
  have hprinted := printed_call name U hplain hU
  have hhd : (name ++ '(' :: (U ++ [')'])).head? = some a := by
    cases name with
    | nil => simp at hhead
    | cons b n => simpa using hhead
  have hmem : '(' ∈ name ++ '(' :: (U ++ [')']) := by simp
  obtain ⟨hpi, he⟩ := ne_pi_e_of_mem hmem (by decide) (by decide) (by decide)
  rw [parse_eq, trim_printed hprinted,
    parseStep_noTopOps N _ hprinted.1 (not_wrapped_of_head (by rw [hhd]; simpa using ha1)) hpi he
      (by rw [hhd]; simpa using ha2) hprinted.2.2.2.2,
    call_chain N _ name _ hname]
  unfold parseCall
  rw [getInsideFunction_closed name U [] hU]

theorem parse_paren {T : Type} (N : Numeric T) {X : Str} (hX : Balanced X) :
    parse N ('(' :: (X ++ [')'])) = parse N X := by
  have hp : Printed ('(' :: (X ++ [')'])) := by
    have := printed_call [] X (by simp) hX
    simpa using this
  rw [parse_wrapped N (trim_printed hp) (isWrappedInParens_of_balanced hX), substr_wrapped]

theorem balanced_binary {L R mid : Str} (hL : Balanced L) (hR : Balanced R)
    (hmid : ∀ c ∈ mid, c ≠ '(' ∧ c ≠ ')') : Balanced (L ++ mid ++ R) :=
  balanced_append (balanced_append hL (balanced_of_no_paren hmid)) hR

theorem printed_binary {L R mid : Str} (hL : Balanced L) (hR : Balanced R)
    (hmid : ∀ c ∈ mid, c ≠ '(' ∧ c ≠ ')') :
    Printed ("(".toList ++ L ++ mid ++ R ++ ")".toList) := by
  have := printed_call [] (L ++ mid ++ R) (by simp) (balanced_binary hL hR hmid)
  have hform : "(".toList ++ L ++ mid ++ R ++ ")".toList = [] ++ '(' :: (L ++ mid ++ R ++ [')']) := by
    simp
  rw [hform]
  exact this

theorem printed_unary {name U : Str}
    (hname : name = "sin".toList ∨ name = "cos".toList ∨ name = "ln".toList ∨
      name = "exp".toList) (hU : Balanced U) :
    Printed (name ++ "(".toList ++ U ++ ")".toList) := by
  have := printed_call name U (name_plain hname).1 hU
  have hform : name ++ "(".toList ++ U ++ ")".toList = name ++ '(' :: (U ++ [')']) := by simp
  rw [hform]
  exact this

/-- The printer writes plain trees in printed form. -/
theorem printed_toString {T : Type} (N : Numeric T) (t : ExprNode T) (ht : PlainTree N t) :
    Printed (toStringImpl N t) := by
  induction t with
  | null => exact absurd ht (by simp [PlainTree])
  | Constant v => exact printed_plain ht.1
  | Variable n => exact printed_plain ht.1
  | Add l r ihl ihr =>
    exact printed_binary (ihl ht.1).2.2.2.1 (ihr ht.2).2.2.2.1 (by decide)
  | Sub l r ihl ihr =>
    exact printed_binary (ihl ht.1).2.2.2.1 (ihr ht.2).2.2.2.1 (by decide)
  | Mul l r ihl ihr =>
    exact printed_binary (ihl ht.1).2.2.2.1 (ihr ht.2).2.2.2.1 (by decide)
  | Div l r ihl ihr =>
    exact printed_binary (ihl ht.1).2.2.2.1 (ihr ht.2).2.2.2.1 (by decide)
  | Pow l r ihl ihr =>
    exact printed_binary (ihl ht.1).2.2.2.1 (ihr ht.2).2.2.2.1 (by decide)
  | Sin u ih => exact printed_unary (Or.inl rfl) (ih ht).2.2.2.1
  | Cos u ih => exact printed_unary (Or.inr (Or.inl rfl)) (ih ht).2.2.2.1
  | Ln u ih => exact printed_unary (Or.inr (Or.inr (Or.inl rfl))) (ih ht).2.2.2.1
  | Exp u ih => exact printed_unary (Or.inr (Or.inr (Or.inr rfl))) (ih ht).2.2.2.1

/-- The parse of `(L pre o post R)` for printed `L`, `R`. -/
theorem parse_printed_node {T : Type} (N : Numeric T) (L R pre post : Str) (o : Char)
    (hL : Printed L) (hR : Printed R) (hpre : ∀ c ∈ pre, c = ' ')
    (hpost : ∀ c ∈ post, c = ' ') (ho : o ∈ ['+', '-', '*', '/', '^']) :
    parse N ("(".toList ++ L ++ (pre ++ o :: post) ++ R ++ ")".toList)
      = applyBinary (binaryNode o) (parse N L) (parse N R) := by
  have hmid : ∀ c ∈ pre ++ o :: post, c ≠ '(' ∧ c ≠ ')' := by
    intro c hc
    simp only [List.mem_append, List.mem_cons] at hc
    rcases hc with h | h | h
    · rw [hpre c h]; exact ⟨by decide, by decide⟩
    · subst h
      simp only [List.mem_cons, List.mem_singleton, List.not_mem_nil, or_false] at ho
      rcases ho with rfl | rfl | rfl | rfl | rfl <;> exact ⟨by decide, by decide⟩
    · rw [hpost c h]; exact ⟨by decide, by decide⟩
  have hform : "(".toList ++ L ++ (pre ++ o :: post) ++ R ++ ")".toList
      = '(' :: ((L ++ (pre ++ o :: post) ++ R) ++ [')']) := by simp
  have hform2 : L ++ (pre ++ o :: post) ++ R = (L ++ pre) ++ o :: (post ++ R) := by simp
  rw [hform, parse_paren N (balanced_binary hL.2.2.2.1 hR.2.2.2.1 hmid), hform2,
    parse_printed_binary N hL hR hpre hpost ho]

/-- Structural round trip: the printed text of a plain tree parses back to the
tree. -/
theorem parse_toString {T : Type} (N : Numeric T) (t : ExprNode T) (ht : PlainTree N t) :
    parse N (toStringImpl N t) = .ok t := by
  induction t with
  | null => exact absurd ht (by simp [PlainTree])
  | Constant v =>
    obtain ⟨⟨h1, h2, h3, h4⟩, hx⟩ := ht
    show parse N (N.print v) = _
    rw [parse_plain N h1 h2 h3 h4, parseAtom_some N hx]
  | Variable n =>
    obtain ⟨⟨h1, h2, h3, h4⟩, hx⟩ := ht
    show parse N n = _
    rw [parse_plain N h1 h2 h3 h4, parseAtom_none N hx]
  | Add l r ihl ihr =>
    have := parse_printed_node N (toStringImpl N l) (toStringImpl N r) [' '] [' '] '+'
      (printed_toString N l ht.1) (printed_toString N r ht.2) (by simp) (by simp) (by decide)
    rw [ihl ht.1, ihr ht.2] at this
    exact this
  | Sub l r ihl ihr =>
    have := parse_printed_node N (toStringImpl N l) (toStringImpl N r) [' '] [' '] '-'
      (printed_toString N l ht.1) (printed_toString N r ht.2) (by simp) (by simp) (by decide)
    rw [ihl ht.1, ihr ht.2] at this
    exact this
  | Mul l r ihl ihr =>
    have := parse_printed_node N (toStringImpl N l) (toStringImpl N r) [' '] [' '] '*'
      (printed_toString N l ht.1) (printed_toString N r ht.2) (by simp) (by simp) (by decide)
    rw [ihl ht.1, ihr ht.2] at this
    exact this
  | Div l r ihl ihr =>
    have := parse_printed_node N (toStringImpl N l) (toStringImpl N r) [' '] [' '] '/'
      (printed_toString N l ht.1) (printed_toString N r ht.2) (by simp) (by simp) (by decide)
    rw [ihl ht.1, ihr ht.2] at this
    exact this
  | Pow l r ihl ihr =>
    have := parse_printed_node N (toStringImpl N l) (toStringImpl N r) [] [] '^'
      (printed_toString N l ht.1) (printed_toString N r ht.2) (by simp) (by simp) (by decide)
    rw [ihl ht.1, ihr ht.2] at this
    exact this
  | Sin u ih =>
    have := parse_call N "sin".toList (toStringImpl N u) (Or.inl rfl)
      (printed_toString N u ht).2.2.2.1
    rw [ih ht] at this
    exact this
  | Cos u ih =>
    have := parse_call N "cos".toList (toStringImpl N u) (Or.inr (Or.inl rfl))
      (printed_toString N u ht).2.2.2.1
    rw [ih ht] at this
    exact this
  | Ln u ih =>
    have := parse_call N "ln".toList (toStringImpl N u) (Or.inr (Or.inr (Or.inl rfl)))
      (printed_toString N u ht).2.2.2.1
    rw [ih ht] at this
    exact this
  | Exp u ih =>
    have := parse_call N "exp".toList (toStringImpl N u) (Or.inr (Or.inr (Or.inr rfl)))
      (printed_toString N u ht).2.2.2.1
    rw [ih ht] at this
    exact this

/-- C15 (amended): print/parse round trip on plain trees.  For every tree
without null children in which each Variable name is a non-empty text of plain
characters (no whitespace, parenthesis or operator sign) other than `pi` and
`e` that stream extraction does not read as a number, and each Constant
prints as such a text that stream extraction reads back as the same value,
and for every bindings `env`: `parse(toString(t))` succeeds, and evaluating
its tree under `env` gives the same outcome as evaluating `t` under `env`. -/
theorem roundtrip_evaluate {T : Type} (N : Numeric T) (t : ExprNode T) (ht : PlainTree N t)
    (env : VarValues T) :
    ∃ tree, parse N (toStringImpl N t) = .ok tree ∧
      evaluateImpl N tree env = evaluateImpl N t env :=
  ⟨t, parse_toString N t ht, rfl⟩

/-- The round trip in the rational model at `(5 + x) * sin(y)`: the printed
text `((5 + x) * sin(y))` parses, and its tree evaluates like the tree that
was printed under the bindings `x = 1, y = 0`. -/
theorem roundtrip_evaluate_witness :
    ∃ tree, parse ratNumeric "((5 + x) * sin(y))".toList = .ok tree ∧
      evaluateImpl ratNumeric tree
          (fun n => if n = "x".toList then some 1 else if n = "y".toList then some 0 else none)
        = evaluateImpl ratNumeric
          (.Mul (.Add (.Constant 5) (.Variable "x".toList)) (.Sin (.Variable "y".toList)))
          (fun n => if n = "x".toList then some 1 else if n = "y".toList then some 0 else none) :=
  roundtrip_evaluate ratNumeric
    (.Mul (.Add (.Constant 5) (.Variable "x".toList)) (.Sin (.Variable "y".toList)))
    ⟨⟨⟨by decide, rfl⟩, ⟨by decide, rfl⟩⟩, ⟨by decide, rfl⟩⟩ _

/-- C15 (counterexample): the tree `Variable "pi"`, built by the variable-name
constructor, prints as `pi`, which parses to the Constant π; under the
bindings `pi = 1` the printed tree evaluates to 1 and the parsed tree to π,
and under the empty bindings the printed tree fails while the parsed tree
evaluates. -/
theorem roundtrip_changes_pi :
    parse ratNumeric (toStringImpl ratNumeric (.Variable "pi".toList))
      = .ok (.Constant ratNumeric.pi) ∧
    evaluateImpl ratNumeric (.Constant ratNumeric.pi)
        (fun n => if n = "pi".toList then some 1 else none)
      ≠ evaluateImpl ratNumeric (.Variable "pi".toList)
        (fun n => if n = "pi".toList then some 1 else none) ∧
    evaluateImpl ratNumeric (.Constant ratNumeric.pi) (fun _ => none)
      ≠ evaluateImpl ratNumeric (.Variable "pi".toList) (fun _ => none) := by
  refine ⟨rfl, ?_, ?_⟩
  · have h1 : evaluateImpl ratNumeric (.Constant ratNumeric.pi)
        (fun n => if n = "pi".toList then some 1 else none) = .ok ratNumeric.pi := rfl
    have h2 : evaluateImpl ratNumeric (.Variable "pi".toList)
        (fun n => if n = "pi".toList then some 1 else none) = .ok 1 := rfl
    rw [h1, h2]
    intro h
    injection h with h
    norm_num [ratNumeric] at h
  · intro h
    cases h

theorem plainChar_of_isDigit {c : Char} (h : c.isDigit = true) : plainChar c := by
  unfold plainChar isWs
  refine ⟨?_, ?_, ?_, ?_, ?_, ?_, ?_, ?_⟩
  · rintro (rfl | rfl | rfl | rfl) <;> exact absurd h (by decide)
  all_goals (rintro rfl; exact absurd h (by decide))

theorem plainLeaf_of_digits {p : Str} (h : DigitText p) : PlainLeaf p := by
  refine ⟨h.1, fun c hc => plainChar_of_isDigit (h.2 c hc), ?_, ?_⟩
  · intro hp
    have := h.2 'p' (by rw [hp]; decide)
    exact absurd this (by decide)
  · intro hp
    have := h.2 'e' (by rw [hp]; decide)
    exact absurd this (by decide)

theorem plainLeaf_of_name {a : Str} (h : SimpleName a) : PlainLeaf a :=
  ⟨h.1, h.plain, h.2.2.1, h.2.2.2⟩

theorem plainTree_of_nameDigit {T : Type} (N : Numeric T) (t : ExprNode T)
    (h : NameDigitTree N t) : PlainTree N t := by
  induction t with
  | null => exact h
  | Constant v => exact ⟨plainLeaf_of_digits h.2.1, h.2.2⟩
  | Variable n => exact ⟨plainLeaf_of_name h.1, h.2⟩
  | Add l r ihl ihr | Sub l r ihl ihr | Mul l r ihl ihr | Div l r ihl ihr | Pow l r ihl ihr =>
    exact ⟨ihl h.1, ihr h.2⟩
  | Sin u ih | Cos u ih | Ln u ih | Exp u ih => exact ih h

/-- C21: structural round trip on plain trees.  For every well-formed tree
`t` whose Variable names are non-empty strings of letters other than `pi` and
`e` that stream extraction does not read as a number, and whose Constants are
non-negative integers that print as a plain string of decimal digits (which
stream extraction reads as that number), `parse(toString(t))` succeeds and is
structurally equal to `t`. -/
theorem roundtrip_structural {T : Type} (N : Numeric T) (t : ExprNode T)
    (ht : NameDigitTree N t) : parse N (toStringImpl N t) = .ok t :=
  parse_toString N t (plainTree_of_nameDigit N t ht)

/-- The structural round trip in the rational model at `ln(a / 12) - (b ^ 3)`:
the tree prints as `(ln((a / 12)) - (b^3))`, and that text parses back to the
tree. -/
theorem roundtrip_structural_witness :
    toStringImpl ratNumeric
        (.Sub (.Ln (.Div (.Variable "a".toList) (.Constant 12)))
          (.Pow (.Variable "b".toList) (.Constant 3)))
      = "(ln((a / 12)) - (b^3))".toList ∧
    parse ratNumeric "(ln((a / 12)) - (b^3))".toList
      = .ok (.Sub (.Ln (.Div (.Variable "a".toList) (.Constant 12)))
          (.Pow (.Variable "b".toList) (.Constant 3))) :=
  ⟨by decide,
    roundtrip_structural ratNumeric
      (.Sub (.Ln (.Div (.Variable "a".toList) (.Constant 12)))
        (.Pow (.Variable "b".toList) (.Constant 3)))
      ⟨⟨⟨by decide, rfl⟩, ⟨⟨12, by norm_num [ratNumeric]⟩, by decide, rfl⟩⟩,
        ⟨⟨by decide, rfl⟩, ⟨⟨3, by norm_num [ratNumeric]⟩, by decide, rfl⟩⟩⟩⟩

end RoundTripLemmas

/-! ## The wrapped test and unclosed calls -/

section WrappedTheorems

/-- The parts of a text accepted by `isWrappedInParens`. -/
theorem isWrappedInParens_form {t : Str} (h : isWrappedInParens t = true) :
    ∃ X, t = '(' :: (X ++ [')']) ∧ substr t 1 (t.length - 2) = X ∧
      ∀ k, k ≤ X.length → depth (List.take (k + 1) t) ≠ 0 := by
  unfold isWrappedInParens at h
  split at h
  · cases h
  · rename_i hlen
    split at h
    · cases h
    · rename_i hends
      have hhead : t.head? = some '(' := by
        by_contra hh; exact hends (Or.inl hh)
      have hlast : t.getLast? = some ')' := by
        by_contra hh; exact hends (Or.inr hh)
      cases t with
      | nil => simp at hhead
      | cons a rest =>
        simp only [List.head?_cons, Option.some.injEq] at hhead
        subst hhead
        rcases List.eq_nil_or_concat rest with h0 | ⟨X, b, h0⟩
        · subst h0; simp at hlen
        · rw [List.concat_eq_append] at h0
          subst h0
          have hb : b = ')' := by
            have : '(' :: (X ++ [b]) = ('(' :: X) ++ [b] := by simp
            rw [this, getLast?_append_singleton] at hlast
            simpa using hlast
          subst hb
          refine ⟨X, rfl, substr_wrapped X, ?_⟩
          intro k hk
          have htake : List.take (('(' :: (X ++ [')'])).length - 1) ('(' :: (X ++ [')']))
              = '(' :: X := by
            have : '(' :: (X ++ [')']) = ('(' :: X) ++ [')'] := by simp
            rw [this]
            simp
          rw [htake, wrappedLoop_true_iff] at h
          have := h k (by simp; omega)
          rw [zero_add] at this
          have h2 : List.take (k + 1) ('(' :: (X ++ [')'])) = List.take (k + 1) ('(' :: X) := by
            have : '(' :: (X ++ [')']) = ('(' :: X) ++ [')'] := by simp
            rw [this, List.take_append_of_le_length (by simp; omega)]
          rw [h2]
          exact this

/-- A depth that starts at 1 and never reads 0 stays positive. -/
theorem depth_pos_of_ne_zero {X : Str}
    (h : ∀ k, k ≤ X.length → 1 + depth (X.take k) ≠ 0) :
    ∀ k, k ≤ X.length → 0 ≤ depth (X.take k) := by
  intro k
  induction k with
  | zero => intro _; simp [depth_nil]
  | succ k ih =>
    intro hk
    have h1 := ih (by omega)
    have h2 := h (k + 1) hk
    have hlt : k < X.length := by omega
    have hc : X[k]? = some (X.get ⟨k, hlt⟩) := by
      simp [List.getElem?_eq_getElem hlt]
    rw [depth_take_succ hc] at h2 ⊢
    have hb := depth_single_bounds (X.get ⟨k, hlt⟩)
    omega

/-- C18 (amended): what the wrapped-in-parentheses test guarantees.  If
`isWrappedInParens` accepts `t`, then `t` starts with `(`, ends with `)`, and
its first `(` is not closed before the last character: every non-empty proper
prefix of `t` has positive depth.  When in addition `t` has as many `(` as
`)`, the first `(` is matched by the last `)` and the interior of `t` is
balanced.  For an accepted trimmed `t`, `parse t` is the parse of `t` without
its first and last character. -/
theorem isWrappedInParens_only_if (t : Str) (h : isWrappedInParens t = true) :
    t.head? = some '(' ∧ t.getLast? = some ')' ∧
    (∀ k, 0 < k → k < t.length → 0 < depth (t.take k)) ∧
    (depth t = 0 → Balanced (substr t 1 (t.length - 2))) ∧
    (∀ {T : Type} (N : Numeric T), trim t = t →
      parse N t = parse N (substr t 1 (t.length - 2))) := by
  obtain ⟨X, ht, hsub, hne⟩ := isWrappedInParens_form h
  have hone : depth ['('] = 1 := rfl
  have hpos : ∀ k, k ≤ X.length → 0 ≤ depth (X.take k) := by
    apply depth_pos_of_ne_zero
    intro k hk
    have := hne k hk
    rw [ht, List.take_succ_cons, depth_cons, List.take_append_of_le_length hk, hone] at this
    exact this
  refine ⟨by rw [ht]; rfl, ?_, ?_, ?_, ?_⟩
  · have : '(' :: (X ++ [')']) = ('(' :: X) ++ [')'] := by simp
    rw [ht, this, getLast?_append_singleton]
  · intro k hk0 hk
    obtain ⟨j, rfl⟩ : ∃ j, k = j + 1 := ⟨k - 1, by omega⟩
    have hj : j ≤ X.length := by
      rw [ht] at hk
      simp at hk
      omega
    have := hpos j hj
    rw [ht, List.take_succ_cons, depth_cons, List.take_append_of_le_length hj, hone]
    omega
  · intro hd
    rw [hsub]
    refine ⟨hpos, ?_⟩
    rw [ht, depth_cons, depth_append, hone] at hd
    have : depth [')'] = -1 := rfl
    omega
  · intro T N htrim
    exact parse_wrapped N htrim h

/-- The wrapped test at `(x+1)` in the rational model: the text is accepted,
balanced, and parses like `x+1`. -/
theorem isWrappedInParens_only_if_witness :
    Balanced "x+1".toList ∧
    parse ratNumeric "(x+1)".toList = .ok (.Add (.Variable "x".toList) (.Constant 1)) :=
  have h := isWrappedInParens_only_if "(x+1)".toList (by decide)
  ⟨h.2.2.2.1 (by decide), (h.2.2.2.2 ratNumeric rfl).trans rfl⟩

/-- C18 (counterexample): `isWrappedInParens` accepts the trimmed text `((a)`,
whose last `)` closes the second `(`; its interior `(a` is not balanced, and
`parse` recurses on it and returns `Variable "(a"`. -/
theorem isWrappedInParens_accepts_unmatched :
    isWrappedInParens "((a)".toList = true ∧ trim "((a)".toList = "((a)".toList ∧
    substr "((a)".toList 1 ("((a)".toList.length - 2) = "(a".toList ∧
    ¬ Balanced "(a".toList ∧
    parse ratNumeric "((a)".toList = .ok (.Variable "(a".toList) :=
  ⟨by decide, rfl, rfl, by decide, rfl⟩

/-- The unclosed call `name(rest` fails in `getInsideFunction`. -/
theorem parse_unclosed {T : Type} (N : Numeric T) (name rest : Str)
    (hname : name = "sin".toList ∨ name = "cos".toList ∨ name = "ln".toList ∨
      name = "exp".toList)
    (htrim : trim (name ++ '(' :: rest) = name ++ '(' :: rest)
    (hopen : ∀ k, k ≤ rest.length → 1 + depth (rest.take k) ≠ 0) :
    parse N (name ++ '(' :: rest) = .error (.unmatchedParens (name ++ '(' :: rest)) := by
  obtain ⟨hplain, a, hhead, ha1, ha2⟩ := name_plain hname
  have hops : ∀ c ∈ name, c ∉ ['+', '-', '*', '/', '^'] := by
    intro c hc hmem
    have hp := hplain c hc
    simp only [List.mem_cons, List.mem_singleton, List.not_mem_nil, or_false] at hmem
    rcases hmem with h | h | h | h | h
    · exact hp.2.2.2.1 h
    · exact hp.2.2.2.2.1 h
    · exact hp.2.2.2.2.2.1 h
    · exact hp.2.2.2.2.2.2.1 h
    · exact hp.2.2.2.2.2.2.2 h
  rw [parse_eq, htrim, parseStep_open N _ name rest a hhead ha1 ha2 hops (depth_of_plain hplain)
    hopen, call_chain N _ name rest hname]
  exact parseCall_open _ _ _ _ hopen

/-- C19: an unclosed function call is rejected.  For every trimmed text `t`
that starts with `sin(`, `cos(`, `ln(` or `exp(` and in which the parenthesis
opened right after the function name is never closed (the depth counted from
that parenthesis, starting at 1, never returns to 0), `parse t` fails, with
the unmatched-parentheses error. -/
theorem parse_unclosed_call_fails {T : Type} (N : Numeric T) (t name rest : Str)
    (hname : name = "sin".toList ∨ name = "cos".toList ∨ name = "ln".toList ∨
      name = "exp".toList)
    (ht : t = name ++ "(".toList ++ rest) (htrim : trim t = t)
    (hopen : ∀ k, k ≤ rest.length → 1 + depth (rest.take k) ≠ 0) :
    (∃ err, parse N t = .error err) ∧ parse N t = .error (.unmatchedParens t) := by
  have hform : name ++ "(".toList ++ rest = name ++ '(' :: rest := by simp
  rw [hform] at ht
  subst ht
  have h := parse_unclosed N name rest hname htrim hopen
  exact ⟨⟨_, h⟩, h⟩

/-- The unclosed call `sin(x+1` in the rational model: `parse` fails with the
unmatched-parentheses error. -/
theorem parse_unclosed_call_fails_witness :
    parse ratNumeric "sin(x+1".toList = .error (.unmatchedParens "sin(x+1".toList) :=
  (parse_unclosed_call_fails ratNumeric "sin(x+1".toList "sin".toList "x+1".toList
    (Or.inl rfl) rfl rfl (by decide)).2

end WrappedTheorems

/-! ## The derivative tree over the real numbers -/

section DerivativeTheorems

theorem bind_self {T : Type} (env : VarValues T) (x : Str) (a : T) (h : env x = some a) :
    env.bind x a = env := by
  funext n
  unfold VarValues.bind
  split
  · rename_i hn; rw [hn, h]
  · rfl

/-- The derivative tree of a tree of smooth nodes evaluates, under bindings
that bind `x` to `a0`, to the derivative at `a0` of the value of the tree as a
function of `x`. -/
theorem derivative_smooth (N : Numeric ℝ) (hN : RealOps N) (t : ExprNode ℝ) (x : Str)
    (env : VarValues ℝ) (a0 : ℝ) (ht : Smooth t)
    (hb : ∀ n ∈ varNames t, ∃ w, env n = some w) (hx : env x = some a0) :
    ∃ (f : ℝ → ℝ) (v : ℝ), (∀ a, evaluateImpl N t (env.bind x a) = .ok (f a)) ∧
      evaluateImpl N (differentiateImpl N t x) env = .ok v ∧ HasDerivAt f v a0 := by
  have hself := bind_self env x a0 hx
  induction t with
  | null => exact absurd ht (by simp [Smooth])
  | Div l r _ _ => exact absurd ht (by simp [Smooth])
  | Pow l r _ _ => exact absurd ht (by simp [Smooth])
  | Ln u _ => exact absurd ht (by simp [Smooth])
  | Constant c =>
    refine ⟨fun _ => c, 0, fun _ => rfl, ?_, hasDerivAt_const a0 c⟩
    simp only [differentiateImpl, evaluateImpl, hN.ofInt]
    norm_num
  | Variable n =>
    by_cases hn : n = x
    · subst hn
      refine ⟨fun a => a, 1, ?_, ?_, hasDerivAt_id a0⟩
      · intro a
        simp [evaluateImpl, VarValues.bind]
      · simp only [differentiateImpl, if_true, evaluateImpl, hN.ofInt]
        norm_num
    · obtain ⟨w, hw⟩ := hb n (by simp [varNames])
      refine ⟨fun _ => w, 0, ?_, ?_, hasDerivAt_const a0 w⟩
      · intro a
        simp [evaluateImpl, VarValues.bind, hn, hw]
      · simp only [differentiateImpl, if_neg hn, evaluateImpl, hN.ofInt]
        norm_num
  | Add l r ihl ihr =>
    obtain ⟨fl, vl, hfl, hvl, hdl⟩ := ihl ht.1 (fun n hn => hb n (by simp [varNames, hn]))
    obtain ⟨fr, vr, hfr, hvr, hdr⟩ := ihr ht.2 (fun n hn => hb n (by simp [varNames, hn]))
    refine ⟨fun a => fl a + fr a, vl + vr, ?_, ?_, hdl.add hdr⟩
    · intro a
      simp only [evaluateImpl, hfl a, hfr a, ← hN.add]
      rfl
    · simp only [differentiateImpl, evaluateImpl, hvl, hvr, ← hN.add]
      rfl
  | Sub l r ihl ihr =>
    obtain ⟨fl, vl, hfl, hvl, hdl⟩ := ihl ht.1 (fun n hn => hb n (by simp [varNames, hn]))
    obtain ⟨fr, vr, hfr, hvr, hdr⟩ := ihr ht.2 (fun n hn => hb n (by simp [varNames, hn]))
    refine ⟨fun a => fl a - fr a, vl - vr, ?_, ?_, hdl.sub hdr⟩
    · intro a
      simp only [evaluateImpl, hfl a, hfr a, ← hN.sub]
      rfl
    · simp only [differentiateImpl, evaluateImpl, hvl, hvr, ← hN.sub]
      rfl
  | Mul l r ihl ihr =>
    obtain ⟨fl, vl, hfl, hvl, hdl⟩ := ihl ht.1 (fun n hn => hb n (by simp [varNames, hn]))
    obtain ⟨fr, vr, hfr, hvr, hdr⟩ := ihr ht.2 (fun n hn => hb n (by simp [varNames, hn]))
    have hl0 : evaluateImpl N l env = .ok (fl a0) := by rw [← hself]; exact hfl a0
    have hr0 : evaluateImpl N r env = .ok (fr a0) := by rw [← hself]; exact hfr a0
    refine ⟨fun a => fl a * fr a, vl * fr a0 + fl a0 * vr, ?_, ?_, hdl.mul hdr⟩
    · intro a
      simp only [evaluateImpl, hfl a, hfr a, ← hN.mul]
      rfl
    · simp only [differentiateImpl, evaluateImpl, hvl, hvr, hl0, hr0, ← hN.mul, ← hN.add]
      rfl
  | Sin u ih =>
    obtain ⟨fu, vu, hfu, hvu, hdu⟩ := ih ht (fun n hn => hb n (by simpa [varNames] using hn))
    have hu0 : evaluateImpl N u env = .ok (fu a0) := by rw [← hself]; exact hfu a0
    refine ⟨fun a => Real.sin (fu a), Real.cos (fu a0) * vu, ?_, ?_, hdu.sin⟩
    · intro a
      simp only [evaluateImpl, hfu a, ← hN.sin]
      rfl
    · simp only [differentiateImpl, evaluateImpl, hvu, hu0, ← hN.cos, ← hN.mul]
      rfl
  | Cos u ih =>
    obtain ⟨fu, vu, hfu, hvu, hdu⟩ := ih ht (fun n hn => hb n (by simpa [varNames] using hn))
    have hu0 : evaluateImpl N u env = .ok (fu a0) := by rw [← hself]; exact hfu a0
    refine ⟨fun a => Real.cos (fu a), -Real.sin (fu a0) * vu, ?_, ?_, hdu.cos⟩
    · intro a
      simp only [evaluateImpl, hfu a, ← hN.cos]
      rfl
    · have hval : N.mul (N.mul (N.ofInt (-1)) (N.sin (fu a0))) vu = -Real.sin (fu a0) * vu := by
        rw [hN.mul, hN.mul, hN.ofInt, hN.sin]
        push_cast
        ring
      rw [← hval]
      simp only [differentiateImpl, evaluateImpl, hvu, hu0]
      rfl
  | Exp u ih =>
    obtain ⟨fu, vu, hfu, hvu, hdu⟩ := ih ht (fun n hn => hb n (by simpa [varNames] using hn))
    have hu0 : evaluateImpl N u env = .ok (fu a0) := by rw [← hself]; exact hfu a0
    refine ⟨fun a => Real.exp (fu a), Real.exp (fu a0) * vu, ?_, ?_, hdu.exp⟩
    · intro a
      simp only [evaluateImpl, hfu a, ← hN.exp]
      rfl
    · simp only [differentiateImpl, evaluateImpl, hvu, hu0, ← hN.exp, ← hN.mul]
      rfl

theorem realNumeric_ops : RealOps realNumeric :=
  ⟨fun _ => rfl, fun _ _ => rfl, fun _ _ => rfl, fun _ _ => rfl, fun _ => rfl, fun _ => rfl,
    fun _ => rfl⟩

/-- C22: the derivative tree computes the mathematical derivative.  Values
being real numbers (a numeric type on ℝ with the real constants, sum,
difference, product, sine, cosine and exponential), for every tree `t` built
only from Constant, Variable, Add, Sub, Mul, Sin, Cos and Exp nodes, every
variable name `x` and every bindings `env` that bind all variables of `t` and
bind `x` to `a0`: `evaluate(t, env with x bound to a)` succeeds for every `a`,
`evaluate(differentiate(t, x), env)` succeeds, and its value is the derivative
at `a0` of the function `a ↦ evaluate(t, env with x bound to a)`. -/
theorem differentiate_is_derivative (N : Numeric ℝ) (hN : RealOps N) (t : ExprNode ℝ) (x : Str)
    (env : VarValues ℝ) (a0 : ℝ) (ht : Smooth t)
    (hb : ∀ n ∈ varNames t, ∃ w, env n = some w) (hx : env x = some a0) :
    ∃ (f : ℝ → ℝ) (v : ℝ), (∀ a, evaluateImpl N t (env.bind x a) = .ok (f a)) ∧
      evaluateImpl N (differentiateImpl N t x) env = .ok v ∧
      HasDerivAt f v a0 ∧ deriv f a0 = v := by
  obtain ⟨f, v, hf, hv, hd⟩ := derivative_smooth N hN t x env a0 ht hb hx
  exact ⟨f, v, hf, hv, hd, hd.deriv⟩

/-- The derivative of `x * sin(x) + exp(y)` by `x` in the real model at
`x = 2, y = 0`: the tree evaluates for every value of `x`, the derivative
tree evaluates, and its value is the derivative at 2. -/
theorem differentiate_is_derivative_witness :
    ∃ (f : ℝ → ℝ) (v : ℝ),
      (∀ a, evaluateImpl realNumeric
          (.Add (.Mul (.Variable "x".toList) (.Sin (.Variable "x".toList)))
            (.Exp (.Variable "y".toList)))
          (VarValues.bind
            (fun n => if n = "x".toList then some 2 else if n = "y".toList then some 0 else none)
            "x".toList a) = .ok (f a)) ∧
      evaluateImpl realNumeric
          (differentiateImpl realNumeric
            (.Add (.Mul (.Variable "x".toList) (.Sin (.Variable "x".toList)))
              (.Exp (.Variable "y".toList))) "x".toList)
          (fun n => if n = "x".toList then some 2 else if n = "y".toList then some 0 else none)
        = .ok v ∧
      HasDerivAt f v 2 ∧ deriv f 2 = v := by
  have hsmooth : Smooth (ExprNode.Add (.Mul (.Variable "x".toList) (.Sin (.Variable "x".toList)))
      (.Exp (.Variable "y".toList)) : ExprNode ℝ) := ⟨⟨trivial, trivial⟩, trivial⟩
  refine differentiate_is_derivative realNumeric realNumeric_ops _ "x".toList _ 2 hsmooth ?_ rfl
  intro n hn
  simp only [varNames, List.mem_append, List.mem_singleton] at hn
  rcases hn with (rfl | rfl) | rfl
  · exact ⟨2, rfl⟩
  · exact ⟨2, rfl⟩
  · exact ⟨0, rfl⟩

end DerivativeTheorems

end Differentiator
